import Mathlib

/-! The flow engine of trkenv: `FlowData`, `FlowNode`, `DAGProcessor` and
`ExecutionEngine`.

A shallow embedding of `src/flow/flow_node.{h,cpp}`, `src/flow/dag_processor.{h,cpp}`
and `src/flow/execution_engine.{h,cpp}`, with the two string utilities
`escapeString` and `formatQuery` of `src/database/database_stubs.cpp`.

* `std::unordered_map<std::string, V>` is an association list with unique keys.
  The order of the list is the order in which a range-for visits the entries;
  C++ leaves that order unspecified, so the reachability relation below is
  closed under every reordering of the three maps.
* `std::unordered_set<std::string>` is a list used through membership only.
* `std::shared_ptr<FlowNode>` is `Option (FlowNode D)` where it may be null.
  A `std::weak_ptr<FlowNode>` inside a `Connection` is the id of the node it
  was made from; whether it can still be locked depends on who else owns the node.
* For `FlowNode` and `DAGProcessor` the payload type is a parameter `D`; the
  virtual `process(input, output)` is a function from the input to the returned
  flag and the contents of `output` (which `executeGraph` hands over freshly
  constructed). `FlowData` itself is modelled over a parameter `TypeUniverse` that
  supplies the C++ types it is used with, and can be taken for `D`.
* The threads of `ExecutionEngine` are modelled by the atomic actions they take on
  the engine (the block under `m_queueMutex`, the end of a task), in any
  interleaving.
* The `int` counters of `topologicalSort` are `Int`; a dependency list would need
  `2^31` entries before the C++ counter could differ.
* Loops that C++ runs until a queue is empty or a recursion bottoms out take a
  fuel argument and return `none` when it runs out; the functions that start them
  supply the fuel, and they are proved to return `some` result.
-/

namespace Flow

/-! ## unordered_map -/

/-- `m.find(key)`: the mapped value, `none` for `m.end()`. -/
def mapFind {V : Type} : List (String × V) → String → Option V
  | [], _ => none
  | (k, v) :: m, key => if k = key then some v else mapFind m key

/-- `m.erase(key)`. -/
def mapErase {V : Type} (m : List (String × V)) (key : String) : List (String × V) :=
  m.filter (fun e => e.1 != key)

/-- `m[key]` followed by an in-place update `f` of the mapped value; as in C++,
`operator[]` first inserts a value-initialised entry `dflt` when `key` is
missing. -/
def mapModify {V : Type} : List (String × V) → String → V → (V → V) → List (String × V)
  | [], key, dflt, f => [(key, f dflt)]
  | (k, v) :: m, key, dflt, f =>
    if k = key then (k, f v) :: m else (k, v) :: mapModify m key dflt f

/-- `m[key] = v`. -/
def mapAssign {V : Type} (m : List (String × V)) (key : String) (v : V) : List (String × V) :=
  mapModify m key v (fun _ => v)

/-- A mutation through a pointer to the object stored under `key` (the entry
itself stays where it is). -/
def mapAdjust {V : Type} : List (String × V) → String → (V → V) → List (String × V)
  | [], _, _ => []
  | (k, v) :: m, key, f => if k = key then (k, f v) :: m else (k, v) :: mapAdjust m key f

/-- The keys in iteration order. -/
def mapKeys {V : Type} (m : List (String × V)) : List String := m.map Prod.fst

/-! ## FlowNode -/

/-- `FlowNode::Connection`. -/
structure Connection where
  node : String
  port : String
deriving DecidableEq

/-- `FlowNode`; `process` is the pure virtual of the same name. -/
structure FlowNode (D : Type) where
  m_id : String
  m_type : String
  m_ready : Bool
  m_inputPorts : List String
  m_outputPorts : List String
  m_inputConnections : List (String × List Connection)
  m_outputConnections : List (String × List Connection)
  process : D → Bool × D

/-- `FlowNode::FlowNode(id, type)` for a subclass whose `process` is `p`. -/
def FlowNode.mk0 {D : Type} (id type : String) (p : D → Bool × D) : FlowNode D :=
  { m_id := id, m_type := type, m_ready := false, m_inputPorts := [], m_outputPorts := [],
    m_inputConnections := [], m_outputConnections := [], process := p }

/-- `FlowNode::addInputConnection`. -/
def FlowNode.addInputConnection {D : Type} (n : FlowNode D) (inputPort : String)
    (sourceNode : FlowNode D) (outputPort : String) : FlowNode D :=
  let conn : Connection := { node := sourceNode.m_id, port := outputPort }
  { n with
    m_inputConnections := mapModify n.m_inputConnections inputPort [] (fun l => l ++ [conn])
    m_inputPorts := if inputPort ∈ n.m_inputPorts then n.m_inputPorts
                    else n.m_inputPorts ++ [inputPort] }

/-- `FlowNode::addOutputConnection`. -/
def FlowNode.addOutputConnection {D : Type} (n : FlowNode D) (outputPort : String)
    (targetNode : FlowNode D) (inputPort : String) : FlowNode D :=
  let conn : Connection := { node := targetNode.m_id, port := inputPort }
  { n with
    m_outputConnections := mapModify n.m_outputConnections outputPort [] (fun l => l ++ [conn])
    m_outputPorts := if outputPort ∈ n.m_outputPorts then n.m_outputPorts
                     else n.m_outputPorts ++ [outputPort] }

/-! ## DAGProcessor -/

/-- The data members of `DAGProcessor`. -/
structure DAGProcessor (D : Type) where
  m_nodes : List (String × FlowNode D)
  m_dependencies : List (String × List String)
  m_dependents : List (String × List String)
  m_parallelExecution : Bool

/-- `DAGProcessor::DAGProcessor()`. -/
def DAGProcessor.new {D : Type} : DAGProcessor D :=
  { m_nodes := [], m_dependencies := [], m_dependents := [], m_parallelExecution := false }

/-- `DAGProcessor::getNode`. -/
def getNode {D : Type} (s : DAGProcessor D) (nodeId : String) : Option (FlowNode D) :=
  mapFind s.m_nodes nodeId

/-- `DAGProcessor::getAllNodes`. -/
def getAllNodes {D : Type} (s : DAGProcessor D) : List (FlowNode D) :=
  s.m_nodes.map Prod.snd

/-- `DAGProcessor::getNodeDependencies`. -/
def getNodeDependencies {D : Type} (s : DAGProcessor D) (nodeId : String) : List String :=
  match mapFind s.m_dependencies nodeId with
  | some deps => deps
  | none => []

/-- `DAGProcessor::addNode`: the returned flag and the processor afterwards. -/
def addNode {D : Type} (s : DAGProcessor D) (node : Option (FlowNode D)) :
    Bool × DAGProcessor D :=
  match node with
  | none => (false, s)
  | some n =>
    if n.m_id = "" then (false, s)
    else if (mapFind s.m_nodes n.m_id).isSome then (false, s)
    else (true, { s with m_nodes := mapAssign s.m_nodes n.m_id n })

/-- `DAGProcessor::removeNode`. -/
def removeNode {D : Type} (s : DAGProcessor D) (nodeId : String) : Bool × DAGProcessor D :=
  match mapFind s.m_nodes nodeId with
  | none => (false, s)
  | some _ =>
    let deps := mapErase s.m_dependencies nodeId
    let dpts := mapErase s.m_dependents nodeId
    let deps := deps.map (fun e => (e.1, e.2.filter (fun x => x != nodeId)))
    let dpts := dpts.map (fun e => (e.1, e.2.filter (fun x => x != nodeId)))
    (true, { s with m_nodes := mapErase s.m_nodes nodeId,
                    m_dependencies := deps, m_dependents := dpts })

/-- `DAGProcessor::connectNodes`. The two endpoint objects are mutated through
their pointers, the target first; with `sourceId = targetId` both mutations hit
the same object. -/
def connectNodes {D : Type} (s : DAGProcessor D) (sourceId sourcePort targetId targetPort : String) :
    Bool × DAGProcessor D :=
  match getNode s sourceId, getNode s targetId with
  | some sourceNode, some targetNode =>
    let nodes := mapAdjust s.m_nodes targetId
      (fun t => t.addInputConnection targetPort sourceNode sourcePort)
    let nodes := mapAdjust nodes sourceId
      (fun src => src.addOutputConnection sourcePort targetNode targetPort)
    (true, { s with
      m_nodes := nodes
      m_dependencies := mapModify s.m_dependencies targetId [] (fun l => l ++ [sourceId])
      m_dependents := mapModify s.m_dependents sourceId [] (fun l => l ++ [targetId]) })
  | _, _ => (false, s)

/-! ### Topological order -/

/-- The value `inDegree[id]` would read: the stored count, `0` for a key that
`operator[]` would have to create. -/
def degreeOf (inDegree : List (String × Int)) (id : String) : Int :=
  match mapFind inDegree id with
  | some d => d
  | none => 0

/-- The body of `for (dependent : depIt->second)` in `topologicalSort`, folded over
the dependents of the node just popped: `inDegree[dependent]--`, then a push when
the count has reached zero. -/
def relaxDependents : List String → List (String × Int) → List String →
    List (String × Int) × List String
  | [], inDegree, queue => (inDegree, queue)
  | dependent :: rest, inDegree, queue =>
    let inDegree := mapModify inDegree dependent 0 (fun d => d - 1)
    if degreeOf inDegree dependent = 0 then relaxDependents rest inDegree (queue ++ [dependent])
    else relaxDependents rest inDegree queue

/-- The loop `while (!queue.empty())` of `topologicalSort`; one unit of fuel per
iteration. -/
def sortLoop {D : Type} (s : DAGProcessor D) :
    Nat → List (String × Int) → List String → List String → Option (List String)
  | _, _, [], sortedNodes => some sortedNodes
  | 0, _, _ :: _, _ => none
  | fuel + 1, inDegree, current :: queue, sortedNodes =>
    let sortedNodes := sortedNodes ++ [current]
    match mapFind s.m_dependents current with
    | some dependents =>
      let r := relaxDependents dependents inDegree queue
      sortLoop s fuel r.1 r.2 sortedNodes
    | none => sortLoop s fuel inDegree queue sortedNodes

/-- The local map `inDegree` of `topologicalSort` after its two initialising
loops. Its entries stand in the order of `m_nodes`; as the processors considered
range over every order of `m_nodes`, every iteration order of `inDegree` is
covered. -/
def initialInDegree {D : Type} (s : DAGProcessor D) : List (String × Int) :=
  let inDegree := s.m_nodes.foldl (fun m e => mapAssign m e.1 0) []
  s.m_dependencies.foldl (fun m e => mapAssign m e.1 (e.2.length : Int)) inDegree

/-- The queue of `topologicalSort` when the main loop starts. -/
def initialQueue (inDegree : List (String × Int)) : List String :=
  (inDegree.filter (fun e => decide (e.2 = 0))).map Prod.fst

/-- `DAGProcessor::topologicalSort`: the returned flag and `sortedNodes`. -/
def topologicalSort {D : Type} (s : DAGProcessor D) : Option (Bool × List String) :=
  let inDegree := initialInDegree s
  match sortLoop s inDegree.length inDegree (initialQueue inDegree) [] with
  | none => none
  | some sortedNodes => some (decide (sortedNodes.length = s.m_nodes.length), sortedNodes)

/-- `DAGProcessor::getExecutionOrder`. -/
def getExecutionOrder {D : Type} (s : DAGProcessor D) : Option (List String) :=
  match topologicalSort s with
  | none => none
  | some r => some r.2

/-! ### Cycle detection -/

/-- The body of `for (dependent : depIt->second)` in `detectCyclesHelper`; `recurse`
is the recursive call. The result is the flag with the two sets as they are left. -/
def scanDependents (recurse : String → List String → List String →
      Option (Bool × List String × List String)) :
    List String → List String → List String → Option (Bool × List String × List String)
  | [], visited, recursionStack => some (false, visited, recursionStack)
  | dependent :: rest, visited, recursionStack =>
    if dependent ∈ recursionStack then some (true, visited, recursionStack)
    else if dependent ∉ visited then
      match recurse dependent visited recursionStack with
      | none => none
      | some (true, visited, recursionStack) => some (true, visited, recursionStack)
      | some (false, visited, recursionStack) =>
        scanDependents recurse rest visited recursionStack
    else scanDependents recurse rest visited recursionStack

/-- `DAGProcessor::detectCyclesHelper`; one unit of fuel per call. -/
def detectCyclesHelper {D : Type} (s : DAGProcessor D) :
    Nat → String → List String → List String → Option (Bool × List String × List String)
  | 0, _, _, _ => none
  | fuel + 1, nodeId, visited, recursionStack =>
    let visited := List.insert nodeId visited
    let recursionStack := List.insert nodeId recursionStack
    match mapFind s.m_dependents nodeId with
    | some dependents =>
      match scanDependents (detectCyclesHelper s fuel) dependents visited recursionStack with
      | none => none
      | some (true, visited, recursionStack) => some (true, visited, recursionStack)
      | some (false, visited, recursionStack) =>
        some (false, visited, recursionStack.filter (fun x => x != nodeId))
    | none => some (false, visited, recursionStack.filter (fun x => x != nodeId))

/-- Fuel that covers every call `detectCyclesHelper` can make: one per id that can
be visited. -/
def detectFuel {D : Type} (s : DAGProcessor D) : Nat :=
  s.m_nodes.length + (s.m_dependents.map (fun e => e.2.length)).sum + 1

/-- The loop `for ([nodeId, node] : m_nodes)` of `detectCycles`. -/
def detectLoop {D : Type} (s : DAGProcessor D) :
    List (String × FlowNode D) → List String → List String → Option Bool
  | [], _, _ => some false
  | e :: rest, visited, recursionStack =>
    if e.1 ∉ visited then
      match detectCyclesHelper s (detectFuel s) e.1 visited recursionStack with
      | none => none
      | some (true, _, _) => some true
      | some (false, visited, recursionStack) => detectLoop s rest visited recursionStack
    else detectLoop s rest visited recursionStack

/-- `DAGProcessor::detectCycles`. -/
def detectCycles {D : Type} (s : DAGProcessor D) : Option Bool :=
  detectLoop s s.m_nodes [] []

/-- `DAGProcessor::hasCycles`. -/
def hasCycles {D : Type} (s : DAGProcessor D) : Option Bool :=
  detectCycles s

/-- `DAGProcessor::buildDependencyGraph` (its body is empty). -/
def buildDependencyGraph {D : Type} (s : DAGProcessor D) : DAGProcessor D := s

/-- `DAGProcessor::validateGraph`: the returned flag and the processor afterwards. -/
def validateGraph {D : Type} (s : DAGProcessor D) : Option (Bool × DAGProcessor D) :=
  let s := buildDependencyGraph s
  match hasCycles s with
  | none => none
  | some c => some (!c, s)

/-! ### Execution -/

/-- What a call of `executeGraph` produces: the returned flag, the caller's
`finalData` afterwards, and the ids of the nodes whose `process` was called, in
call order. -/
structure Execution (D : Type) where
  ok : Bool
  finalData : D
  invoked : List String

/-- The loop `for (nodeId : executionOrder)` of `executeGraph` together with the two
statements after it. `invoked` collects the ids whose `process` has been called. -/
def runOrder {D : Type} (s : DAGProcessor D) :
    List String → D → D → List String → Execution D
  | [], currentData, _, invoked => { ok := true, finalData := currentData, invoked := invoked }
  | nodeId :: rest, currentData, finalData, invoked =>
    match getNode s nodeId with
    | none => runOrder s rest currentData finalData invoked
    | some node =>
      let r := node.process currentData
      if r.1 = false then { ok := false, finalData := finalData, invoked := invoked ++ [nodeId] }
      else runOrder s rest r.2 finalData (invoked ++ [nodeId])

/-- `DAGProcessor::executeGraph(initialData, finalData)`. -/
def executeGraph {D : Type} (s : DAGProcessor D) (initialData finalData : D) :
    Option (Execution D) :=
  match validateGraph s with
  | none => none
  | some (false, _) => some { ok := false, finalData := finalData, invoked := [] }
  | some (true, s) =>
    match topologicalSort s with
    | none => none
    | some (false, _) => some { ok := false, finalData := finalData, invoked := [] }
    | some (true, executionOrder) => some (runOrder s executionOrder initialData finalData [])

/-! ### The loops with a log

The same functions, each with one more argument that nothing reads: the list of
the ids on which `detectCyclesHelper` has been entered, and the list of the ids
pushed on the queue of `topologicalSort`. -/

/-- The function `scanDependents` with the log `entered` passed along. -/
def scanDependentsLogged (recurse : String → List String → List String → List String →
      Option (Bool × List String × List String × List String)) :
    List String → List String → List String → List String →
      Option (Bool × List String × List String × List String)
  | [], visited, recursionStack, entered => some (false, visited, recursionStack, entered)
  | dependent :: rest, visited, recursionStack, entered =>
    if dependent ∈ recursionStack then some (true, visited, recursionStack, entered)
    else if dependent ∉ visited then
      match recurse dependent visited recursionStack entered with
      | none => none
      | some (true, visited, recursionStack, entered) =>
        some (true, visited, recursionStack, entered)
      | some (false, visited, recursionStack, entered) =>
        scanDependentsLogged recurse rest visited recursionStack entered
    else scanDependentsLogged recurse rest visited recursionStack entered

/-- The function `detectCyclesHelper`, which on entry records `nodeId` at the end of
the log `entered`. -/
def detectCyclesHelperLogged {D : Type} (s : DAGProcessor D) :
    Nat → String → List String → List String → List String →
      Option (Bool × List String × List String × List String)
  | 0, _, _, _, _ => none
  | fuel + 1, nodeId, visited, recursionStack, entered =>
    let entered := entered ++ [nodeId]
    let visited := List.insert nodeId visited
    let recursionStack := List.insert nodeId recursionStack
    match mapFind s.m_dependents nodeId with
    | some dependents =>
      match scanDependentsLogged (detectCyclesHelperLogged s fuel) dependents visited
          recursionStack entered with
      | none => none
      | some (true, visited, recursionStack, entered) =>
        some (true, visited, recursionStack, entered)
      | some (false, visited, recursionStack, entered) =>
        some (false, visited, recursionStack.filter (fun x => x != nodeId), entered)
    | none => some (false, visited, recursionStack.filter (fun x => x != nodeId), entered)

/-- The loop `detectLoop` with the log; the result is the flag and the log. -/
def detectLoopLogged {D : Type} (s : DAGProcessor D) :
    List (String × FlowNode D) → List String → List String → List String →
      Option (Bool × List String)
  | [], _, _, entered => some (false, entered)
  | e :: rest, visited, recursionStack, entered =>
    if e.1 ∉ visited then
      match detectCyclesHelperLogged s (detectFuel s) e.1 visited recursionStack entered with
      | none => none
      | some (true, _, _, entered) => some (true, entered)
      | some (false, visited, recursionStack, entered) =>
        detectLoopLogged s rest visited recursionStack entered
    else detectLoopLogged s rest visited recursionStack entered

/-- The function `detectCycles` with the log of the ids on which
`detectCyclesHelper` was entered, in the order of the calls. -/
def detectCyclesLogged {D : Type} (s : DAGProcessor D) : Option (Bool × List String) :=
  detectLoopLogged s s.m_nodes [] [] []

/-- The function `relaxDependents`, which records every `queue.push` at the end of
the log `pushed`. -/
def relaxDependentsLogged : List String → List (String × Int) → List String → List String →
    List (String × Int) × List String × List String
  | [], inDegree, queue, pushed => (inDegree, queue, pushed)
  | dependent :: rest, inDegree, queue, pushed =>
    let inDegree := mapModify inDegree dependent 0 (fun d => d - 1)
    if degreeOf inDegree dependent = 0 then
      relaxDependentsLogged rest inDegree (queue ++ [dependent]) (pushed ++ [dependent])
    else relaxDependentsLogged rest inDegree queue pushed

/-- The loop `sortLoop` with the log; the result is `sortedNodes` and the log. -/
def sortLoopLogged {D : Type} (s : DAGProcessor D) :
    Nat → List (String × Int) → List String → List String → List String →
      Option (List String × List String)
  | _, _, [], sortedNodes, pushed => some (sortedNodes, pushed)
  | 0, _, _ :: _, _, _ => none
  | fuel + 1, inDegree, current :: queue, sortedNodes, pushed =>
    let sortedNodes := sortedNodes ++ [current]
    match mapFind s.m_dependents current with
    | some dependents =>
      let r := relaxDependentsLogged dependents inDegree queue pushed
      sortLoopLogged s fuel r.1 r.2.1 sortedNodes r.2.2
    | none => sortLoopLogged s fuel inDegree queue sortedNodes pushed

/-- The function `topologicalSort` with the log of the ids pushed on its queue, in
the order of the pushes; the pushes of the initialising loop come first. -/
def topologicalSortLogged {D : Type} (s : DAGProcessor D) :
    Option (Bool × List String × List String) :=
  let inDegree := initialInDegree s
  match sortLoopLogged s inDegree.length inDegree (initialQueue inDegree) []
      (initialQueue inDegree) with
  | none => none
  | some r => some (decide (r.1.length = s.m_nodes.length), r.1, r.2)

/-! ## FlowData -/

/-- The C++ types that `setData<T>` and `getData<T>` are instantiated with: `Info`
are the `std::type_info` objects, `decEq` their `operator==`, `Value t` the values
of the type and `init t` the value-initialised `T{}`. -/
structure TypeUniverse where
  Info : Type
  decEq : DecidableEq Info
  Value : Info → Type
  init : (t : Info) → Value t

instance (U : TypeUniverse) : DecidableEq U.Info := U.decEq

/-- The object a `std::shared_ptr<void>` of `m_data` points to: made by
`std::make_shared<T>(value)`, it has the dynamic type `T` and the value `value`. -/
structure Stored (U : TypeUniverse) where
  type : U.Info
  value : U.Value type

/-- The data members of `FlowData`. -/
structure FlowData (U : TypeUniverse) where
  m_data : List (String × Stored U)
  m_types : List (String × U.Info)

/-- `FlowData::FlowData()`. -/
def FlowData.new {U : TypeUniverse} : FlowData U := { m_data := [], m_types := [] }

/-- `FlowData::setData<T>(key, value)`, with `t` for `T`. -/
def setData {U : TypeUniverse} (t : U.Info) (d : FlowData U) (key : String)
    (value : U.Value t) : FlowData U :=
  { m_data := mapAssign d.m_data key { type := t, value := value }
    m_types := mapAssign d.m_types key t }

/-- `*std::static_pointer_cast<T>(p)`: the value of the object when it is a `T`.
Reading an object of another type through a `T*` has no defined result: `none`. -/
def staticPointerCast {U : TypeUniverse} (t : U.Info) (p : Stored U) : Option (U.Value t) :=
  if h : p.type = t then some (h ▸ p.value) else none

/-- `FlowData::getData<T>(key)`, with `t` for `T`. -/
def getData {U : TypeUniverse} (t : U.Info) (d : FlowData U) (key : String) :
    Option (U.Value t) :=
  match mapFind d.m_data key with
  | some p =>
    match mapFind d.m_types key with
    | some ty => if ty = t then staticPointerCast t p else some (U.init t)
    | none => some (U.init t)
  | none => some (U.init t)

/-- `FlowData::hasData`. -/
def hasData {U : TypeUniverse} (d : FlowData U) (key : String) : Bool :=
  (mapFind d.m_data key).isSome

/-- `FlowData::clearData`. -/
def clearData {U : TypeUniverse} (_d : FlowData U) : FlowData U :=
  { m_data := [], m_types := [] }

/-! ## ExecutionEngine -/

/-- The closure that `executeGraphAsync` hands to `enqueueTask`; it captures
`graphId` and `inputCopy` and, when called, runs `executeGraph` on them. -/
structure QueuedTask (D : Type) where
  graphId : String
  inputCopy : D

/-- Where one `std::thread` of `m_threadPool` stands in `workerThread`: blocked in
(or on its way to) `m_condition.wait`, between the locked block and the end of
`task()`, or past the `break`. -/
inductive Worker (D : Type)
  | waiting
  | running (task : QueuedTask D)
  | returned

/-- The data members of `ExecutionEngine`; the mutex and the condition variable
show in which actions are atomic, not as data. -/
structure ExecutionEngine (D : Type) where
  m_running : Bool
  m_threadPoolSize : Int
  m_graphs : List (String × DAGProcessor D)
  m_threadPool : List (Worker D)
  m_taskQueue : List (QueuedTask D)
  m_stopThreads : Bool

/-- `ExecutionEngine::ExecutionEngine()`. -/
def ExecutionEngine.new {D : Type} : ExecutionEngine D :=
  { m_running := false, m_threadPoolSize := 4, m_graphs := [], m_threadPool := [],
    m_taskQueue := [], m_stopThreads := false }

/-- `ExecutionEngine::initialize`: the returned flag and the engine afterwards; every
thread it starts begins `workerThread` at the top of its loop. -/
def ExecutionEngine.initialize {D : Type} (e : ExecutionEngine D) : Bool × ExecutionEngine D :=
  if e.m_running = true then (true, e)
  else
    (true, { e with
      m_stopThreads := false
      m_threadPool := e.m_threadPool ++ List.replicate e.m_threadPoolSize.toNat Worker.waiting
      m_running := true })

/-- `ExecutionEngine::getGraph`. -/
def ExecutionEngine.getGraph {D : Type} (e : ExecutionEngine D) (graphId : String) :
    Option (DAGProcessor D) :=
  mapFind e.m_graphs graphId

/-- `ExecutionEngine::createGraph`. -/
def ExecutionEngine.createGraph {D : Type} (e : ExecutionEngine D) (graphId : String) :
    Bool × ExecutionEngine D :=
  if (mapFind e.m_graphs graphId).isSome = true then (false, e)
  else (true, { e with m_graphs := mapAssign e.m_graphs graphId DAGProcessor.new })

/-- `ExecutionEngine::removeGraph`. -/
def ExecutionEngine.removeGraph {D : Type} (e : ExecutionEngine D) (graphId : String) :
    Bool × ExecutionEngine D :=
  match mapFind e.m_graphs graphId with
  | some _ => (true, { e with m_graphs := mapErase e.m_graphs graphId })
  | none => (false, e)

/-- `ExecutionEngine::executeGraph(graphId, input, output)`. -/
def ExecutionEngine.executeGraph {D : Type} (e : ExecutionEngine D) (graphId : String)
    (input output : D) : Option (Execution D) :=
  match ExecutionEngine.getGraph e graphId with
  | none => some { ok := false, finalData := output, invoked := [] }
  | some graph => Flow.executeGraph graph input output

/-- `ExecutionEngine::enqueueTask`. -/
def ExecutionEngine.enqueueTask {D : Type} (e : ExecutionEngine D) (task : QueuedTask D) :
    ExecutionEngine D :=
  { e with m_taskQueue := e.m_taskQueue ++ [task] }

/-- `ExecutionEngine::executeGraphAsync`. -/
def ExecutionEngine.executeGraphAsync {D : Type} (e : ExecutionEngine D) (graphId : String)
    (input : D) : Bool × ExecutionEngine D :=
  match ExecutionEngine.getGraph e graphId with
  | none => (false, e)
  | some _ =>
    (true, ExecutionEngine.enqueueTask e { graphId := graphId, inputCopy := input })

/-- `ExecutionEngine::setThreadPoolSize`. -/
def ExecutionEngine.setThreadPoolSize {D : Type} (e : ExecutionEngine D) (size : Int) :
    ExecutionEngine D :=
  if 0 < size ∧ size ≠ e.m_threadPoolSize then { e with m_threadPoolSize := size } else e

/-- The first part of `ExecutionEngine::shutdown`, up to `notify_all`: nothing on an
engine that is not running, else the stop flag is set under the mutex. -/
def ExecutionEngine.shutdownSignal {D : Type} (e : ExecutionEngine D) : ExecutionEngine D :=
  if e.m_running = false then e else { e with m_stopThreads := true }

/-- The block of `workerThread` that runs under `m_queueMutex`, as one atomic action
on the engine: `none` while the wait predicate is false (the thread stays blocked),
otherwise where the thread stands afterwards and the engine with the queue as the
block leaves it. -/
def ExecutionEngine.workerThreadLocked {D : Type} (e : ExecutionEngine D) :
    Option (Worker D × ExecutionEngine D) :=
  if (e.m_stopThreads || !e.m_taskQueue.isEmpty) = true then
    if (e.m_stopThreads && e.m_taskQueue.isEmpty) = true then some (Worker.returned, e)
    else
      match e.m_taskQueue with
      | task :: rest => some (Worker.running task, { e with m_taskQueue := rest })
      | [] => some (Worker.waiting, e)
  else none

/-- The task a thread has just taken from the queue, as a list. -/
def Worker.taken {D : Type} : Worker D → List (QueuedTask D)
  | Worker.running task => [task]
  | Worker.waiting => []
  | Worker.returned => []

/-- One atomic action of the thread at position `i` of the pool, with the task it
takes from the queue and starts (if any): the locked block of `workerThread`, or
the end of the task it was running, after which it is back at the top of the loop.
Running the task calls `executeGraph(graphId, inputCopy, output)` on a local
`output` and changes no member of the engine. -/
inductive WorkerStep {D : Type} :
    ExecutionEngine D → List (QueuedTask D) → ExecutionEngine D → Prop
  | locked (e : ExecutionEngine D) (i : Nat) (w : Worker D) (e' : ExecutionEngine D) :
      e.m_threadPool[i]? = some Worker.waiting →
      ExecutionEngine.workerThreadLocked e = some (w, e') →
      WorkerStep e (Worker.taken w) { e' with m_threadPool := e'.m_threadPool.set i w }
  | taskDone (e : ExecutionEngine D) (i : Nat) (task : QueuedTask D) :
      e.m_threadPool[i]? = some (Worker.running task) →
      WorkerStep e [] { e with m_threadPool := e.m_threadPool.set i Worker.waiting }

/-- Any number of worker actions in any interleaving, with the tasks started, in the
order in which they were taken from the queue. -/
inductive WorkerRun {D : Type} :
    ExecutionEngine D → List (QueuedTask D) → ExecutionEngine D → Prop
  | done (e : ExecutionEngine D) : WorkerRun e [] e
  | step (e e1 e2 : ExecutionEngine D) (l1 l2 : List (QueuedTask D)) :
      WorkerStep e l1 e1 → WorkerRun e1 l2 e2 → WorkerRun e (l1 ++ l2) e2

/-- Every thread of the pool has returned from `workerThread`: the `join` calls of
`shutdown` come back. -/
def AllReturned {D : Type} (e : ExecutionEngine D) : Prop :=
  ∀ w, w ∈ e.m_threadPool → w = Worker.returned

/-- `ExecutionEngine::isRunning`. -/
def ExecutionEngine.isRunning {D : Type} (e : ExecutionEngine D) : Bool := e.m_running

/-- `ExecutionEngine::getThreadPoolSize`. -/
def ExecutionEngine.getThreadPoolSize {D : Type} (e : ExecutionEngine D) : Int :=
  e.m_threadPoolSize

/-- Whether the thread has returned from `workerThread`. -/
def Worker.isReturned {D : Type} : Worker D → Bool
  | Worker.returned => true
  | Worker.waiting => false
  | Worker.running _ => false

/-- The engine at the moment the loop of `thread.join()` calls in `shutdown` is
through: every thread has returned from `workerThread`, and, a thread returning
only from an empty queue, the queue is empty unless there was no thread left to
run. What the threads do until then is given by `WorkerRun`. -/
def ExecutionEngine.joinThreads {D : Type} (e : ExecutionEngine D) : ExecutionEngine D :=
  { e with
    m_threadPool := e.m_threadPool.map (fun _ => Worker.returned)
    m_taskQueue := if e.m_threadPool.all Worker.isReturned = true then e.m_taskQueue else [] }

/-- `ExecutionEngine::shutdown`. -/
def ExecutionEngine.shutdown {D : Type} (e : ExecutionEngine D) : ExecutionEngine D :=
  if e.m_running = false then e
  else
    let joined := ExecutionEngine.joinThreads (ExecutionEngine.shutdownSignal e)
    { joined with m_threadPool := [], m_graphs := [], m_running := false }

/-- What can be observed of the queue: `executeGraphAsync` has put a task at the
back, a thread has taken a task from the front and starts it, a thread has come to
the end of its task. -/
inductive EngineEvent (D : Type)
  | submitted (task : QueuedTask D)
  | started (task : QueuedTask D)
  | finished (task : QueuedTask D)

/-- One atomic action on the queue and the pool with the events it gives rise to:
a call of `executeGraphAsync` (which enqueues under the mutex, or returns false
for an id that is not registered), the locked block of `workerThread` in the
thread at position `i`, or the end of the task that thread was running. -/
inductive EngineStep {D : Type} :
    ExecutionEngine D → List (EngineEvent D) → ExecutionEngine D → Prop
  | submit (e : ExecutionEngine D) (graphId : String) (input : D) :
      (ExecutionEngine.executeGraphAsync e graphId input).1 = true →
      EngineStep e [EngineEvent.submitted { graphId := graphId, inputCopy := input }]
        (ExecutionEngine.executeGraphAsync e graphId input).2
  | rejected (e : ExecutionEngine D) (graphId : String) (input : D) :
      (ExecutionEngine.executeGraphAsync e graphId input).1 = false →
      EngineStep e [] (ExecutionEngine.executeGraphAsync e graphId input).2
  | take (e : ExecutionEngine D) (i : Nat) (w : Worker D) (e' : ExecutionEngine D) :
      e.m_threadPool[i]? = some Worker.waiting →
      ExecutionEngine.workerThreadLocked e = some (w, e') →
      EngineStep e ((Worker.taken w).map EngineEvent.started)
        { e' with m_threadPool := e'.m_threadPool.set i w }
  | complete (e : ExecutionEngine D) (i : Nat) (task : QueuedTask D) :
      e.m_threadPool[i]? = some (Worker.running task) →
      EngineStep e [EngineEvent.finished task]
        { e with m_threadPool := e.m_threadPool.set i Worker.waiting }

/-- A history of the engine: any number of actions of `EngineStep`, callers and
threads interleaved in any way, with the events in the order in which they
happened. Every moment of the history is the end of a shorter history. -/
inductive EngineRun {D : Type} :
    ExecutionEngine D → List (EngineEvent D) → ExecutionEngine D → Prop
  | start (e : ExecutionEngine D) : EngineRun e [] e
  | next (e e1 e2 : ExecutionEngine D) (history events : List (EngineEvent D)) :
      EngineRun e history e1 → EngineStep e1 events e2 →
      EngineRun e (history ++ events) e2

/-- The tasks enqueued by `executeGraphAsync`, in the order of the calls. -/
def submittedTasks {D : Type} (history : List (EngineEvent D)) : List (QueuedTask D) :=
  history.filterMap (fun ev => match ev with
    | EngineEvent.submitted task => some task
    | EngineEvent.started _ => none
    | EngineEvent.finished _ => none)

/-- The tasks taken from the queue by the threads, in the order in which they were
taken. -/
def startedTasks {D : Type} (history : List (EngineEvent D)) : List (QueuedTask D) :=
  history.filterMap (fun ev => match ev with
    | EngineEvent.submitted _ => none
    | EngineEvent.started task => some task
    | EngineEvent.finished _ => none)

/-- The events of the threads: the history without the submissions. -/
def workerEvents {D : Type} (history : List (EngineEvent D)) : List (EngineEvent D) :=
  history.filter (fun ev => match ev with
    | EngineEvent.submitted _ => false
    | EngineEvent.started _ => true
    | EngineEvent.finished _ => true)

/-- The tasks run one after the other: each starts and finishes before the next
starts. -/
def oneByOne {D : Type} (tasks : List (QueuedTask D)) : List (EngineEvent D) :=
  tasks.flatMap (fun task => [EngineEvent.started task, EngineEvent.finished task])

/-- How far the pool is from having every thread returned: two for each queued task
and each running thread, one for each waiting thread. -/
def workLeft {D : Type} (e : ExecutionEngine D) : Nat :=
  2 * e.m_taskQueue.length +
    (e.m_threadPool.map (fun w => match w with
      | Worker.waiting => 1
      | Worker.running _ => 2
      | Worker.returned => 0)).sum

/-! ## DatabaseStubs -/

/-- The character `'`. -/
def quoteChar : Char := Char.ofNat 39

/-- `s.find(c, pos)` for a needle of one character: the index of its first
occurrence at or after `pos`, `none` for `npos`. A `std::string` is the list of its
characters. -/
def strFind (s : List Char) (c : Char) (pos : Nat) : Option Nat :=
  if c ∈ s.drop pos then some (pos + (s.drop pos).indexOf c) else none

/-- `s.replace(pos, 1, t)`. -/
def strReplace1 (s : List Char) (pos : Nat) (t : List Char) : List Char :=
  s.take pos ++ t ++ s.drop (pos + 1)

/-- The loop of `escapeString` on `escaped` and `pos`; one unit of fuel per
iteration. -/
def escapeLoop : Nat → List Char → Nat → Option (List Char)
  | 0, _, _ => none
  | fuel + 1, escaped, pos =>
    match strFind escaped quoteChar pos with
    | some found => escapeLoop fuel (strReplace1 escaped found [quoteChar, quoteChar]) (found + 2)
    | none => some escaped

/-- `DatabaseStubs::escapeString`. -/
def DatabaseStubs.escapeString (input : List Char) : Option (List Char) :=
  match escapeLoop (input.length + 1) input 0 with
  | none => none
  | some escaped => some ([quoteChar] ++ escaped ++ [quoteChar])

/-- The loop `for (i < parameters.size())` of `formatQuery` on `formatted`, over the
parameters not used yet. -/
def formatLoop : List (List Char) → List Char → Option (List Char)
  | [], formatted => some formatted
  | parameter :: rest, formatted =>
    match strFind formatted '?' 0 with
    | some pos =>
      match DatabaseStubs.escapeString parameter with
      | none => none
      | some escaped => formatLoop rest (strReplace1 formatted pos escaped)
    | none => formatLoop rest formatted

/-- `DatabaseStubs::formatQuery`. -/
def DatabaseStubs.formatQuery (query : List Char) (parameters : List (List Char)) :
    Option (List Char) :=
  formatLoop parameters query

/-! ## Specification vocabulary -/

/-- The list stored under `nodeId` in `m_dependents` (empty when there is none);
the counterpart of `getNodeDependencies`. -/
def dependentsOf {D : Type} (s : DAGProcessor D) (nodeId : String) : List String :=
  match mapFind s.m_dependents nodeId with
  | some l => l
  | none => []

/-- The edge `u → v` of the graph: `u` is recorded as a dependency of `v`. -/
def Edge {D : Type} (s : DAGProcessor D) (u v : String) : Prop :=
  u ∈ getNodeDependencies s v

/-- The id `x` lies on a directed cycle. -/
def OnCycle {D : Type} (s : DAGProcessor D) (x : String) : Prop :=
  Relation.TransGen (Edge s) x x

/-- The graph has a directed cycle. -/
def HasCycle {D : Type} (s : DAGProcessor D) : Prop := ∃ x, OnCycle s x

/-- The graph has no directed cycle. -/
def Acyclic {D : Type} (s : DAGProcessor D) : Prop := ¬ HasCycle s

/-- The list `c` is a directed cycle of the graph, written as the ids it passes
through: each id has an edge to the next one and the last one has an edge back to
the first. -/
def IsCycle {D : Type} (s : DAGProcessor D) (c : List String) : Prop :=
  ∃ a l, c = a :: l ∧ List.Chain (Edge s) a l ∧
    Edge s ((a :: l).getLast (List.cons_ne_nil a l)) a

/-- In the list `l`, an occurrence of `u` comes strictly before an occurrence of `v`. -/
def Before (l : List String) (u v : String) : Prop :=
  ∃ i j : Nat, i < j ∧ l[i]? = some u ∧ l[j]? = some v

/-- The processors that calls of `addNode`, `removeNode` and `connectNodes` (failing
ones included) produce from a freshly constructed one. The iteration order of an
`unordered_map` is unspecified and may change with every insertion, hence the last
rule. -/
inductive Reachable {D : Type} : DAGProcessor D → Prop
  | init : Reachable DAGProcessor.new
  | add (s : DAGProcessor D) (node : Option (FlowNode D)) :
      Reachable s → Reachable (addNode s node).2
  | remove (s : DAGProcessor D) (nodeId : String) :
      Reachable s → Reachable (removeNode s nodeId).2
  | connect (s : DAGProcessor D) (sourceId sourcePort targetId targetPort : String) :
      Reachable s → Reachable (connectNodes s sourceId sourcePort targetId targetPort).2
  | reorder (s : DAGProcessor D) (nodes : List (String × FlowNode D))
      (deps dpts : List (String × List String)) :
      Reachable s → nodes.Perm s.m_nodes → deps.Perm s.m_dependencies →
      dpts.Perm s.m_dependents →
      Reachable { s with m_nodes := nodes, m_dependencies := deps, m_dependents := dpts }

/-- Consistency of the three maps: keys are unique, every id that occurs in
`m_dependencies` or `m_dependents` is the id of a node, and the two maps are
inverse to each other, multiplicities included. -/
structure Consistent {D : Type} (s : DAGProcessor D) : Prop where
  nodes_nodup : (mapKeys s.m_nodes).Nodup
  deps_nodup : (mapKeys s.m_dependencies).Nodup
  dpts_nodup : (mapKeys s.m_dependents).Nodup
  deps_key : ∀ k, k ∈ mapKeys s.m_dependencies → k ∈ mapKeys s.m_nodes
  dpts_key : ∀ k, k ∈ mapKeys s.m_dependents → k ∈ mapKeys s.m_nodes
  deps_mem : ∀ k x, x ∈ getNodeDependencies s k → x ∈ mapKeys s.m_nodes
  dpts_mem : ∀ k x, x ∈ dependentsOf s k → x ∈ mapKeys s.m_nodes
  inverse : ∀ a b, (getNodeDependencies s b).count a = (dependentsOf s a).count b

/-- The node `n` holds an inbound or outbound `Connection` entry whose node pointer
was made from the node with id `x`. -/
def HoldsConnectionTo {D : Type} (n : FlowNode D) (x : String) : Prop :=
  ∃ e, e ∈ n.m_inputConnections ++ n.m_outputConnections ∧ ∃ c, c ∈ e.2 ∧ c.node = x

/-- The `process` function of the node that `getNode` finds under `id`, if any. -/
def processAt {D : Type} (s : DAGProcessor D) (id : String) : Option (D → Bool × D) :=
  (getNode s id).map (fun n => n.process)

/-- The left-to-right composition of `process` functions: each one receives what
the previous one emitted, the first one receives `d`. -/
def composeProcess {D : Type} : List (D → Bool × D) → D → D
  | [], d => d
  | f :: fs, d => composeProcess fs (f d).2

/-- Every `process` call in the chain started on `d` returns `true`. -/
def AllSucceed {D : Type} : List (D → Bool × D) → D → Prop
  | [], _ => True
  | f :: fs, d => (f d).1 = true ∧ AllSucceed fs (f d).2

/-- The number of entries of `inDegree` with a positive count. -/
def positives (inDegree : List (String × Int)) : Nat :=
  (inDegree.filter (fun e => decide (0 < e.2))).length

/-- The loop invariant of `topologicalSort` on a consistent processor: the nodes
output or queued so far are distinct nodes, every count is the number of
dependencies not output yet, a node is output or queued exactly when its count is
zero, and every node in the output comes after all its dependencies. -/
structure SortInv {D : Type} (s : DAGProcessor D) (inDegree : List (String × Int))
    (queue sortedNodes : List String) : Prop where
  nodup : (sortedNodes ++ queue).Nodup
  sub : ∀ v, v ∈ sortedNodes ++ queue → v ∈ mapKeys s.m_nodes
  deg : ∀ v, v ∈ mapKeys s.m_nodes → degreeOf inDegree v =
    (((getNodeDependencies s v).filter (fun u => !decide (u ∈ sortedNodes))).length : Int)
  zero : ∀ v, v ∈ mapKeys s.m_nodes → (v ∈ sortedNodes ++ queue ↔ degreeOf inDegree v = 0)
  order : ∀ v, v ∈ sortedNodes → ∀ u, u ∈ getNodeDependencies s v →
    u ∈ sortedNodes ∧ sortedNodes.indexOf u < sortedNodes.indexOf v

/-- The number of entries of `nodes` that are not in `visited`. -/
def unvisited (nodes visited : List String) : Nat :=
  (nodes.filter (fun x => !decide (x ∈ visited))).length

/-- The invariant of the depth-first search in `detectCycles`: the finished ids
(visited and no longer on the recursion stack) are closed under edges and none of
them lies on a cycle. -/
structure DfsInv {D : Type} (s : DAGProcessor D) (visited recursionStack : List String) :
    Prop where
  closed : ∀ x, x ∈ visited → x ∉ recursionStack → ∀ y, Edge s x y →
    y ∈ visited ∧ y ∉ recursionStack
  acyclic : ∀ x, x ∈ visited → x ∉ recursionStack → ¬ OnCycle s x

/-- A call of one of the two mutating members of `FlowData`. -/
inductive DataOp (U : TypeUniverse)
  | set (t : U.Info) (key : String) (value : U.Value t)
  | clear

/-- The `FlowData` after the call `op`. -/
def DataOp.apply {U : TypeUniverse} (d : FlowData U) : DataOp U → FlowData U
  | DataOp.set t key value => setData t d key value
  | DataOp.clear => clearData d

/-- The `FlowData` after the calls `ops`, made in that order. -/
def runOps {U : TypeUniverse} (d : FlowData U) (ops : List (DataOp U)) : FlowData U :=
  ops.foldl DataOp.apply d

/-- Whether the call is `clearData`. -/
def DataOp.isClear {U : TypeUniverse} : DataOp U → Bool
  | DataOp.set _ _ _ => false
  | DataOp.clear => true

/-- Among the calls `ops` there is a `setData` on `key` with no `clearData` after
it. -/
def SetSinceClear {U : TypeUniverse} (ops : List (DataOp U)) (key : String) : Prop :=
  ∃ before after t value, ops = before ++ DataOp.set t key value :: after ∧
    ∀ op, op ∈ after → DataOp.isClear op = false

/-- A call of `addInputConnection` or `addOutputConnection` with its arguments. -/
inductive PortCall (D : Type)
  | input (inputPort : String) (sourceNode : FlowNode D) (outputPort : String)
  | output (outputPort : String) (targetNode : FlowNode D) (inputPort : String)

/-- The node after the call. -/
def PortCall.apply {D : Type} (n : FlowNode D) : PortCall D → FlowNode D
  | PortCall.input inputPort sourceNode outputPort =>
    n.addInputConnection inputPort sourceNode outputPort
  | PortCall.output outputPort targetNode inputPort =>
    n.addOutputConnection outputPort targetNode inputPort

/-- The node after the calls, made in that order. -/
def runCalls {D : Type} (n : FlowNode D) (calls : List (PortCall D)) : FlowNode D :=
  calls.foldl PortCall.apply n

/-- The input port names the calls use, one for each `addInputConnection`, in call
order. -/
def inputPortsUsed {D : Type} (calls : List (PortCall D)) : List String :=
  calls.filterMap (fun c => match c with
    | PortCall.input inputPort _ _ => some inputPort
    | PortCall.output _ _ _ => none)

/-- The output port names the calls use, one for each `addOutputConnection`, in
call order. -/
def outputPortsUsed {D : Type} (calls : List (PortCall D)) : List String :=
  calls.filterMap (fun c => match c with
    | PortCall.input _ _ _ => none
    | PortCall.output outputPort _ _ => some outputPort)

/-- The list of `Connection` entries stored under an input port (empty when the
port has no entry). -/
def inputConnectionsAt {D : Type} (n : FlowNode D) (port : String) : List Connection :=
  (mapFind n.m_inputConnections port).getD []

/-- The list of `Connection` entries stored under an output port (empty when the
port has no entry). -/
def outputConnectionsAt {D : Type} (n : FlowNode D) (port : String) : List Connection :=
  (mapFind n.m_outputConnections port).getD []

/-- The list `ports` holds the distinct names of `used` in the order of their
first use: it has no duplicate, the same members as `used`, and one name stands
before another in it exactly when its first use comes first. -/
def FirstUses (ports used : List String) : Prop :=
  ports.Nodup ∧ (∀ p, p ∈ ports ↔ p ∈ used) ∧
  ∀ p q, p ∈ ports → q ∈ ports →
    (ports.indexOf p < ports.indexOf q ↔ used.indexOf p < used.indexOf q)

/-- The parameter wrapped in single quotes with every embedded single quote
doubled. -/
def quoted (parameter : List Char) : List Char :=
  [quoteChar] ++ parameter.flatMap (fun c => if c = quoteChar then [quoteChar, quoteChar] else [c])
    ++ [quoteChar]

/-- The query in which the i-th `?` is replaced by the quoted i-th parameter, as
long as there are parameters; the other characters and the placeholders beyond
the last parameter stay. -/
def substitutePlaceholders : List Char → List (List Char) → List Char
  | [], _ => []
  | c :: cs, [] => c :: cs
  | c :: cs, parameter :: rest =>
    if c = '?' then quoted parameter ++ substitutePlaceholders cs rest
    else c :: substitutePlaceholders cs (parameter :: rest)

/-- What the log of `detectCyclesHelper` looks like when no id has been entered
twice: it has no duplicate, and every id in it is a visited node. -/
structure EnteredOnce {D : Type} (s : DAGProcessor D) (visited entered : List String) :
    Prop where
  nodup : entered.Nodup
  visited : ∀ x, x ∈ entered → x ∈ visited
  node : ∀ x, x ∈ entered → x ∈ mapKeys s.m_nodes

/-! ## Example processors -/

/-- A node whose `process` succeeds and emits its input plus one. -/
def passNode (id : String) : FlowNode Nat :=
  FlowNode.mk0 id "data" (fun d => (true, d + 1))

/-- A node whose `process` fails. -/
def failNode (id : String) : FlowNode Nat :=
  FlowNode.mk0 id "data" (fun d => (false, d))

/-- The chain `A → B → C`, the nodes added in the order `C`, `A`, `B`. -/
def chainABC : DAGProcessor Nat :=
  (connectNodes (connectNodes (addNode (addNode (addNode DAGProcessor.new
    (some (passNode "C"))).2 (some (passNode "A"))).2 (some (passNode "B"))).2
    "A" "out" "B" "in").2 "B" "out" "C" "in").2

/-- The chain `A → M → C` in which `M` fails. -/
def chainAMC : DAGProcessor Nat :=
  (connectNodes (connectNodes (addNode (addNode (addNode DAGProcessor.new
    (some (passNode "A"))).2 (some (failNode "M"))).2 (some (passNode "C"))).2
    "A" "out" "M" "in").2 "M" "out" "C" "in").2

/-- The two-node cycle `A → B`, `B → A` next to an isolated node `Z`. -/
def cycleAB : DAGProcessor Nat :=
  (connectNodes (connectNodes (addNode (addNode (addNode DAGProcessor.new
    (some (passNode "Z"))).2 (some (passNode "A"))).2 (some (passNode "B"))).2
    "A" "out" "B" "in").2 "B" "out" "A" "in").2

/-- The self-loop `A → A`. -/
def selfLoopA : DAGProcessor Nat :=
  (connectNodes (addNode DAGProcessor.new (some (passNode "A"))).2 "A" "out" "A" "in").2

/-- Two nodes `A` and `B` without any edge. -/
def nodesAB : DAGProcessor Nat :=
  (addNode (addNode DAGProcessor.new (some (passNode "A"))).2 (some (passNode "B"))).2

/-- Two types for the examples: `int` and `std::string`. -/
inductive ExampleType
  | int
  | text
deriving DecidableEq

/-- The values of the example types. -/
def ExampleType.Value : ExampleType → Type
  | ExampleType.int => Int
  | ExampleType.text => String

/-- The example types as a universe; `int{}` is `0`, `std::string{}` is empty. -/
def exampleTypes : TypeUniverse :=
  { Info := ExampleType
    decEq := inferInstance
    Value := ExampleType.Value
    init := fun t => match t with
      | ExampleType.int => (0 : Int)
      | ExampleType.text => "" }

/-- A `FlowData` in which `"gain"` holds the `int` `7`. -/
def exampleData : FlowData exampleTypes :=
  @setData exampleTypes ExampleType.int FlowData.new "gain" (7 : Int)

/-- An engine with its four workers waiting and two tasks for graph `"g"` queued, on
which `shutdown` has just set the stop flag. -/
def stoppingEngine : ExecutionEngine Nat :=
  ExecutionEngine.shutdownSignal
    (ExecutionEngine.executeGraphAsync
      (ExecutionEngine.executeGraphAsync
        (ExecutionEngine.createGraph
          ( ExecutionEngine.initialize ExecutionEngine.new).2 "g").2 "g" 1).2 "g" 2).2

/-- The engine `stoppingEngine` with another pool and queue. -/
def stoppingPool (pool : List (Worker Nat)) (queue : List (QueuedTask Nat)) :
    ExecutionEngine Nat :=
  { stoppingEngine with m_threadPool := pool, m_taskQueue := queue }

/-- An engine that is not running and has the chain `A → B → C` registered as `"g"`. -/
def engineG : ExecutionEngine Nat :=
  { (ExecutionEngine.createGraph ExecutionEngine.new "g").2 with m_graphs := [("g", chainABC)] }

/-- A node whose `process` passes its input through. -/
def passThroughNode (id : String) : FlowNode Nat :=
  FlowNode.mk0 id "data" (fun d => (true, d))

/-- The chain `A → B → C` of pass-through nodes, added in the order `C`, `A`, `B`. -/
def chainPass : DAGProcessor Nat :=
  (connectNodes (connectNodes (addNode (addNode (addNode DAGProcessor.new
    (some (passThroughNode "C"))).2 (some (passThroughNode "A"))).2
    (some (passThroughNode "B"))).2
    "A" "out" "B" "in").2 "B" "out" "C" "in").2

/-- An engine that is running, with the chain `A → B → C` registered as `"g"`, its
four workers waiting and one task queued. -/
def runningEngine : ExecutionEngine Nat :=
  (ExecutionEngine.executeGraphAsync ( ExecutionEngine.initialize engineG).2 "g" 1).2

/-- The engine `engineG` made running with a pool of one thread. -/
def singleWorkerEngine : ExecutionEngine Nat :=
  ( ExecutionEngine.initialize (ExecutionEngine.setThreadPoolSize engineG 1)).2

/-- The engine `singleWorkerEngine` with another pool and queue. -/
def singleWorkerState (pool : List (Worker Nat)) (queue : List (QueuedTask Nat)) :
    ExecutionEngine Nat :=
  { singleWorkerEngine with m_threadPool := pool, m_taskQueue := queue }

/-! ## Lemmas on the map operations -/

theorem mapFind_eq_none_iff {V : Type} (m : List (String × V)) (k : String) :
    mapFind m k = none ↔ k ∉ mapKeys m := by
  induction m with
  | nil => simp [mapFind, mapKeys]
  | cons e m ih =>
    obtain ⟨k', v⟩ := e
    by_cases h : k' = k
    · simp [mapFind, mapKeys, h]
    · have h' : ¬ k = k' := fun e => h e.symm
      simp [mapFind, mapKeys, h, h'] at ih ⊢
      exact ih

theorem mapFind_isSome_iff {V : Type} (m : List (String × V)) (k : String) :
    (mapFind m k).isSome = true ↔ k ∈ mapKeys m := by
  rw [← not_iff_not, ← mapFind_eq_none_iff]
  cases mapFind m k <;> simp

theorem mapFind_mem {V : Type} (m : List (String × V)) (k : String) (v : V)
    (h : mapFind m k = some v) : (k, v) ∈ m := by
  induction m with
  | nil => simp [mapFind] at h
  | cons e m ih =>
    obtain ⟨k', v'⟩ := e
    by_cases hk : k' = k
    · simp [mapFind, hk] at h
      simp [hk, h]
    · simp [mapFind, hk] at h
      exact List.mem_cons_of_mem _ (ih h)

theorem mapFind_of_mem {V : Type} (m : List (String × V)) (k : String) (v : V)
    (hn : (mapKeys m).Nodup) (h : (k, v) ∈ m) : mapFind m k = some v := by
  induction m with
  | nil => simp at h
  | cons e m ih =>
    obtain ⟨k', v'⟩ := e
    simp only [mapKeys, List.map_cons, List.nodup_cons] at hn
    rcases List.mem_cons.1 h with h | h
    · cases h
      simp [mapFind]
    · have hk : k' ≠ k := by
        intro e
        apply hn.1
        rw [e]
        exact List.mem_map_of_mem Prod.fst h
      simp [mapFind, hk]
      exact ih hn.2 h

theorem mapFind_eq_some_iff {V : Type} (m : List (String × V)) (k : String) (v : V)
    (hn : (mapKeys m).Nodup) : mapFind m k = some v ↔ (k, v) ∈ m :=
  ⟨mapFind_mem m k v, mapFind_of_mem m k v hn⟩

theorem mapFind_perm {V : Type} (m m' : List (String × V)) (k : String)
    (hn : (mapKeys m).Nodup) (hp : m'.Perm m) : mapFind m' k = mapFind m k := by
  have hn' : (mapKeys m').Nodup := (List.Perm.map Prod.fst hp).nodup_iff.2 hn
  cases h : mapFind m k with
  | none =>
    rw [mapFind_eq_none_iff] at h ⊢
    intro hk
    exact h ((List.Perm.map Prod.fst hp).mem_iff.1 hk)
  | some v =>
    rw [mapFind_eq_some_iff _ _ _ hn] at h
    rw [mapFind_eq_some_iff _ _ _ hn']
    exact hp.mem_iff.2 h

theorem mapFind_mapModify {V : Type} (m : List (String × V)) (k k' : String) (d : V)
    (f : V → V) :
    mapFind (mapModify m k d f) k' =
      if k = k' then some (f ((mapFind m k).getD d)) else mapFind m k' := by
  induction m with
  | nil => simp [mapModify, mapFind]
  | cons e m ih =>
    obtain ⟨k0, v0⟩ := e
    by_cases h0 : k0 = k
    · subst h0
      by_cases h1 : k0 = k' <;> simp [mapModify, mapFind, h1]
    · by_cases h1 : k0 = k'
      · subst h1
        have : ¬ k = k0 := fun e => h0 e.symm
        simp [mapModify, mapFind, h0, this]
      · simp [mapModify, mapFind, h0, h1, ih]

theorem mapKeys_mapModify {V : Type} (m : List (String × V)) (k : String) (d : V)
    (f : V → V) :
    mapKeys (mapModify m k d f) = if k ∈ mapKeys m then mapKeys m else mapKeys m ++ [k] := by
  induction m with
  | nil => simp [mapModify, mapKeys]
  | cons e m ih =>
    obtain ⟨k0, v0⟩ := e
    by_cases h0 : k0 = k
    · subst h0
      simp [mapModify, mapKeys]
    · have h0' : ¬ k = k0 := fun e => h0 e.symm
      simp only [mapKeys] at ih
      by_cases hm : k ∈ List.map Prod.fst m
      · simp [mapModify, mapKeys, h0, h0', hm, ih]
      · simp [mapModify, mapKeys, h0, h0', hm, ih]

theorem mem_mapKeys_mapModify {V : Type} (m : List (String × V)) (k x : String) (d : V)
    (f : V → V) : x ∈ mapKeys (mapModify m k d f) ↔ x ∈ mapKeys m ∨ x = k := by
  rw [mapKeys_mapModify]
  by_cases h : k ∈ mapKeys m
  · simp only [h, if_true]
    constructor
    · exact Or.inl
    · rintro (h' | h')
      · exact h'
      · rw [h']; exact h
  · simp [h]

theorem nodup_mapKeys_mapModify {V : Type} (m : List (String × V)) (k : String) (d : V)
    (f : V → V) (hn : (mapKeys m).Nodup) : (mapKeys (mapModify m k d f)).Nodup := by
  rw [mapKeys_mapModify]
  by_cases h : k ∈ mapKeys m
  · simpa [h] using hn
  · simp only [h, if_false]
    rw [List.nodup_append]
    refine ⟨hn, List.nodup_singleton k, ?_⟩
    intro a ha hb
    rw [List.mem_singleton] at hb
    exact h (hb ▸ ha)

theorem mapKeys_mapErase {V : Type} (m : List (String × V)) (k : String) :
    mapKeys (mapErase m k) = (mapKeys m).filter (fun x => x != k) := by
  induction m with
  | nil => simp [mapErase, mapKeys]
  | cons e m ih =>
    obtain ⟨k0, v0⟩ := e
    simp only [mapErase, mapKeys] at ih
    by_cases h0 : k0 = k <;> simp [mapErase, mapKeys, List.filter_cons, h0, ih]

theorem mapFind_mapErase {V : Type} (m : List (String × V)) (k k' : String) :
    mapFind (mapErase m k) k' = if k' = k then none else mapFind m k' := by
  induction m with
  | nil => simp [mapErase, mapFind]
  | cons e m ih =>
    obtain ⟨k0, v0⟩ := e
    simp only [mapErase] at ih
    by_cases h0 : k0 = k
    · subst h0
      by_cases h1 : k0 = k'
      · subst h1
        simp [mapErase, List.filter_cons, ih]
      · have : ¬ k' = k0 := fun e => h1 e.symm
        simp [mapErase, List.filter_cons, mapFind, h1, ih, this]
    · by_cases h1 : k0 = k'
      · subst h1
        simp [mapErase, List.filter_cons, mapFind, h0]
      · simp [mapErase, List.filter_cons, mapFind, h0, h1, ih]

theorem mapFind_mapValues {V W : Type} (m : List (String × V)) (g : String → V → W)
    (k : String) :
    mapFind (m.map (fun e => (e.1, g e.1 e.2))) k = (mapFind m k).map (g k) := by
  induction m with
  | nil => simp [mapFind]
  | cons e m ih =>
    obtain ⟨k0, v0⟩ := e
    by_cases h0 : k0 = k
    · subst h0; simp [mapFind]
    · simp [mapFind, h0, ih]

theorem mapKeys_mapValues {V W : Type} (m : List (String × V)) (g : String → V → W) :
    mapKeys (m.map (fun e => (e.1, g e.1 e.2))) = mapKeys m := by
  simp [mapKeys, List.map_map, Function.comp_def]

theorem mapKeys_mapAdjust {V : Type} (m : List (String × V)) (k : String) (f : V → V) :
    mapKeys (mapAdjust m k f) = mapKeys m := by
  induction m with
  | nil => simp [mapAdjust, mapKeys]
  | cons e m ih =>
    obtain ⟨k0, v0⟩ := e
    simp only [mapKeys] at ih
    by_cases h0 : k0 = k <;> simp [mapAdjust, mapKeys, h0, ih]

theorem mapFind_mapAdjust {V : Type} (m : List (String × V)) (k k' : String) (f : V → V) :
    mapFind (mapAdjust m k f) k' =
      if k = k' then (mapFind m k').map f else mapFind m k' := by
  induction m with
  | nil => simp [mapAdjust, mapFind]
  | cons e m ih =>
    obtain ⟨k0, v0⟩ := e
    by_cases h0 : k0 = k
    · subst h0
      by_cases h1 : k0 = k'
      · simp [mapAdjust, mapFind, h1]
      · simp [mapAdjust, mapFind, h1]
    · by_cases h1 : k0 = k'
      · subst h1
        have : ¬ k = k0 := fun e => h0 e.symm
        simp [mapAdjust, mapFind, h0, this]
      · simp [mapAdjust, mapFind, h0, h1, ih]

/-! ## The three mutators, case by case -/

theorem getNode_isSome_iff {D : Type} (s : DAGProcessor D) (k : String) :
    (getNode s k).isSome = true ↔ k ∈ mapKeys s.m_nodes :=
  mapFind_isSome_iff s.m_nodes k

theorem addNode_cases {D : Type} (s : DAGProcessor D) (node : Option (FlowNode D)) :
    ((addNode s node).1 = false ∧ (addNode s node).2 = s ∧
        (node = none ∨ ∃ n, node = some n ∧ (n.m_id = "" ∨ n.m_id ∈ mapKeys s.m_nodes))) ∨
    (∃ n, node = some n ∧ n.m_id ≠ "" ∧ n.m_id ∉ mapKeys s.m_nodes ∧
        (addNode s node).1 = true ∧
        (addNode s node).2 = { s with m_nodes := mapAssign s.m_nodes n.m_id n }) := by
  cases node with
  | none => left; simp [addNode]
  | some n =>
    by_cases h1 : n.m_id = ""
    · left; simp [addNode, h1]
    · by_cases h2 : (mapFind s.m_nodes n.m_id).isSome = true
      · left
        have := (mapFind_isSome_iff _ _).1 h2
        simp [addNode, h1, h2, this]
      · right
        have h3 : n.m_id ∉ mapKeys s.m_nodes := fun h => h2 ((mapFind_isSome_iff _ _).2 h)
        exact ⟨n, rfl, h1, h3, by simp [addNode, h1, h2], by simp [addNode, h1, h2]⟩

theorem removeNode_cases {D : Type} (s : DAGProcessor D) (x : String) :
    (x ∉ mapKeys s.m_nodes ∧ (removeNode s x).1 = false ∧ (removeNode s x).2 = s) ∨
    (x ∈ mapKeys s.m_nodes ∧ (removeNode s x).1 = true ∧
      (removeNode s x).2 =
        { s with
          m_nodes := mapErase s.m_nodes x
          m_dependencies := (mapErase s.m_dependencies x).map
            (fun e => (e.1, e.2.filter (fun y => y != x)))
          m_dependents := (mapErase s.m_dependents x).map
            (fun e => (e.1, e.2.filter (fun y => y != x))) }) := by
  cases h : mapFind s.m_nodes x with
  | none =>
    left
    exact ⟨(mapFind_eq_none_iff _ _).1 h, by simp [removeNode, h], by simp [removeNode, h]⟩
  | some n =>
    right
    refine ⟨(mapFind_isSome_iff _ _).1 (by simp [h]), by simp [removeNode, h],
      by simp [removeNode, h]⟩

theorem connectNodes_cases {D : Type} (s : DAGProcessor D) (a ap b bp : String) :
    ((a ∉ mapKeys s.m_nodes ∨ b ∉ mapKeys s.m_nodes) ∧
      (connectNodes s a ap b bp).1 = false ∧ (connectNodes s a ap b bp).2 = s) ∨
    (∃ na nb, getNode s a = some na ∧ getNode s b = some nb ∧
      a ∈ mapKeys s.m_nodes ∧ b ∈ mapKeys s.m_nodes ∧
      (connectNodes s a ap b bp).1 = true ∧
      (connectNodes s a ap b bp).2 =
        { s with
          m_nodes := mapAdjust
            (mapAdjust s.m_nodes b (fun t => t.addInputConnection bp na ap))
            a (fun src => src.addOutputConnection ap nb bp)
          m_dependencies := mapModify s.m_dependencies b [] (fun l => l ++ [a])
          m_dependents := mapModify s.m_dependents a [] (fun l => l ++ [b]) }) := by
  cases ha : getNode s a with
  | none =>
    left
    refine ⟨Or.inl ((mapFind_eq_none_iff _ _).1 ha), ?_, ?_⟩ <;> simp [connectNodes, ha]
  | some na =>
    cases hb : getNode s b with
    | none =>
      left
      refine ⟨Or.inr ((mapFind_eq_none_iff _ _).1 hb), ?_, ?_⟩ <;> simp [connectNodes, ha, hb]
    | some nb =>
      right
      refine ⟨na, nb, rfl, rfl, (getNode_isSome_iff _ _).1 (by simp [ha]),
        (getNode_isSome_iff _ _).1 (by simp [hb]), ?_, ?_⟩ <;> simp [connectNodes, ha, hb]

/-! ### Dependency lists after each mutator -/

theorem deps_after_connect {D : Type} (s : DAGProcessor D) (nodes : List (String × FlowNode D))
    (dpts : List (String × List String)) (a b k : String) :
    getNodeDependencies { s with
        m_nodes := nodes
        m_dependencies := mapModify s.m_dependencies b [] (fun l => l ++ [a])
        m_dependents := dpts } k =
      if b = k then getNodeDependencies s k ++ [a] else getNodeDependencies s k := by
  simp only [getNodeDependencies, mapFind_mapModify]
  by_cases h : b = k
  · subst h
    cases mapFind s.m_dependencies b <;> simp
  · simp [h]

theorem dpts_after_connect {D : Type} (s : DAGProcessor D) (nodes : List (String × FlowNode D))
    (deps : List (String × List String)) (a b k : String) :
    dependentsOf { s with
        m_nodes := nodes
        m_dependencies := deps
        m_dependents := mapModify s.m_dependents a [] (fun l => l ++ [b]) } k =
      if a = k then dependentsOf s k ++ [b] else dependentsOf s k := by
  simp only [dependentsOf, mapFind_mapModify]
  by_cases h : a = k
  · subst h
    cases mapFind s.m_dependents a <;> simp
  · simp [h]

theorem find_after_purge (m : List (String × List String)) (x k : String) :
    (match mapFind ((mapErase m x).map (fun e => (e.1, e.2.filter (fun y => y != x)))) k with
      | some l => l
      | none => []) =
      if k = x then [] else
        (match mapFind m k with
          | some l => l
          | none => []).filter (fun y => y != x) := by
  rw [mapFind_mapValues (mapErase m x) (fun _ l => l.filter (fun y => y != x)) k,
    mapFind_mapErase]
  by_cases h : k = x
  · simp [h]
  · simp only [h, if_false]
    cases mapFind m k <;> simp

theorem deps_after_remove {D : Type} (s : DAGProcessor D) (nodes : List (String × FlowNode D))
    (dpts : List (String × List String)) (x k : String) :
    getNodeDependencies { s with
        m_nodes := nodes
        m_dependencies := (mapErase s.m_dependencies x).map
          (fun e => (e.1, e.2.filter (fun y => y != x)))
        m_dependents := dpts } k =
      if k = x then [] else (getNodeDependencies s k).filter (fun y => y != x) := by
  simp only [getNodeDependencies]
  exact find_after_purge s.m_dependencies x k

theorem dpts_after_remove {D : Type} (s : DAGProcessor D) (nodes : List (String × FlowNode D))
    (deps : List (String × List String)) (x k : String) :
    dependentsOf { s with
        m_nodes := nodes
        m_dependencies := deps
        m_dependents := (mapErase s.m_dependents x).map
          (fun e => (e.1, e.2.filter (fun y => y != x))) } k =
      if k = x then [] else (dependentsOf s k).filter (fun y => y != x) := by
  simp only [dependentsOf]
  exact find_after_purge s.m_dependents x k

theorem mapKeys_purge (m : List (String × List String)) (x : String) :
    mapKeys ((mapErase m x).map (fun e => (e.1, e.2.filter (fun y => y != x)))) =
      (mapKeys m).filter (fun y => y != x) := by
  rw [mapKeys_mapValues (mapErase m x) (fun _ l => l.filter (fun y => y != x)), mapKeys_mapErase]

/-! ## Consistency is an invariant -/

theorem consistent_new {D : Type} : Consistent (DAGProcessor.new : DAGProcessor D) := by
  constructor <;> simp [DAGProcessor.new, mapKeys, getNodeDependencies, dependentsOf, mapFind]

theorem consistent_addNode {D : Type} (s : DAGProcessor D) (node : Option (FlowNode D))
    (h : Consistent s) : Consistent (addNode s node).2 := by
  rcases addNode_cases s node with ⟨_, e, _⟩ | ⟨n, _, _, hk, _, e⟩
  · rw [e]; exact h
  · rw [e]
    have hkeys : ∀ k, k ∈ mapKeys s.m_nodes → k ∈ mapKeys (mapAssign s.m_nodes n.m_id n) := by
      intro k hk'
      exact (mem_mapKeys_mapModify _ _ _ _ _).2 (Or.inl hk')
    exact
      { nodes_nodup := nodup_mapKeys_mapModify _ _ _ _ h.nodes_nodup
        deps_nodup := h.deps_nodup
        dpts_nodup := h.dpts_nodup
        deps_key := fun k hk' => hkeys k (h.deps_key k hk')
        dpts_key := fun k hk' => hkeys k (h.dpts_key k hk')
        deps_mem := fun k x hx => hkeys x (h.deps_mem k x hx)
        dpts_mem := fun k x hx => hkeys x (h.dpts_mem k x hx)
        inverse := h.inverse }

theorem count_filter_ne (l : List String) (x a : String) :
    (l.filter (fun y => y != x)).count a = if a = x then 0 else l.count a := by
  by_cases h : a = x
  · subst h
    simp only [if_true]
    rw [List.count_eq_zero]
    simp [List.mem_filter]
  · simp only [h, if_false]
    induction l with
    | nil => simp
    | cons y l ih =>
      by_cases hy : y = x
      · subst hy
        have : ¬ y = a := fun e => h e.symm
        simp [List.filter_cons, List.count_cons, this, ih]
      · simp [List.filter_cons, List.count_cons, hy, ih]

theorem consistent_removeNode {D : Type} (s : DAGProcessor D) (x : String)
    (h : Consistent s) : Consistent (removeNode s x).2 := by
  rcases removeNode_cases s x with ⟨_, _, e⟩ | ⟨_, _, e⟩
  · rw [e]; exact h
  · rw [e]
    have hfil : ∀ (l : List String) (y : String),
        y ∈ l.filter (fun z => z != x) ↔ y ∈ l ∧ y ≠ x := by
      intro l y; simp [List.mem_filter]
    constructor
    · show (mapKeys (mapErase s.m_nodes x)).Nodup
      rw [mapKeys_mapErase]; exact h.nodes_nodup.filter _
    · show (mapKeys ((mapErase s.m_dependencies x).map _)).Nodup
      rw [mapKeys_purge]; exact h.deps_nodup.filter _
    · show (mapKeys ((mapErase s.m_dependents x).map _)).Nodup
      rw [mapKeys_purge]; exact h.dpts_nodup.filter _
    · intro k
      show k ∈ mapKeys ((mapErase s.m_dependencies x).map _) → k ∈ mapKeys (mapErase s.m_nodes x)
      rw [mapKeys_purge, mapKeys_mapErase, hfil, hfil]
      exact fun hk => ⟨h.deps_key k hk.1, hk.2⟩
    · intro k
      show k ∈ mapKeys ((mapErase s.m_dependents x).map _) → k ∈ mapKeys (mapErase s.m_nodes x)
      rw [mapKeys_purge, mapKeys_mapErase, hfil, hfil]
      exact fun hk => ⟨h.dpts_key k hk.1, hk.2⟩
    · intro k y
      rw [deps_after_remove]
      show _ → y ∈ mapKeys (mapErase s.m_nodes x)
      rw [mapKeys_mapErase, hfil]
      by_cases hk : k = x
      · simp [hk]
      · simp only [hk, if_false, hfil]
        exact fun hy => ⟨h.deps_mem k y hy.1, hy.2⟩
    · intro k y
      rw [dpts_after_remove]
      show _ → y ∈ mapKeys (mapErase s.m_nodes x)
      rw [mapKeys_mapErase, hfil]
      by_cases hk : k = x
      · simp [hk]
      · simp only [hk, if_false, hfil]
        exact fun hy => ⟨h.dpts_mem k y hy.1, hy.2⟩
    · intro a b
      rw [deps_after_remove, dpts_after_remove]
      by_cases ha : a = x <;> by_cases hb : b = x <;>
        simp [ha, hb, count_filter_ne, h.inverse]

theorem consistent_connectNodes {D : Type} (s : DAGProcessor D) (a ap b bp : String)
    (h : Consistent s) : Consistent (connectNodes s a ap b bp).2 := by
  rcases connectNodes_cases s a ap b bp with ⟨_, _, e⟩ | ⟨na, nb, _, _, ha, hb, _, e⟩
  · rw [e]; exact h
  · rw [e]
    have hkeys : ∀ (f g : FlowNode D → FlowNode D),
        mapKeys (mapAdjust (mapAdjust s.m_nodes b f) a g) = mapKeys s.m_nodes := by
      intro f g; rw [mapKeys_mapAdjust, mapKeys_mapAdjust]
    constructor
    · show (mapKeys (mapAdjust (mapAdjust s.m_nodes b _) a _)).Nodup
      rw [hkeys]; exact h.nodes_nodup
    · exact nodup_mapKeys_mapModify _ _ _ _ h.deps_nodup
    · exact nodup_mapKeys_mapModify _ _ _ _ h.dpts_nodup
    · intro k hk
      show k ∈ mapKeys (mapAdjust (mapAdjust s.m_nodes b _) a _)
      rw [hkeys]
      rcases (mem_mapKeys_mapModify _ _ _ _ _).1 hk with hk | hk
      · exact h.deps_key k hk
      · rw [hk]; exact hb
    · intro k hk
      show k ∈ mapKeys (mapAdjust (mapAdjust s.m_nodes b _) a _)
      rw [hkeys]
      rcases (mem_mapKeys_mapModify _ _ _ _ _).1 hk with hk | hk
      · exact h.dpts_key k hk
      · rw [hk]; exact ha
    · intro k y
      rw [deps_after_connect]
      show _ → y ∈ mapKeys (mapAdjust (mapAdjust s.m_nodes b _) a _)
      rw [hkeys]
      by_cases hk : b = k
      · simp only [hk, if_true, List.mem_append, List.mem_singleton]
        rintro (hy | hy)
        · exact h.deps_mem k y hy
        · rw [hy]; exact ha
      · simp only [hk, if_false]
        exact h.deps_mem k y
    · intro k y
      rw [dpts_after_connect]
      show _ → y ∈ mapKeys (mapAdjust (mapAdjust s.m_nodes b _) a _)
      rw [hkeys]
      by_cases hk : a = k
      · simp only [hk, if_true, List.mem_append, List.mem_singleton]
        rintro (hy | hy)
        · exact h.dpts_mem k y hy
        · rw [hy]; exact hb
      · simp only [hk, if_false]
        exact h.dpts_mem k y
    · intro a' b'
      rw [deps_after_connect, dpts_after_connect]
      by_cases h1 : b = b' <;> by_cases h2 : a = a'
      · subst h1; subst h2
        simp [List.count_append, h.inverse]
      · subst h1
        have : ¬ a' = a := fun e => h2 e.symm
        simp [List.count_append, h.inverse, h2, List.count_singleton, this]
      · subst h2
        have : ¬ b' = b := fun e => h1 e.symm
        simp [List.count_append, h.inverse, h1, List.count_singleton, this]
      · simp [h1, h2, h.inverse]

theorem consistent_reorder {D : Type} (s : DAGProcessor D) (nodes : List (String × FlowNode D))
    (deps dpts : List (String × List String)) (h : Consistent s)
    (hn : nodes.Perm s.m_nodes) (hd : deps.Perm s.m_dependencies)
    (hp : dpts.Perm s.m_dependents) :
    Consistent { s with m_nodes := nodes, m_dependencies := deps, m_dependents := dpts } := by
  have kn : (mapKeys nodes).Perm (mapKeys s.m_nodes) := List.Perm.map Prod.fst hn
  have kd : (mapKeys deps).Perm (mapKeys s.m_dependencies) := List.Perm.map Prod.fst hd
  have kp : (mapKeys dpts).Perm (mapKeys s.m_dependents) := List.Perm.map Prod.fst hp
  have ed : ∀ k, getNodeDependencies
      { s with m_nodes := nodes, m_dependencies := deps, m_dependents := dpts } k =
      getNodeDependencies s k := by
    intro k
    simp only [getNodeDependencies]
    rw [mapFind_perm s.m_dependencies deps k h.deps_nodup hd]
  have ep : ∀ k, dependentsOf
      { s with m_nodes := nodes, m_dependencies := deps, m_dependents := dpts } k =
      dependentsOf s k := by
    intro k
    simp only [dependentsOf]
    rw [mapFind_perm s.m_dependents dpts k h.dpts_nodup hp]
  constructor
  · exact kn.nodup_iff.2 h.nodes_nodup
  · exact kd.nodup_iff.2 h.deps_nodup
  · exact kp.nodup_iff.2 h.dpts_nodup
  · exact fun k hk => kn.mem_iff.2 (h.deps_key k (kd.mem_iff.1 hk))
  · exact fun k hk => kn.mem_iff.2 (h.dpts_key k (kp.mem_iff.1 hk))
  · intro k x hx
    rw [ed] at hx
    exact kn.mem_iff.2 (h.deps_mem k x hx)
  · intro k x hx
    rw [ep] at hx
    exact kn.mem_iff.2 (h.dpts_mem k x hx)
  · intro a b
    rw [ed, ep]
    exact h.inverse a b

theorem Reachable.consistent {D : Type} {s : DAGProcessor D} (h : Reachable s) :
    Consistent s := by
  induction h with
  | init => exact consistent_new
  | add s node _ ih => exact consistent_addNode s node ih
  | remove s x _ ih => exact consistent_removeNode s x ih
  | connect s a ap b bp _ ih => exact consistent_connectNodes s a ap b bp ih
  | reorder s nodes deps dpts _ hn hd hp ih => exact consistent_reorder s nodes deps dpts ih hn hd hp

/-! ## Kahn's algorithm -/

theorem degreeOf_eq (m : List (String × Int)) (v : String) :
    degreeOf m v = (mapFind m v).getD 0 := by
  unfold degreeOf
  cases mapFind m v <;> rfl

theorem degreeOf_decrement (m : List (String × Int)) (d v : String) :
    degreeOf (mapModify m d 0 (fun x => x - 1)) v =
      degreeOf m v - (if d = v then 1 else 0) := by
  rw [degreeOf_eq, degreeOf_eq, mapFind_mapModify]
  by_cases h : d = v
  · subst h; simp
  · simp [h]

/-- What the inner loop of `topologicalSort` does for one popped node: every count
drops by the number of occurrences among the dependents, and exactly the ids whose
count passes through zero are appended to the queue, each once. -/
theorem relaxDependents_spec (ds : List String) :
    ∀ (inDegree : List (String × Int)) (queue : List String),
      ∃ new, (relaxDependents ds inDegree queue).2 = queue ++ new ∧ new.Nodup ∧
        (∀ v, degreeOf (relaxDependents ds inDegree queue).1 v =
          degreeOf inDegree v - (ds.count v : Int)) ∧
        (∀ v, v ∈ new ↔ (0 < degreeOf inDegree v ∧ degreeOf inDegree v ≤ (ds.count v : Int))) := by
  induction ds with
  | nil =>
    intro inDegree queue
    refine ⟨[], by simp [relaxDependents], List.nodup_nil, by simp [relaxDependents], ?_⟩
    intro v
    simp only [List.not_mem_nil, List.count_nil, Nat.cast_zero, false_iff, not_and, not_le]
    exact fun h => h
  | cons d rest ih =>
    intro inDegree queue
    have hdec := degreeOf_decrement inDegree d
    by_cases h0 : degreeOf (mapModify inDegree d 0 (fun x => x - 1)) d = 0
    · obtain ⟨new, e, hnd, hdeg, hmem⟩ :=
        ih (mapModify inDegree d 0 (fun x => x - 1)) (queue ++ [d])
      refine ⟨d :: new, ?_, ?_, ?_, ?_⟩
      · simp only [relaxDependents, h0, if_true]
        rw [e]; simp
      · refine List.nodup_cons.2 ⟨?_, hnd⟩
        intro hd
        have := ((hmem d).1 hd).1
        omega
      · intro v
        simp only [relaxDependents, h0, if_true]
        rw [hdeg v, hdec v, List.count_cons]
        by_cases hv : d = v
        · subst hv; simp; omega
        · have hv' : ¬ (d == v) = true := by simpa using hv
          simp [hv, hv']
      · intro v
        rw [List.mem_cons, hmem v, hdec v, List.count_cons]
        have h0' := hdec d
        by_cases hv : d = v
        · subst hv
          simp only [if_true, beq_self_eq_true] at h0' ⊢
          constructor
          · intro _; constructor <;> omega
          · intro _; left; trivial
        · have hv' : ¬ (d == v) = true := by simpa using hv
          have hv'' : ¬ v = d := fun e => hv e.symm
          simp [hv, hv', hv'']
    · obtain ⟨new, e, hnd, hdeg, hmem⟩ :=
        ih (mapModify inDegree d 0 (fun x => x - 1)) queue
      refine ⟨new, ?_, hnd, ?_, ?_⟩
      · simp only [relaxDependents, h0, if_false]
        exact e
      · intro v
        simp only [relaxDependents, h0, if_false]
        rw [hdeg v, hdec v, List.count_cons]
        by_cases hv : d = v
        · subst hv; simp; omega
        · have hv' : ¬ (d == v) = true := by simpa using hv
          simp [hv, hv']
      · intro v
        rw [hmem v, hdec v, List.count_cons]
        have h0' := hdec d
        by_cases hv : d = v
        · subst hv
          simp only [if_true, beq_self_eq_true] at h0' ⊢
          constructor
          · intro ⟨_, _⟩; constructor <;> omega
          · intro ⟨_, _⟩; constructor <;> omega
        · have hv' : ¬ (d == v) = true := by simpa using hv
          simp [hv, hv']

theorem sortLoop_step {D : Type} (s : DAGProcessor D) (fuel : Nat)
    (inDegree : List (String × Int)) (current : String) (queue sortedNodes : List String) :
    sortLoop s (fuel + 1) inDegree (current :: queue) sortedNodes =
      sortLoop s fuel (relaxDependents (dependentsOf s current) inDegree queue).1
        (relaxDependents (dependentsOf s current) inDegree queue).2
        (sortedNodes ++ [current]) := by
  unfold dependentsOf
  cases h : mapFind s.m_dependents current <;> simp [sortLoop, h, relaxDependents]

/-! ### The main loop always finishes within its fuel -/

theorem positives_decrement (m : List (String × Int)) (d : String) :
    positives (mapModify m d 0 (fun x => x - 1)) +
        (if degreeOf (mapModify m d 0 (fun x => x - 1)) d = 0 then 1 else 0) =
      positives m := by
  induction m with
  | nil => simp [mapModify, positives, degreeOf, mapFind]
  | cons e m ih =>
    obtain ⟨k, v⟩ := e
    by_cases hk : k = d
    · subst hk
      simp only [mapModify, if_true, degreeOf, mapFind, positives, List.filter_cons]
      by_cases h1 : v - 1 = 0
      · have h2 : (0 : Int) < v := by omega
        have h3 : ¬ (0 : Int) < v - 1 := by omega
        simp [h1, h2]
      · by_cases h2 : (0 : Int) < v
        · have h3 : (0 : Int) < v - 1 := by omega
          simp [h1, h2, h3]
        · have h3 : ¬ (0 : Int) < v - 1 := by omega
          simp [h1, h2, h3]
    · have e1 : degreeOf ((k, v) :: mapModify m d 0 (fun x => x - 1)) d =
          degreeOf (mapModify m d 0 (fun x => x - 1)) d := by
        simp [degreeOf, mapFind, hk]
      simp only [mapModify, hk, if_false, e1]
      simp only [positives, List.filter_cons] at ih ⊢
      by_cases h2 : (0 : Int) < v
      · simp only [h2, decide_True, if_true, List.length_cons]
        omega
      · simp only [h2, decide_False]
        exact ih

theorem relaxDependents_measure (ds : List String) :
    ∀ (inDegree : List (String × Int)) (queue : List String),
      (relaxDependents ds inDegree queue).2.length + positives (relaxDependents ds inDegree queue).1 =
        queue.length + positives inDegree := by
  induction ds with
  | nil => intro inDegree queue; simp [relaxDependents]
  | cons d rest ih =>
    intro inDegree queue
    have hp := positives_decrement inDegree d
    by_cases h0 : degreeOf (mapModify inDegree d 0 (fun x => x - 1)) d = 0
    · simp only [relaxDependents, h0, if_true] at hp ⊢
      rw [ih]
      simp only [List.length_append, List.length_singleton]
      omega
    · simp only [relaxDependents, h0, if_false] at hp ⊢
      rw [ih]
      omega

theorem sortLoop_total {D : Type} (s : DAGProcessor D) :
    ∀ (fuel : Nat) (inDegree : List (String × Int)) (queue sortedNodes : List String),
      queue.length + positives inDegree ≤ fuel →
      ∃ r, sortLoop s fuel inDegree queue sortedNodes = some r := by
  intro fuel
  induction fuel with
  | zero =>
    intro inDegree queue sortedNodes h
    cases queue with
    | nil => exact ⟨sortedNodes, by simp [sortLoop]⟩
    | cons c q => simp at h
  | succ fuel ih =>
    intro inDegree queue sortedNodes h
    cases queue with
    | nil => exact ⟨sortedNodes, by simp [sortLoop]⟩
    | cons c q =>
      rw [sortLoop_step]
      apply ih
      rw [relaxDependents_measure]
      simp only [List.length_cons] at h
      omega

theorem initialQueue_measure (m : List (String × Int)) :
    (initialQueue m).length + positives m ≤ m.length := by
  induction m with
  | nil => simp [initialQueue, positives]
  | cons e m ih =>
    obtain ⟨k, v⟩ := e
    simp only [initialQueue, positives, List.length_map, List.filter_cons] at ih ⊢
    by_cases h1 : v = 0
    · subst h1
      simp
      omega
    · by_cases h2 : (0 : Int) < v
      · simp [h1, h2]; omega
      · simp [h1, h2]; omega

/-- `topologicalSort` returns on every processor, consistent or not. -/
theorem topologicalSort_total {D : Type} (s : DAGProcessor D) :
    ∃ sortedNodes, sortLoop s (initialInDegree s).length (initialInDegree s)
        (initialQueue (initialInDegree s)) [] = some sortedNodes ∧
      topologicalSort s =
        some (decide (sortedNodes.length = s.m_nodes.length), sortedNodes) := by
  obtain ⟨r, hr⟩ := sortLoop_total s (initialInDegree s).length (initialInDegree s)
    (initialQueue (initialInDegree s)) [] (initialQueue_measure _)
  exact ⟨r, hr, by simp [topologicalSort, hr]⟩

/-- Invariant rule for the main loop of `topologicalSort`. -/
theorem sortLoop_invariant {D : Type} (s : DAGProcessor D)
    (P : List (String × Int) → List String → List String → Prop)
    (hstep : ∀ inDegree c q sortedNodes, P inDegree (c :: q) sortedNodes →
      P (relaxDependents (dependentsOf s c) inDegree q).1
        (relaxDependents (dependentsOf s c) inDegree q).2 (sortedNodes ++ [c])) :
    ∀ (fuel : Nat) (inDegree : List (String × Int)) (queue sortedNodes r : List String),
      P inDegree queue sortedNodes → sortLoop s fuel inDegree queue sortedNodes = some r →
      ∃ inDegree', P inDegree' [] r := by
  intro fuel
  induction fuel with
  | zero =>
    intro inDegree queue sortedNodes r hP h
    cases queue with
    | nil =>
      simp only [sortLoop, Option.some.injEq] at h
      exact ⟨inDegree, h ▸ hP⟩
    | cons c q => simp [sortLoop] at h
  | succ fuel ih =>
    intro inDegree queue sortedNodes r hP h
    cases queue with
    | nil =>
      simp only [sortLoop, Option.some.injEq] at h
      exact ⟨inDegree, h ▸ hP⟩
    | cons c q =>
      rw [sortLoop_step] at h
      exact ih _ _ _ r (hstep _ _ _ _ hP) h

/-! ### The loop invariant -/

theorem filter_not_mem_snoc (l sortedNodes : List String) (c : String) (hc : c ∉ sortedNodes) :
    (l.filter (fun u => !decide (u ∈ sortedNodes ++ [c]))).length + l.count c =
      (l.filter (fun u => !decide (u ∈ sortedNodes))).length := by
  induction l with
  | nil => simp
  | cons y l ih =>
    simp only [List.filter_cons, List.count_cons]
    by_cases hy : y = c
    · subst hy
      have h1 : (!decide (y ∈ sortedNodes ++ [y])) = false := by simp
      have h2 : (!decide (y ∈ sortedNodes)) = true := by simp [hc]
      simp only [h1, h2, if_true, beq_self_eq_true, List.length_cons]
      rw [if_neg (by simp)]
      omega
    · have hy' : (y == c) = false := by simpa using hy
      by_cases hm : y ∈ sortedNodes
      · have h1 : (!decide (y ∈ sortedNodes ++ [c])) = false := by simp [hm]
        have h2 : (!decide (y ∈ sortedNodes)) = false := by simp [hm]
        simp only [h1, h2, hy']
        simpa using ih
      · have h1 : (!decide (y ∈ sortedNodes ++ [c])) = true := by simp [hm, hy]
        have h2 : (!decide (y ∈ sortedNodes)) = true := by simp [hm]
        simp only [h1, h2, hy', if_true, List.length_cons]
        simp only [Bool.false_eq_true, if_false]
        omega

theorem SortInv.step {D : Type} (s : DAGProcessor D) (hs : Consistent s)
    (inDegree : List (String × Int)) (c : String) (q sortedNodes : List String)
    (h : SortInv s inDegree (c :: q) sortedNodes) :
    SortInv s (relaxDependents (dependentsOf s c) inDegree q).1
      (relaxDependents (dependentsOf s c) inDegree q).2 (sortedNodes ++ [c]) := by
  obtain ⟨new, eq, hnd, hdeg, hmem⟩ := relaxDependents_spec (dependentsOf s c) inDegree q
  have hcN : c ∈ mapKeys s.m_nodes := h.sub c (by simp)
  have hcS : c ∉ sortedNodes := by
    intro hc
    have := h.nodup
    rw [List.nodup_append] at this
    exact this.2.2 hc (List.mem_cons_self c q)
  -- the new counts
  have hdeg' : ∀ v, v ∈ mapKeys s.m_nodes →
      degreeOf (relaxDependents (dependentsOf s c) inDegree q).1 v =
        (((getNodeDependencies s v).filter
          (fun u => !decide (u ∈ sortedNodes ++ [c]))).length : Int) := by
    intro v hv
    rw [hdeg v, h.deg v hv, ← hs.inverse c v]
    have := filter_not_mem_snoc (getNodeDependencies s v) sortedNodes c hcS
    omega
  -- members of `new` are nodes that were neither output nor queued
  have hnewN : ∀ v, v ∈ new → v ∈ mapKeys s.m_nodes := by
    intro v hv
    have h1 := (hmem v).1 hv
    have h2 : 0 < (dependentsOf s c).count v := by omega
    exact hs.dpts_mem c v (List.count_pos_iff.1 h2)
  have hnewL : ∀ v, v ∈ new → v ∉ sortedNodes ++ c :: q := by
    intro v hv hL
    have h1 := (hmem v).1 hv
    have h2 := (h.zero v (hnewN v hv)).1 hL
    omega
  rw [eq]
  constructor
  · have hp : (sortedNodes ++ [c] ++ (q ++ new)).Perm ((sortedNodes ++ c :: q) ++ new) := by
      simp
    rw [hp.nodup_iff, List.nodup_append]
    exact ⟨h.nodup, hnd, fun a ha hb => hnewL a hb ha⟩
  · intro v hv
    simp only [List.mem_append, List.mem_singleton] at hv
    rcases hv with (hv | hv) | hv | hv
    · exact h.sub v (by simp [hv])
    · rw [hv]; exact hcN
    · exact h.sub v (by simp [hv])
    · exact hnewN v hv
  · exact hdeg'
  · intro v hv
    have h1 := hdeg' v hv
    have h2 := hdeg v
    have h3 := h.zero v hv
    have h4 := hmem v
    have h5 : v ∈ sortedNodes ++ [c] ++ (q ++ new) ↔ (v ∈ sortedNodes ++ c :: q ∨ v ∈ new) := by
      simp only [List.mem_append, List.mem_singleton, List.mem_cons]
      tauto
    rw [h5, h3, h4]
    constructor
    · rintro (h6 | h6) <;> omega
    · intro h6
      by_cases h7 : degreeOf inDegree v = 0
      · exact Or.inl h7
      · right; constructor <;> omega
  · intro v hv u hu
    rcases List.mem_append.1 hv with hv | hv
    · obtain ⟨h1, h2⟩ := h.order v hv u hu
      refine ⟨List.mem_append_left _ h1, ?_⟩
      rw [List.indexOf_append_of_mem h1, List.indexOf_append_of_mem hv]
      exact h2
    · rw [List.mem_singleton] at hv
      subst hv
      have h0 := (h.zero v hcN).1 (by simp)
      have h1 := h.deg v hcN
      rw [h0] at h1
      have h2 : (getNodeDependencies s v).filter (fun u => !decide (u ∈ sortedNodes)) = [] := by
        apply List.eq_nil_of_length_eq_zero
        omega
      have h3 : u ∈ sortedNodes := by
        by_contra hn
        have : u ∈ (getNodeDependencies s v).filter (fun u => !decide (u ∈ sortedNodes)) := by
          simp [List.mem_filter, hu, hn]
        rw [h2] at this
        exact List.not_mem_nil u this
      refine ⟨List.mem_append_left _ h3, ?_⟩
      rw [List.indexOf_append_of_mem h3, List.indexOf_append_of_not_mem hcS]
      simp only [List.indexOf_cons_self, Nat.add_zero]
      exact List.indexOf_lt_length.2 h3

/-! ### The state in which the loop starts -/

theorem foldl_assign_mem_keys {V W : Type} (g : String × V → W) (l : List (String × V)) :
    ∀ (m0 : List (String × W)) (x : String),
      x ∈ mapKeys (l.foldl (fun m e => mapAssign m e.1 (g e)) m0) ↔
        x ∈ mapKeys m0 ∨ x ∈ mapKeys l := by
  induction l with
  | nil => intro m0 x; simp [mapKeys]
  | cons e l ih =>
    intro m0 x
    rw [List.foldl_cons, ih, mapAssign, mem_mapKeys_mapModify]
    simp only [mapKeys, List.map_cons, List.mem_cons]
    tauto

theorem foldl_assign_nodup {V W : Type} (g : String × V → W) (l : List (String × V)) :
    ∀ (m0 : List (String × W)), (mapKeys m0).Nodup →
      (mapKeys (l.foldl (fun m e => mapAssign m e.1 (g e)) m0)).Nodup := by
  induction l with
  | nil => intro m0 h; exact h
  | cons e l ih =>
    intro m0 h
    rw [List.foldl_cons]
    exact ih _ (nodup_mapKeys_mapModify _ _ _ _ h)

theorem foldl_assign_find_of_not_mem {V W : Type} (g : String × V → W) (l : List (String × V)) :
    ∀ (m0 : List (String × W)) (k : String), k ∉ mapKeys l →
      mapFind (l.foldl (fun m e => mapAssign m e.1 (g e)) m0) k = mapFind m0 k := by
  induction l with
  | nil => intro m0 k _; rfl
  | cons e l ih =>
    intro m0 k hk
    simp only [mapKeys, List.map_cons, List.mem_cons, not_or] at hk
    rw [List.foldl_cons, ih _ _ hk.2, mapAssign, mapFind_mapModify]
    have : ¬ e.1 = k := fun h => hk.1 h.symm
    simp [this]

theorem foldl_assign_find_of_mem {V W : Type} (g : String × V → W) (l : List (String × V)) :
    ∀ (m0 : List (String × W)) (k : String) (v : V), (mapKeys l).Nodup → (k, v) ∈ l →
      mapFind (l.foldl (fun m e => mapAssign m e.1 (g e)) m0) k = some (g (k, v)) := by
  induction l with
  | nil => intro m0 k v _ h; simp at h
  | cons e l ih =>
    intro m0 k v hn h
    simp only [mapKeys, List.map_cons, List.nodup_cons] at hn
    rw [List.foldl_cons]
    rcases List.mem_cons.1 h with h | h
    · subst h
      rw [foldl_assign_find_of_not_mem g l _ _ hn.1, mapAssign, mapFind_mapModify]
      simp
    · exact ih _ k v hn.2 h

theorem initialInDegree_eq {D : Type} (s : DAGProcessor D) :
    initialInDegree s =
      s.m_dependencies.foldl (fun m e => mapAssign m e.1 ((fun e => (e.2.length : Int)) e))
        (s.m_nodes.foldl (fun m e => mapAssign m e.1 ((fun _ => (0 : Int)) e)) []) := rfl

theorem mem_keys_initialInDegree {D : Type} (s : DAGProcessor D) (x : String) :
    x ∈ mapKeys (initialInDegree s) ↔ x ∈ mapKeys s.m_nodes ∨ x ∈ mapKeys s.m_dependencies := by
  rw [initialInDegree_eq, foldl_assign_mem_keys, foldl_assign_mem_keys]
  simp [mapKeys]

theorem nodup_keys_initialInDegree {D : Type} (s : DAGProcessor D) :
    (mapKeys (initialInDegree s)).Nodup := by
  rw [initialInDegree_eq]
  apply foldl_assign_nodup
  apply foldl_assign_nodup
  simp [mapKeys]

theorem degreeOf_initialInDegree {D : Type} (s : DAGProcessor D) (hs : Consistent s)
    (v : String) :
    degreeOf (initialInDegree s) v = ((getNodeDependencies s v).length : Int) := by
  rw [degreeOf_eq, initialInDegree_eq]
  unfold getNodeDependencies
  cases h : mapFind s.m_dependencies v with
  | some l =>
    rw [foldl_assign_find_of_mem _ _ _ v l hs.deps_nodup (mapFind_mem _ _ _ h)]
    simp
  | none =>
    rw [foldl_assign_find_of_not_mem _ _ _ _ ((mapFind_eq_none_iff _ _).1 h)]
    cases h' : mapFind s.m_nodes v with
    | some n =>
      rw [foldl_assign_find_of_mem _ _ _ v n hs.nodes_nodup (mapFind_mem _ _ _ h')]
      simp
    | none =>
      rw [foldl_assign_find_of_not_mem _ _ _ _ ((mapFind_eq_none_iff _ _).1 h')]
      simp [mapFind]

theorem mem_initialQueue (m : List (String × Int)) (hn : (mapKeys m).Nodup) (v : String) :
    v ∈ initialQueue m ↔ mapFind m v = some 0 := by
  rw [mapFind_eq_some_iff _ _ _ hn]
  simp only [initialQueue, List.mem_map, List.mem_filter, decide_eq_true_eq]
  constructor
  · rintro ⟨⟨k, d⟩, ⟨hm, hd⟩, hk⟩
    simp only at hd hk
    subst hd; subst hk
    exact hm
  · intro h
    exact ⟨(v, 0), ⟨h, rfl⟩, rfl⟩

theorem nodup_initialQueue (m : List (String × Int)) (hn : (mapKeys m).Nodup) :
    (initialQueue m).Nodup := by
  unfold initialQueue
  exact List.Nodup.sublist (List.Sublist.map Prod.fst (List.filter_sublist m)) hn

theorem SortInv.init {D : Type} (s : DAGProcessor D) (hs : Consistent s) :
    SortInv s (initialInDegree s) (initialQueue (initialInDegree s)) [] := by
  have hn := nodup_keys_initialInDegree s
  have hkeys : ∀ x, x ∈ mapKeys (initialInDegree s) ↔ x ∈ mapKeys s.m_nodes := by
    intro x
    rw [mem_keys_initialInDegree]
    exact ⟨fun h => h.elim id (hs.deps_key x), Or.inl⟩
  constructor
  · simpa using nodup_initialQueue _ hn
  · intro v hv
    simp only [List.nil_append] at hv
    rw [mem_initialQueue _ hn] at hv
    exact (hkeys v).1 ((mapFind_isSome_iff _ _).1 (by simp [hv]))
  · intro v _
    rw [degreeOf_initialInDegree s hs]
    simp
  · intro v hv
    simp only [List.nil_append]
    rw [mem_initialQueue _ hn, degreeOf_eq]
    have h1 := (mapFind_isSome_iff _ _).2 ((hkeys v).2 hv)
    cases h2 : mapFind (initialInDegree s) v with
    | none => simp [h2] at h1
    | some d => simp
  · intro v hv
    simp at hv

/-- What `topologicalSort` leaves in `sortedNodes` on a consistent processor. -/
theorem sorted_spec {D : Type} (s : DAGProcessor D) (hs : Consistent s) :
    ∃ sortedNodes inDegree,
      topologicalSort s =
        some (decide (sortedNodes.length = s.m_nodes.length), sortedNodes) ∧
      SortInv s inDegree [] sortedNodes := by
  obtain ⟨r, hr, ht⟩ := topologicalSort_total s
  obtain ⟨inDegree, hinv⟩ := sortLoop_invariant s (SortInv s)
    (fun inDegree c q sortedNodes h => SortInv.step s hs inDegree c q sortedNodes h)
    _ _ _ _ r (SortInv.init s hs) hr
  exact ⟨r, inDegree, ht, hinv⟩

/-! ### Cycles and the order that `topologicalSort` produces -/

/-- In a non-empty finite set in which every element has a predecessor inside the
set, some element reaches itself. -/
theorem exists_cycle_of_pred (R : String → String → Prop) (T : List String) (x0 : String)
    (hx0 : x0 ∈ T) (h : ∀ y, y ∈ T → ∃ z, z ∈ T ∧ R z y) :
    ∃ x, Relation.TransGen R x x := by
  by_contra hno
  have hno' : ∀ x, ¬ Relation.TransGen R x x := fun x hx => hno ⟨x, hx⟩
  let r : {x // x ∈ T} → {x // x ∈ T} → Prop := fun a b => Relation.TransGen R a.1 b.1
  haveI : IsTrans {x // x ∈ T} r := ⟨fun _ _ _ hab hbc => Relation.TransGen.trans hab hbc⟩
  haveI : IsIrrefl {x // x ∈ T} r := ⟨fun a ha => hno' a.1 ha⟩
  have wf : WellFounded r := Finite.wellFounded_of_trans_of_irrefl r
  obtain ⟨m, _, hm⟩ := wf.has_min Set.univ ⟨⟨x0, hx0⟩, trivial⟩
  obtain ⟨z, hz, hR⟩ := h m.1 m.2
  exact hm ⟨z, hz⟩ trivial (Relation.TransGen.single hR)

theorem Edge.left_mem {D : Type} {s : DAGProcessor D} (hs : Consistent s) {u v : String}
    (h : Edge s u v) : u ∈ mapKeys s.m_nodes :=
  hs.deps_mem v u h

theorem Edge.right_mem {D : Type} {s : DAGProcessor D} (hs : Consistent s) {u v : String}
    (h : Edge s u v) : v ∈ mapKeys s.m_nodes := by
  apply hs.deps_key
  rw [← mapFind_isSome_iff]
  unfold Edge getNodeDependencies at h
  cases h' : mapFind s.m_dependencies v with
  | none => rw [h'] at h; simp at h
  | some l => simp

theorem edge_iff_dependents {D : Type} {s : DAGProcessor D} (hs : Consistent s) (u v : String) :
    Edge s u v ↔ v ∈ dependentsOf s u := by
  unfold Edge
  rw [← List.count_pos_iff, ← List.count_pos_iff, hs.inverse]

theorem OnCycle.mem {D : Type} {s : DAGProcessor D} (hs : Consistent s) {x : String}
    (h : OnCycle s x) : x ∈ mapKeys s.m_nodes := by
  unfold OnCycle at h
  cases h with
  | single h => exact h.right_mem hs
  | tail _ h => exact h.right_mem hs

theorem SortInv.transGen_before {D : Type} {s : DAGProcessor D} {inDegree : List (String × Int)}
    {sortedNodes : List String} (h : SortInv s inDegree [] sortedNodes) {u v : String}
    (huv : Relation.TransGen (Edge s) u v) (hv : v ∈ sortedNodes) :
    u ∈ sortedNodes ∧ sortedNodes.indexOf u < sortedNodes.indexOf v := by
  induction huv with
  | single e => exact h.order _ hv _ e
  | tail _ e ih =>
    obtain ⟨h1, h2⟩ := h.order _ hv _ e
    obtain ⟨h3, h4⟩ := ih h1
    exact ⟨h3, lt_trans h4 h2⟩

theorem SortInv.not_onCycle {D : Type} {s : DAGProcessor D} {inDegree : List (String × Int)}
    {sortedNodes : List String} (h : SortInv s inDegree [] sortedNodes) {x : String}
    (hx : OnCycle s x) : x ∉ sortedNodes := fun hm =>
  lt_irrefl _ (h.transGen_before hx hm).2

theorem SortInv.complete {D : Type} {s : DAGProcessor D} (hs : Consistent s)
    {inDegree : List (String × Int)} {sortedNodes : List String}
    (h : SortInv s inDegree [] sortedNodes) (hac : Acyclic s) (v : String)
    (hv : v ∈ mapKeys s.m_nodes) : v ∈ sortedNodes := by
  by_contra hvS
  apply hac
  apply exists_cycle_of_pred (Edge s)
    ((mapKeys s.m_nodes).filter (fun x => !decide (x ∈ sortedNodes))) v
  · simp [List.mem_filter, hv, hvS]
  · intro y hy
    simp only [List.mem_filter, Bool.not_eq_true', decide_eq_false_iff_not] at hy
    have h1 := h.zero y hy.1
    have h2 := h.deg y hy.1
    simp only [List.append_nil] at h1
    have h3 : (getNodeDependencies s y).filter (fun u => !decide (u ∈ sortedNodes)) ≠ [] := by
      intro e
      rw [e] at h2
      exact hy.2 (h1.2 (by simpa using h2))
    obtain ⟨z, hz⟩ := List.exists_mem_of_ne_nil _ h3
    simp only [List.mem_filter, Bool.not_eq_true', decide_eq_false_iff_not] at hz
    refine ⟨z, ?_, hz.1⟩
    simp only [List.mem_filter, Bool.not_eq_true', decide_eq_false_iff_not]
    exact ⟨hs.deps_mem y z hz.1, hz.2⟩

theorem before_of_indexOf_lt (l : List String) (u v : String) (hu : u ∈ l) (hv : v ∈ l)
    (h : l.indexOf u < l.indexOf v) : Before l u v :=
  ⟨l.indexOf u, l.indexOf v, h, List.getElem?_indexOf hu, List.getElem?_indexOf hv⟩

/-- Kahn's algorithm on a consistent processor: the output is duplicate-free,
consists of nodes, avoids every node on a cycle, respects every edge among the
nodes it contains, and covers all nodes exactly when there is no cycle. -/
theorem topologicalSort_spec {D : Type} (s : DAGProcessor D) (hs : Consistent s) :
    ∃ sortedNodes,
      topologicalSort s =
        some (decide (sortedNodes.length = s.m_nodes.length), sortedNodes) ∧
      sortedNodes.Nodup ∧
      (∀ v, v ∈ sortedNodes → v ∈ mapKeys s.m_nodes) ∧
      (∀ x, OnCycle s x → x ∉ sortedNodes) ∧
      (∀ u v, Edge s u v → v ∈ sortedNodes → Before sortedNodes u v) ∧
      (Acyclic s → sortedNodes.Perm (mapKeys s.m_nodes)) ∧
      (sortedNodes.length = s.m_nodes.length → Acyclic s) ∧
      sortedNodes.length ≤ s.m_nodes.length := by
  obtain ⟨S, inDegree, ht, hinv⟩ := sorted_spec s hs
  have hnd : S.Nodup := by simpa using hinv.nodup
  have hsub : ∀ v, v ∈ S → v ∈ mapKeys s.m_nodes := fun v hv => hinv.sub v (by simpa using hv)
  have hsp : S.Subperm (mapKeys s.m_nodes) := List.subperm_of_subset hnd hsub
  have hlen : (mapKeys s.m_nodes).length = s.m_nodes.length := by simp [mapKeys]
  refine ⟨S, ht, hnd, hsub, fun x hx => hinv.not_onCycle hx, ?_, ?_, ?_, ?_⟩
  · intro u v e hv
    obtain ⟨h1, h2⟩ := hinv.order v hv u e
    exact before_of_indexOf_lt S u v h1 hv h2
  · intro hac
    apply hsp.perm_of_length_le
    apply List.Subperm.length_le
    exact List.subperm_of_subset hs.nodes_nodup (fun v hv => hinv.complete hs hac v hv)
  · intro hl
    rintro ⟨x, hx⟩
    have hp : S.Perm (mapKeys s.m_nodes) := hsp.perm_of_length_le (by omega)
    exact hinv.not_onCycle hx (hp.mem_iff.2 (hx.mem hs))
  · have := hsp.length_le
    omega

/-! ## Depth-first cycle detection -/

theorem unvisited_mono (nodes v v' : List String) (h : ∀ x, x ∈ v → x ∈ v') :
    unvisited nodes v' ≤ unvisited nodes v := by
  unfold unvisited
  apply List.Sublist.length_le
  apply List.monotone_filter_right
  intro x hx
  simp only [Bool.not_eq_true', decide_eq_false_iff_not] at hx ⊢
  exact fun hv => hx (h x hv)

theorem unvisited_insert (nodes v : List String) (n : String) (hn : n ∈ nodes) (hv : n ∉ v) :
    unvisited nodes (List.insert n v) < unvisited nodes v := by
  rw [List.insert_of_not_mem hv]
  unfold unvisited
  induction nodes with
  | nil => simp at hn
  | cons y l ih =>
    simp only [List.filter_cons]
    by_cases hy : y = n
    · subst hy
      have h1 : (!decide (y ∈ y :: v)) = false := by simp
      have h2 : (!decide (y ∈ v)) = true := by simp [hv]
      simp only [h1, h2, if_true, List.length_cons, Bool.false_eq_true, if_false]
      have : (l.filter (fun x => !decide (x ∈ y :: v))).length ≤
          (l.filter (fun x => !decide (x ∈ v))).length :=
        unvisited_mono l v (y :: v) (fun x hx => List.mem_cons_of_mem _ hx)
      omega
    · have hn' : n ∈ l := by
        rcases List.mem_cons.1 hn with h | h
        · exact absurd h.symm hy
        · exact h
      have ih' := ih hn'
      by_cases hm : y ∈ v
      · have h1 : (!decide (y ∈ n :: v)) = false := by simp [hm]
        have h2 : (!decide (y ∈ v)) = false := by simp [hm]
        simp only [h1, h2, Bool.false_eq_true, if_false]
        exact ih'
      · have h1 : (!decide (y ∈ n :: v)) = true := by simp [hm, hy]
        have h2 : (!decide (y ∈ v)) = true := by simp [hm]
        simp only [h1, h2, if_true, List.length_cons]
        omega

theorem DfsInv.reach {D : Type} {s : DAGProcessor D} {v r : List String} (h : DfsInv s v r)
    {x y : String} (hxy : Relation.ReflTransGen (Edge s) x y) (hx : x ∈ v ∧ x ∉ r) :
    y ∈ v ∧ y ∉ r := by
  induction hxy with
  | refl => exact hx
  | tail _ e ih => exact h.closed _ ih.1 ih.2 _ e

/-- Finishing a node: when all its dependents are finished, the node on top of the
recursion stack can be taken off. -/
theorem DfsInv.pop {D : Type} {s : DAGProcessor D} {v r : List String} {n : String}
    (h : DfsInv s v (n :: r)) (hn : n ∈ v)
    (hd : ∀ d, Edge s n d → d ∈ v ∧ d ∉ n :: r) : DfsInv s v r := by
  have hsplit : ∀ x, x ∈ v → x ∉ r → x = n ∨ (x ∈ v ∧ x ∉ n :: r) := by
    intro x hx hxr
    by_cases e : x = n
    · exact Or.inl e
    · exact Or.inr ⟨hx, by simp [e, hxr]⟩
  constructor
  · intro x hx hxr y e
    rcases hsplit x hx hxr with rfl | hb
    · have := hd y e
      exact ⟨this.1, fun hy => this.2 (List.mem_cons_of_mem _ hy)⟩
    · have := h.closed x hb.1 hb.2 y e
      exact ⟨this.1, fun hy => this.2 (List.mem_cons_of_mem _ hy)⟩
  · intro x hx hxr hc
    rcases hsplit x hx hxr with rfl | hb
    · obtain ⟨y, e, hy⟩ := Relation.TransGen.head'_iff.1 hc
      have := h.reach hy (hd y e)
      exact this.2 (List.mem_cons_self _ _)
    · exact h.acyclic x hb.1 hb.2 hc

/-- The loop over the dependents of `n` inside `detectCyclesHelper`, given that the
recursive calls behave as specified. -/
theorem scanDependents_spec {D : Type} (s : DAGProcessor D) (hs : Consistent s)
    (recurse : String → List String → List String → Option (Bool × List String × List String))
    (bound : Nat) (n : String) (r1 : List String)
    (hrec : ∀ d v, d ∈ mapKeys s.m_nodes → d ∉ v → (∀ x, x ∈ r1 → x ∈ v) → DfsInv s v r1 →
      (∀ x, x ∈ r1 → Relation.ReflTransGen (Edge s) x d) →
      unvisited (mapKeys s.m_nodes) v ≤ bound →
      ∃ b v' r', recurse d v r1 = some (b, v', r') ∧ (b = true → HasCycle s) ∧
        (b = false → r' = r1 ∧ (∀ x, x ∈ v → x ∈ v') ∧ d ∈ v' ∧ DfsInv s v' r1))
    (hpath : ∀ x, x ∈ r1 → Relation.ReflTransGen (Edge s) x n) :
    ∀ (ds v : List String), (∀ d, d ∈ ds → Edge s n d) → (∀ x, x ∈ r1 → x ∈ v) →
      DfsInv s v r1 → unvisited (mapKeys s.m_nodes) v ≤ bound →
      ∃ b v' r', scanDependents recurse ds v r1 = some (b, v', r') ∧ (b = true → HasCycle s) ∧
        (b = false → r' = r1 ∧ (∀ x, x ∈ v → x ∈ v') ∧ DfsInv s v' r1 ∧
          ∀ d, d ∈ ds → d ∈ v' ∧ d ∉ r1) := by
  intro ds
  induction ds with
  | nil =>
    intro v _ _ hinv _
    exact ⟨false, v, r1, by simp [scanDependents], by simp,
      fun _ => ⟨rfl, fun _ h => h, hinv, by simp⟩⟩
  | cons d rest ih =>
    intro v hE hsub hinv hb
    have hEd : Edge s n d := hE d (List.mem_cons_self _ _)
    have hErest : ∀ d', d' ∈ rest → Edge s n d' := fun d' h => hE d' (List.mem_cons_of_mem _ h)
    by_cases h1 : d ∈ r1
    · refine ⟨true, v, r1, by simp [scanDependents, h1], ?_, by simp⟩
      intro _
      exact ⟨d, Relation.TransGen.tail'_iff.2 ⟨n, hpath d h1, hEd⟩⟩
    · by_cases h2 : d ∈ v
      · obtain ⟨b, v', r', e, ht, hf⟩ := ih v hErest hsub hinv hb
        refine ⟨b, v', r', by simp [scanDependents, h1, h2, e], ht, ?_⟩
        intro hbf
        obtain ⟨e1, e2, e3, e4⟩ := hf hbf
        refine ⟨e1, e2, e3, ?_⟩
        intro d' hd'
        rcases List.mem_cons.1 hd' with rfl | hd'
        · exact ⟨e2 _ h2, h1⟩
        · exact e4 d' hd'
      · obtain ⟨b, v2, r2, e, ht, hf⟩ := hrec d v (hEd.right_mem hs) h2 hsub hinv
          (fun x hx => Relation.ReflTransGen.tail (hpath x hx) hEd) hb
        cases b with
        | true =>
          exact ⟨true, v2, r2, by simp [scanDependents, h1, h2, e], fun _ => ht rfl, by simp⟩
        | false =>
          obtain ⟨e1, e2, e3, e4⟩ := hf rfl
          subst e1
          obtain ⟨b, v', r', e', ht', hf'⟩ := ih v2 hErest (fun x hx => e2 x (hsub x hx)) e4
            (le_trans (unvisited_mono _ _ _ e2) hb)
          refine ⟨b, v', r', by simp [scanDependents, h1, h2, e, e'], ht', ?_⟩
          intro hbf
          obtain ⟨f1, f2, f3, f4⟩ := hf' hbf
          refine ⟨f1, fun x hx => f2 x (e2 x hx), f3, ?_⟩
          intro d' hd'
          rcases List.mem_cons.1 hd' with rfl | hd'
          · exact ⟨f2 _ e3, h1⟩
          · exact f4 d' hd'

theorem detectCyclesHelper_step {D : Type} (s : DAGProcessor D) (fuel : Nat) (n : String)
    (v r : List String) :
    detectCyclesHelper s (fuel + 1) n v r =
      match scanDependents (detectCyclesHelper s fuel) (dependentsOf s n)
          (List.insert n v) (List.insert n r) with
      | none => none
      | some (true, v', r') => some (true, v', r')
      | some (false, v', r') => some (false, v', r'.filter (fun x => x != n)) := by
  unfold dependentsOf
  cases h : mapFind s.m_dependents n <;> simp [detectCyclesHelper, h, scanDependents]

theorem filter_ne_cons_self (r : List String) (n : String) (h : n ∉ r) :
    (n :: r).filter (fun x => x != n) = r := by
  rw [List.filter_cons]
  simp only [bne_self_eq_false, Bool.false_eq_true, if_false]
  apply List.filter_eq_self.2
  intro a ha
  simp only [bne_iff_ne, ne_eq]
  intro e
  exact h (e ▸ ha)

/-- One call of `detectCyclesHelper` on an unvisited node: it returns; `true` only
when there is a cycle; and with `false` the node and everything found below it is
finished while the recursion stack is as before. -/
theorem detectCyclesHelper_spec {D : Type} (s : DAGProcessor D) (hs : Consistent s) :
    ∀ (fuel : Nat) (n : String) (v r : List String),
      n ∈ mapKeys s.m_nodes → n ∉ v → (∀ x, x ∈ r → x ∈ v) → DfsInv s v r →
      (∀ x, x ∈ r → Relation.ReflTransGen (Edge s) x n) →
      unvisited (mapKeys s.m_nodes) v ≤ fuel →
      ∃ b v' r', detectCyclesHelper s fuel n v r = some (b, v', r') ∧ (b = true → HasCycle s) ∧
        (b = false → r' = r ∧ (∀ x, x ∈ v → x ∈ v') ∧ n ∈ v' ∧ DfsInv s v' r) := by
  intro fuel
  induction fuel with
  | zero =>
    intro n v r hn hv _ _ _ hb
    have := unvisited_insert _ v n hn hv
    omega
  | succ fuel ih =>
    intro n v r hn hv hsub hinv hpath hb
    have hr : n ∉ r := fun h => hv (hsub n h)
    have hlt := unvisited_insert _ v n hn hv
    rw [detectCyclesHelper_step, List.insert_of_not_mem hr]
    rw [List.insert_of_not_mem hv] at hlt ⊢
    have hinv1 : DfsInv s (n :: v) (n :: r) := by
      constructor
      · intro x hx hxr y e
        have hxn : x ≠ n := fun e' => hxr (e' ▸ List.mem_cons_self _ _)
        have hxv : x ∈ v := (List.mem_cons.1 hx).resolve_left hxn
        have hxr' : x ∉ r := fun h => hxr (List.mem_cons_of_mem _ h)
        have hy := hinv.closed x hxv hxr' y e
        refine ⟨List.mem_cons_of_mem _ hy.1, ?_⟩
        intro hyn
        rcases List.mem_cons.1 hyn with rfl | hyr
        · exact hv hy.1
        · exact hy.2 hyr
      · intro x hx hxr
        have hxn : x ≠ n := fun e' => hxr (e' ▸ List.mem_cons_self _ _)
        exact hinv.acyclic x ((List.mem_cons.1 hx).resolve_left hxn)
          (fun h => hxr (List.mem_cons_of_mem _ h))
    have hpath1 : ∀ x, x ∈ n :: r → Relation.ReflTransGen (Edge s) x n := by
      intro x hx
      rcases List.mem_cons.1 hx with rfl | hx
      · exact Relation.ReflTransGen.refl
      · exact hpath x hx
    have hsub1 : ∀ x, x ∈ n :: r → x ∈ n :: v := by
      intro x hx
      rcases List.mem_cons.1 hx with rfl | hx
      · exact List.mem_cons_self _ _
      · exact List.mem_cons_of_mem _ (hsub x hx)
    obtain ⟨b, v', r', e, ht, hf⟩ := scanDependents_spec s hs (detectCyclesHelper s fuel) fuel n
      (n :: r)
      (fun d w hd hw hs' hi hp hbd => ih d w (n :: r) hd hw hs' hi hp hbd)
      hpath1 (dependentsOf s n) (n :: v)
      (fun d hd => (edge_iff_dependents hs n d).2 hd) hsub1 hinv1 (by omega)
    cases b with
    | true => exact ⟨true, v', r', by simp [e], fun _ => ht rfl, by simp⟩
    | false =>
      obtain ⟨e1, e2, e3, e4⟩ := hf rfl
      subst e1
      refine ⟨false, v', r, ?_, by simp, fun _ => ⟨rfl, ?_, e2 n (List.mem_cons_self _ _), ?_⟩⟩
      · simp only [e]
        rw [filter_ne_cons_self r n hr]
      · exact fun x hx => e2 x (List.mem_cons_of_mem _ hx)
      · exact e3.pop (e2 n (List.mem_cons_self _ _))
          (fun d hd => e4 d ((edge_iff_dependents hs n d).1 hd))

theorem detectFuel_ge {D : Type} (s : DAGProcessor D) (v : List String) :
    unvisited (mapKeys s.m_nodes) v ≤ detectFuel s := by
  unfold unvisited detectFuel
  have h1 := List.length_filter_le (fun x => !decide (x ∈ v)) (mapKeys s.m_nodes)
  have h2 : (mapKeys s.m_nodes).length = s.m_nodes.length := by simp [mapKeys]
  omega

/-- The outer loop of `detectCycles` over a part `rest` of the node map. -/
theorem detectLoop_spec {D : Type} (s : DAGProcessor D) (hs : Consistent s) :
    ∀ (rest : List (String × FlowNode D)) (v : List String),
      (∀ e, e ∈ rest → e.1 ∈ mapKeys s.m_nodes) → DfsInv s v [] →
      ∃ b, detectLoop s rest v [] = some b ∧ (b = true → HasCycle s) ∧
        (b = false → ∃ v', DfsInv s v' [] ∧ (∀ x, x ∈ v → x ∈ v') ∧
          ∀ e, e ∈ rest → e.1 ∈ v') := by
  intro rest
  induction rest with
  | nil =>
    intro v _ hinv
    exact ⟨false, by simp [detectLoop], by simp, fun _ => ⟨v, hinv, fun _ h => h, by simp⟩⟩
  | cons e rest ih =>
    intro v hN hinv
    have hN' : ∀ e', e' ∈ rest → e'.1 ∈ mapKeys s.m_nodes :=
      fun e' h => hN e' (List.mem_cons_of_mem _ h)
    by_cases h1 : e.1 ∈ v
    · obtain ⟨b, hb, ht, hf⟩ := ih v hN' hinv
      refine ⟨b, by simp [detectLoop, h1, hb], ht, ?_⟩
      intro hbf
      obtain ⟨v', f1, f2, f3⟩ := hf hbf
      refine ⟨v', f1, f2, ?_⟩
      intro e' he'
      rcases List.mem_cons.1 he' with rfl | he'
      · exact f2 _ h1
      · exact f3 e' he'
    · obtain ⟨b, v2, r2, eq, ht, hf⟩ := detectCyclesHelper_spec s hs (detectFuel s) e.1 v []
        (hN e (List.mem_cons_self _ _)) h1 (by simp) hinv (by simp) (detectFuel_ge s v)
      cases b with
      | true => exact ⟨true, by simp [detectLoop, h1, eq], fun _ => ht rfl, by simp⟩
      | false =>
        obtain ⟨e1, e2, e3, e4⟩ := hf rfl
        subst e1
        obtain ⟨b, hb, ht', hf'⟩ := ih v2 hN' e4
        refine ⟨b, by simp [detectLoop, h1, eq, hb], ht', ?_⟩
        intro hbf
        obtain ⟨v', f1, f2, f3⟩ := hf' hbf
        refine ⟨v', f1, fun x hx => f2 x (e2 x hx), ?_⟩
        intro e' he'
        rcases List.mem_cons.1 he' with rfl | he'
        · exact f2 _ e3
        · exact f3 e' he'

/-- `hasCycles` returns on every consistent processor, and returns `true` exactly
when the graph has a directed cycle. -/
theorem hasCycles_spec {D : Type} (s : DAGProcessor D) (hs : Consistent s) :
    ∃ b, hasCycles s = some b ∧ (b = true ↔ HasCycle s) := by
  have h0 : DfsInv s [] [] := ⟨by simp, by simp⟩
  obtain ⟨b, hb, ht, hf⟩ := detectLoop_spec s hs s.m_nodes []
    (fun e he => List.mem_map_of_mem Prod.fst he) h0
  refine ⟨b, hb, ht, ?_⟩
  intro hc
  by_contra hbt
  have hbf : b = false := by simpa using hbt
  obtain ⟨v', f1, _, f3⟩ := hf hbf
  obtain ⟨x, hx⟩ := hc
  have hxN := hx.mem hs
  obtain ⟨e, he, rfl⟩ := List.mem_map.1 hxN
  exact f1.acyclic e.1 (f3 e he) (by simp) hx

/-! ## Validation and execution -/

theorem validateGraph_spec {D : Type} (s : DAGProcessor D) (hs : Consistent s) :
    ∃ b, validateGraph s = some (b, s) ∧ (b = true ↔ Acyclic s) := by
  obtain ⟨c, hc, hiff⟩ := hasCycles_spec s hs
  refine ⟨!c, by simp [validateGraph, buildDependencyGraph, hc], ?_⟩
  unfold Acyclic
  rw [← hiff]
  cases c <;> simp

theorem exists_procs_of_order {D : Type} (s : DAGProcessor D) (order : List String)
    (h : ∀ id, id ∈ order → id ∈ mapKeys s.m_nodes) :
    ∃ procs : List (D → Bool × D), order.map (processAt s) = procs.map some := by
  induction order with
  | nil => exact ⟨[], rfl⟩
  | cons id rest ih =>
    obtain ⟨procs, hn⟩ := ih (fun x hx => h x (List.mem_cons_of_mem _ hx))
    have h1 := (getNode_isSome_iff s id).2 (h id (List.mem_cons_self _ _))
    cases h2 : getNode s id with
    | none => simp [h2] at h1
    | some n => exact ⟨n.process :: procs, by simp [processAt, h2, hn]⟩

theorem processAt_eq_some {D : Type} (s : DAGProcessor D) (id : String) (f : D → Bool × D)
    (h : processAt s id = some f) : ∃ n, getNode s id = some n ∧ n.process = f := by
  unfold processAt at h
  cases h2 : getNode s id with
  | none => simp [h2] at h
  | some n => exact ⟨n, rfl, by simpa [h2] using h⟩

/-- The node loop of `executeGraph` when every call succeeds. -/
theorem runOrder_success {D : Type} (s : DAGProcessor D) :
    ∀ (order : List String) (procs : List (D → Bool × D)) (currentData finalData : D)
      (invoked : List String),
      order.map (processAt s) = procs.map some →
      AllSucceed procs currentData →
      runOrder s order currentData finalData invoked =
        { ok := true,
          finalData := composeProcess procs currentData,
          invoked := invoked ++ order } := by
  intro order
  induction order with
  | nil =>
    intro procs currentData finalData invoked hn _
    cases procs with
    | nil => simp [runOrder, composeProcess]
    | cons n ns => simp at hn
  | cons id rest ih =>
    intro procs currentData finalData invoked hn hs
    cases procs with
    | nil => simp at hn
    | cons f fs =>
      simp only [List.map_cons, List.cons.injEq] at hn
      obtain ⟨n, hg, rfl⟩ := processAt_eq_some s id f hn.1
      simp only [AllSucceed] at hs
      simp only [runOrder, hg, hs.1, Bool.true_eq_false, if_false, composeProcess]
      rw [ih fs _ finalData _ hn.2 hs.2]
      simp

/-- The node loop of `executeGraph` when the node after `pre` is the first to fail. -/
theorem runOrder_failure {D : Type} (s : DAGProcessor D) :
    ∀ (order : List String) (pre : List (D → Bool × D)) (m : D → Bool × D)
      (post : List (D → Bool × D)) (currentData finalData : D) (invoked : List String),
      order.map (processAt s) = (pre ++ m :: post).map some →
      AllSucceed pre currentData →
      (m (composeProcess pre currentData)).1 = false →
      runOrder s order currentData finalData invoked =
        { ok := false, finalData := finalData,
          invoked := invoked ++ order.take (pre.length + 1) } := by
  intro order
  induction order with
  | nil =>
    intro pre m post currentData finalData invoked hn _ _
    simp at hn
  | cons id rest ih =>
    intro pre m post currentData finalData invoked hn hs hm
    cases pre with
    | nil =>
      simp only [List.nil_append, List.map_cons, List.cons.injEq] at hn
      obtain ⟨n, hg, rfl⟩ := processAt_eq_some s id m hn.1
      simp only [composeProcess] at hm
      simp [runOrder, hg, hm]
    | cons f fs =>
      simp only [List.cons_append, List.map_cons, List.cons.injEq] at hn
      obtain ⟨n, hg, rfl⟩ := processAt_eq_some s id f hn.1
      simp only [AllSucceed] at hs
      simp only [composeProcess] at hm
      simp only [runOrder, hg, hs.1, Bool.true_eq_false, if_false]
      rw [ih fs m post _ finalData _ hn.2 hs.2 hm]
      simp

/-- `executeGraph` on a consistent processor, in terms of its three stages. -/
theorem executeGraph_spec {D : Type} (s : DAGProcessor D) (hs : Consistent s)
    (initialData finalData : D) :
    (HasCycle s → executeGraph s initialData finalData =
      some { ok := false, finalData := finalData, invoked := [] }) ∧
    (Acyclic s → ∃ order, getExecutionOrder s = some order ∧
      order.Perm (mapKeys s.m_nodes) ∧
      executeGraph s initialData finalData =
        some (runOrder s order initialData finalData [])) := by
  obtain ⟨b, hv, hiff⟩ := validateGraph_spec s hs
  obtain ⟨S, ht, _, _, _, _, hperm, _, _⟩ := topologicalSort_spec s hs
  constructor
  · intro hc
    have hb : b = false := by
      cases b with
      | false => rfl
      | true => exact absurd hc (hiff.1 rfl)
    subst hb
    simp [executeGraph, hv]
  · intro hac
    have hb : b = true := hiff.2 hac
    subst hb
    have hp := hperm hac
    have hl : S.length = s.m_nodes.length := by
      rw [hp.length_eq]; simp [mapKeys]
    refine ⟨S, by simp [getExecutionOrder, ht], hp, ?_⟩
    simp [executeGraph, hv, ht, hl]

/-! ## Facts about the example processors -/

theorem acyclic_of_rank {D : Type} (s : DAGProcessor D) (rank : String → Nat)
    (h : ∀ u v, Edge s u v → rank u < rank v) : Acyclic s := by
  rintro ⟨x, hx⟩
  have : ∀ a b, Relation.TransGen (Edge s) a b → rank a < rank b := by
    intro a b hab
    induction hab with
    | single e => exact h _ _ e
    | tail _ e ih => exact lt_trans ih (h _ _ e)
  exact lt_irrefl _ (this x x hx)

theorem reachable_chainABC : Reachable chainABC :=
  Reachable.connect _ _ _ _ _ (Reachable.connect _ _ _ _ _
    (Reachable.add _ _ (Reachable.add _ _ (Reachable.add _ _ Reachable.init))))

theorem reachable_chainAMC : Reachable chainAMC :=
  Reachable.connect _ _ _ _ _ (Reachable.connect _ _ _ _ _
    (Reachable.add _ _ (Reachable.add _ _ (Reachable.add _ _ Reachable.init))))

theorem reachable_cycleAB : Reachable cycleAB :=
  Reachable.connect _ _ _ _ _ (Reachable.connect _ _ _ _ _
    (Reachable.add _ _ (Reachable.add _ _ (Reachable.add _ _ Reachable.init))))

theorem reachable_selfLoopA : Reachable selfLoopA :=
  Reachable.connect _ _ _ _ _ (Reachable.add _ _ Reachable.init)

theorem acyclic_chainABC : Acyclic chainABC := by
  apply acyclic_of_rank chainABC (fun x => if x = "A" then 0 else if x = "B" then 1 else 2)
  intro u v h
  have hd : chainABC.m_dependencies = [("B", ["A"]), ("C", ["B"])] := by decide
  simp only [Edge, getNodeDependencies, hd, mapFind] at h
  by_cases h1 : "B" = v
  · subst h1
    simp at h
    subst h
    decide
  · by_cases h2 : "C" = v
    · subst h2
      simp at h
      subst h
      decide
    · simp [h1, h2] at h

theorem acyclic_chainAMC : Acyclic chainAMC := by
  apply acyclic_of_rank chainAMC (fun x => if x = "A" then 0 else if x = "M" then 1 else 2)
  intro u v h
  have hd : chainAMC.m_dependencies = [("M", ["A"]), ("C", ["M"])] := by decide
  simp only [Edge, getNodeDependencies, hd, mapFind] at h
  by_cases h1 : "M" = v
  · subst h1
    simp at h
    subst h
    decide
  · by_cases h2 : "C" = v
    · subst h2
      simp at h
      subst h
      decide
    · simp [h1, h2] at h

theorem hasCycle_cycleAB : HasCycle cycleAB := by
  have e1 : Edge cycleAB "A" "B" := by unfold Edge; decide
  have e2 : Edge cycleAB "B" "A" := by unfold Edge; decide
  exact ⟨"A", Relation.TransGen.tail (Relation.TransGen.single e1) e2⟩

theorem not_onCycle_cycleAB_Z : ¬ OnCycle cycleAB "Z" := by
  intro h
  obtain ⟨y, _, e⟩ := Relation.TransGen.tail'_iff.1 h
  have h0 : getNodeDependencies cycleAB "Z" = [] := by decide
  unfold Edge at e
  rw [h0] at e
  exact List.not_mem_nil y e

theorem hasCycle_selfLoopA : HasCycle selfLoopA := by
  have e1 : Edge selfLoopA "A" "A" := by unfold Edge; decide
  exact ⟨"A", Relation.TransGen.single e1⟩

/-! ## The claims -/

/-- C1: on every processor reachable by `addNode`, `connectNodes` and `removeNode`
whose edges (duplicates included) form no directed cycle, `getExecutionOrder`
returns a list that contains every node id exactly once and nothing else, and in
which `u` comes before `v` for every edge `u → v`, whether the edge is read from
`m_dependencies` or from `m_dependents`. -/
theorem C1_execution_order {D : Type} (s : DAGProcessor D) (hr : Reachable s)
    (hac : Acyclic s) :
    ∃ order, getExecutionOrder s = some order ∧
      order.Nodup ∧
      (∀ id, id ∈ order ↔ (getNode s id).isSome = true) ∧
      (∀ id, (getNode s id).isSome = true → order.count id = 1) ∧
      (∀ u v, u ∈ getNodeDependencies s v ∨ v ∈ dependentsOf s u → Before order u v) := by
  have hs := hr.consistent
  obtain ⟨S, ht, hnd, _, _, hbefore, hperm, _, _⟩ := topologicalSort_spec s hs
  have hp := hperm hac
  have hmem : ∀ id, id ∈ S ↔ (getNode s id).isSome = true := by
    intro id
    rw [getNode_isSome_iff]
    exact hp.mem_iff
  refine ⟨S, by simp [getExecutionOrder, ht], hnd, hmem, ?_, ?_⟩
  · intro id hid
    exact List.count_eq_one_of_mem hnd ((hmem id).2 hid)
  · intro u v huv
    have e : Edge s u v := by
      rcases huv with h | h
      · exact h
      · exact (edge_iff_dependents hs u v).2 h
    exact hbefore u v e (hp.mem_iff.2 (e.right_mem hs))

/-- Witness for C1: the chain `A → B → C`. -/
theorem C1_execution_order_witness :
    Reachable chainABC ∧ Acyclic chainABC ∧
    getExecutionOrder chainABC = some ["A", "B", "C"] ∧
    ∃ order, getExecutionOrder chainABC = some order ∧
      order.Nodup ∧
      (∀ id, id ∈ order ↔ (getNode chainABC id).isSome = true) ∧
      (∀ id, (getNode chainABC id).isSome = true → order.count id = 1) ∧
      (∀ u v, u ∈ getNodeDependencies chainABC v ∨ v ∈ dependentsOf chainABC u →
        Before order u v) :=
  ⟨reachable_chainABC, acyclic_chainABC, by decide,
    C1_execution_order chainABC reachable_chainABC acyclic_chainABC⟩

/-- C2: on every reachable processor whose edges contain a directed cycle (a
self-loop and a two-node cycle included), `hasCycles` returns `true`, and it does
so for every order in which the node map may be iterated. -/
theorem C2_hasCycles_detects {D : Type} (s : DAGProcessor D) (hr : Reachable s)
    (hc : HasCycle s) :
    hasCycles s = some true ∧
    ∀ nodes : List (String × FlowNode D), nodes.Perm s.m_nodes →
      hasCycles { s with m_nodes := nodes } = some true := by
  have key : ∀ t : DAGProcessor D, Reachable t → HasCycle t → hasCycles t = some true := by
    intro t ht hct
    obtain ⟨b, hb, hiff⟩ := hasCycles_spec t ht.consistent
    rw [hb, hiff.2 hct]
  refine ⟨key s hr hc, ?_⟩
  intro nodes hp
  exact key _ (Reachable.reorder s nodes s.m_dependencies s.m_dependents hr hp
    (List.Perm.refl _) (List.Perm.refl _)) hc

/-- Witness for C2: the self-loop `A → A`, and the cycle `A → B → A` with the node
map in its stored order and in the opposite order. -/
theorem C2_hasCycles_detects_witness :
    (Reachable selfLoopA ∧ HasCycle selfLoopA ∧ hasCycles selfLoopA = some true) ∧
    (Reachable cycleAB ∧ HasCycle cycleAB ∧ hasCycles cycleAB = some true ∧
      hasCycles { cycleAB with m_nodes := cycleAB.m_nodes.reverse } = some true) :=
  ⟨⟨reachable_selfLoopA, hasCycle_selfLoopA,
      (C2_hasCycles_detects selfLoopA reachable_selfLoopA hasCycle_selfLoopA).1⟩,
    ⟨reachable_cycleAB, hasCycle_cycleAB,
      (C2_hasCycles_detects cycleAB reachable_cycleAB hasCycle_cycleAB).1,
      (C2_hasCycles_detects cycleAB reachable_cycleAB hasCycle_cycleAB).2 _
        (List.reverse_perm _)⟩⟩

/-- C3: on every reachable processor with a directed cycle and for every
`initialData`, `executeGraph` returns `false` and calls no node's `process`, the
nodes outside the cycle included. -/
theorem C3_cycle_blocks_execution {D : Type} (s : DAGProcessor D) (hr : Reachable s)
    (hc : HasCycle s) (initialData finalData : D) :
    ∃ e, executeGraph s initialData finalData = some e ∧ e.ok = false ∧ e.invoked = [] := by
  have h := (executeGraph_spec s hr.consistent initialData finalData).1 hc
  exact ⟨_, h, rfl, rfl⟩

/-- Witness for C3: the cycle `A → B → A` next to the isolated node `Z`. -/
theorem C3_cycle_blocks_execution_witness :
    Reachable cycleAB ∧ HasCycle cycleAB ∧
    (getNode cycleAB "Z").isSome = true ∧ ¬ OnCycle cycleAB "Z" ∧
    ∃ e, executeGraph cycleAB 0 100 = some e ∧ e.ok = false ∧ e.invoked = [] :=
  ⟨reachable_cycleAB, hasCycle_cycleAB, by decide, not_onCycle_cycleAB_Z,
    C3_cycle_blocks_execution cycleAB reachable_cycleAB hasCycle_cycleAB 0 100⟩

/-- C4: on every acyclic reachable processor, `executeGraph` runs the nodes in
`getExecutionOrder` order; when every `process` call succeeds it returns `true`
with `finalData` the left-to-right composition of the `process` functions applied
to `initialData` (each node receives exactly what the previous one emitted), every
node having been called once in that order; with no nodes at all it returns
`initialData` unchanged. -/
theorem C4_execution_composes {D : Type} (s : DAGProcessor D) (hr : Reachable s)
    (hac : Acyclic s) (initialData finalData : D) :
    (∃ (order : List String) (procs : List (D → Bool × D)),
      getExecutionOrder s = some order ∧ order.map (processAt s) = procs.map some) ∧
    (∀ (order : List String) (procs : List (D → Bool × D)),
      getExecutionOrder s = some order →
      order.map (processAt s) = procs.map some →
      AllSucceed procs initialData →
      executeGraph s initialData finalData =
        some { ok := true,
               finalData := composeProcess procs initialData,
               invoked := order }) ∧
    (getAllNodes s = [] →
      executeGraph s initialData finalData =
        some { ok := true, finalData := initialData, invoked := [] }) := by
  have hs := hr.consistent
  obtain ⟨S, hS, hp, hex⟩ := (executeGraph_spec s hs initialData finalData).2 hac
  obtain ⟨ps, hps⟩ := exists_procs_of_order s S (fun id hid => hp.mem_iff.1 hid)
  refine ⟨⟨S, ps, hS, hps⟩, ?_, ?_⟩
  · intro order procs ho hn hall
    rw [hS] at ho
    cases ho
    rw [hex, runOrder_success s S procs initialData finalData [] hn hall]
    simp
  · intro hempty
    have h0 : s.m_nodes = [] := by simpa [getAllNodes] using hempty
    have hS0 : S = [] := by
      apply List.Perm.eq_nil
      simpa [mapKeys, h0] using hp
    rw [hex, hS0]
    simp [runOrder]

/-- Witness for C4: the chain `A → B → C` started on `0`, each node adding one. -/
theorem C4_execution_composes_witness :
    Reachable chainABC ∧ Acyclic chainABC ∧
    executeGraph chainABC 0 100 =
      some { ok := true, finalData := 3, invoked := ["A", "B", "C"] } :=
  ⟨reachable_chainABC, acyclic_chainABC,
    (C4_execution_composes chainABC reachable_chainABC acyclic_chainABC 0 100).2.1
      ["A", "B", "C"]
      [fun d => (true, d + 1), fun d => (true, d + 1), fun d => (true, d + 1)]
      (by decide) (by rfl) ⟨rfl, rfl, rfl, trivial⟩⟩

/-- C5: on every acyclic reachable processor, when the node at position `k` of the
execution order (the one after the `k - 1` nodes whose `process` functions are
`pre`) is the first whose `process` returns `false`, `executeGraph` returns
`false`, the nodes called are exactly the first `k` of the order, each once, no
later node is called, and the caller's `finalData` is as before. -/
theorem C5_first_failure_stops {D : Type} (s : DAGProcessor D) (hr : Reachable s)
    (hac : Acyclic s) (initialData finalData : D) (order : List String)
    (pre : List (D → Bool × D)) (m : D → Bool × D) (post : List (D → Bool × D))
    (ho : getExecutionOrder s = some order)
    (hn : order.map (processAt s) = (pre ++ m :: post).map some)
    (hpre : AllSucceed pre initialData)
    (hm : (m (composeProcess pre initialData)).1 = false) :
    ∃ e, executeGraph s initialData finalData = some e ∧ e.ok = false ∧
      e.invoked = order.take (pre.length + 1) ∧ e.invoked.Nodup ∧
      (∀ id, id ∈ order.drop (pre.length + 1) → id ∉ e.invoked) ∧
      e.finalData = finalData := by
  have hs := hr.consistent
  obtain ⟨S, hS, hp, hex⟩ := (executeGraph_spec s hs initialData finalData).2 hac
  rw [ho] at hS
  cases hS
  have hnd : order.Nodup := hp.nodup_iff.2 hs.nodes_nodup
  have hsplit : (order.take (pre.length + 1) ++ order.drop (pre.length + 1)).Nodup := by
    rw [List.take_append_drop]; exact hnd
  rw [List.nodup_append] at hsplit
  refine ⟨_, hex, ?_, ?_, ?_, ?_, ?_⟩ <;>
    rw [runOrder_failure s order pre m post initialData finalData [] hn hpre hm]
  · simp
  · simpa using hsplit.1
  · intro id hid hin
    simp only [List.nil_append] at hin
    exact hsplit.2.2 hin hid

/-- Witness for C5: the chain `A → M → C` in which `M`, the second node, fails. -/
theorem C5_first_failure_stops_witness :
    Reachable chainAMC ∧ Acyclic chainAMC ∧
    ∃ e, executeGraph chainAMC 0 100 = some e ∧ e.ok = false ∧
      e.invoked = ["A", "M"] ∧ e.invoked.Nodup ∧
      (∀ id, id ∈ ["C"] → id ∉ e.invoked) ∧ e.finalData = 100 :=
  ⟨reachable_chainAMC, acyclic_chainAMC,
    C5_first_failure_stops chainAMC reachable_chainAMC acyclic_chainAMC 0 100
      ["A", "M", "C"] [fun d => (true, d + 1)] (fun d => (false, d)) [fun d => (true, d + 1)]
      (by decide) (by rfl) ⟨rfl, trivial⟩ rfl⟩

/-- C6: for every processor (reachable or not) and every node id `x` in it,
`removeNode x` succeeds and afterwards `x` is no key of `m_dependencies` or
`m_dependents` and no element of any list stored in them, so that
`getNodeDependencies y` contains no `x` for any `y`. -/
theorem C6_removeNode_purges {D : Type} (s : DAGProcessor D) (x : String)
    (hx : (getNode s x).isSome = true) :
    (removeNode s x).1 = true ∧
    x ∉ mapKeys (removeNode s x).2.m_dependencies ∧
    x ∉ mapKeys (removeNode s x).2.m_dependents ∧
    (∀ e, e ∈ (removeNode s x).2.m_dependencies → x ∉ e.2) ∧
    (∀ e, e ∈ (removeNode s x).2.m_dependents → x ∉ e.2) ∧
    (∀ y, x ∉ getNodeDependencies (removeNode s x).2 y) ∧
    (∀ y, x ∉ dependentsOf (removeNode s x).2 y) := by
  have hxN := (getNode_isSome_iff s x).1 hx
  rcases removeNode_cases s x with ⟨h, _, _⟩ | ⟨_, hok, e⟩
  · exact absurd hxN h
  · rw [e]
    refine ⟨hok, ?_, ?_, ?_, ?_, ?_, ?_⟩
    · show x ∉ mapKeys ((mapErase s.m_dependencies x).map _)
      rw [mapKeys_purge]
      simp [List.mem_filter]
    · show x ∉ mapKeys ((mapErase s.m_dependents x).map _)
      rw [mapKeys_purge]
      simp [List.mem_filter]
    · intro e he
      obtain ⟨e0, _, rfl⟩ := List.mem_map.1 he
      simp [List.mem_filter]
    · intro e he
      obtain ⟨e0, _, rfl⟩ := List.mem_map.1 he
      simp [List.mem_filter]
    · intro y
      rw [deps_after_remove]
      by_cases hy : y = x <;> simp [hy, List.mem_filter]
    · intro y
      rw [dpts_after_remove]
      by_cases hy : y = x <;> simp [hy, List.mem_filter]

/-- Witness for C6: removing `B` from the chain `A → B → C`. -/
theorem C6_removeNode_purges_witness :
    (getNode chainABC "B").isSome = true ∧
    (removeNode chainABC "B").1 = true ∧
    "B" ∉ mapKeys (removeNode chainABC "B").2.m_dependencies ∧
    "B" ∉ mapKeys (removeNode chainABC "B").2.m_dependents ∧
    (∀ e, e ∈ (removeNode chainABC "B").2.m_dependencies → "B" ∉ e.2) ∧
    (∀ e, e ∈ (removeNode chainABC "B").2.m_dependents → "B" ∉ e.2) ∧
    (∀ y, "B" ∉ getNodeDependencies (removeNode chainABC "B").2 y) ∧
    (∀ y, "B" ∉ dependentsOf (removeNode chainABC "B").2 y) :=
  ⟨by decide, C6_removeNode_purges chainABC "B" (by decide)⟩

/-- C7: in every processor reachable by `addNode`, `removeNode` and `connectNodes`
calls, successful or failing, `m_dependencies` and `m_dependents` are inverse
relations with multiplicity: `s` occurs in `dependencies[t]` as often as `t` occurs
in `dependents[s]`. -/
theorem C7_inverse_relations {D : Type} (s : DAGProcessor D) (hr : Reachable s)
    (src tgt : String) :
    (getNodeDependencies s tgt).count src = (dependentsOf s src).count tgt :=
  hr.consistent.inverse src tgt

/-- Witness for C7: the edge `A → B` of the chain `A → B → C`. -/
theorem C7_inverse_relations_witness :
    Reachable chainABC ∧
    (getNodeDependencies chainABC "B").count "A" = 1 ∧
    (dependentsOf chainABC "A").count "B" = 1 :=
  ⟨reachable_chainABC, by decide,
    (C7_inverse_relations chainABC reachable_chainABC "A" "B").symm.trans (by decide)⟩

/-- C8: on every reachable processor `validateGraph` returns, leaves the processor
as it is, and returns `true` exactly when the recorded edges contain no directed
cycle; in particular a processor without any edge is valid. -/
theorem C8_validateGraph_iff_acyclic {D : Type} (s : DAGProcessor D) (hr : Reachable s) :
    ∃ b, validateGraph s = some (b, s) ∧ (b = true ↔ Acyclic s) ∧
      ((∀ v, getNodeDependencies s v = []) → b = true) := by
  obtain ⟨b, hb, hiff⟩ := validateGraph_spec s hr.consistent
  refine ⟨b, hb, hiff, ?_⟩
  intro hno
  apply hiff.2
  apply acyclic_of_rank s (fun _ => 0)
  intro u v e
  unfold Edge at e
  rw [hno v] at e
  simp at e

/-- Witness for C8: the chain `A → B → C` is reported valid. -/
theorem C8_validateGraph_iff_acyclic_witness :
    Reachable chainABC ∧
    (validateGraph chainABC).map Prod.fst = some true ∧
    (validateGraph cycleAB).map Prod.fst = some false ∧
    ∃ b, validateGraph chainABC = some (b, chainABC) ∧ (b = true ↔ Acyclic chainABC) ∧
      ((∀ v, getNodeDependencies chainABC v = []) → b = true) :=
  ⟨reachable_chainABC, by decide, by decide,
    C8_validateGraph_iff_acyclic chainABC reachable_chainABC⟩

/-- C9: on every reachable processor `topologicalSort` returns a list without
repeated ids whose length equals the number of nodes exactly when the graph is
acyclic (and then the returned flag is `true`); when the graph has a cycle the
list is strictly shorter, contains no node on a cycle, and the flag is `false`. -/
theorem C9_topologicalSort_length {D : Type} (s : DAGProcessor D) (hr : Reachable s) :
    ∃ flag sortedNodes, topologicalSort s = some (flag, sortedNodes) ∧
      sortedNodes.Nodup ∧
      (sortedNodes.length = (getAllNodes s).length ↔ Acyclic s) ∧
      (flag = true ↔ Acyclic s) ∧
      (HasCycle s → sortedNodes.length < (getAllNodes s).length ∧
        (∀ x, OnCycle s x → x ∉ sortedNodes) ∧ flag = false) := by
  have hs := hr.consistent
  obtain ⟨S, ht, hnd, _, hcyc, _, hperm, hlen, hle⟩ := topologicalSort_spec s hs
  have hall : (getAllNodes s).length = s.m_nodes.length := by simp [getAllNodes]
  have hiff : S.length = s.m_nodes.length ↔ Acyclic s := by
    constructor
    · exact hlen
    · intro hac
      rw [(hperm hac).length_eq]
      simp [mapKeys]
  refine ⟨_, S, ht, hnd, by rw [hall]; exact hiff, by simpa using hiff, ?_⟩
  intro hc
  have hne : ¬ S.length = s.m_nodes.length := fun h => (hiff.1 h) hc
  refine ⟨by rw [hall]; omega, hcyc, by simpa using hne⟩

/-- Witness for C9: with the cycle `A → B → A` only the isolated node `Z` is output. -/
theorem C9_topologicalSort_length_witness :
    Reachable cycleAB ∧ topologicalSort cycleAB = some (false, ["Z"]) ∧
    ∃ flag sortedNodes, topologicalSort cycleAB = some (flag, sortedNodes) ∧
      sortedNodes.Nodup ∧
      (sortedNodes.length = (getAllNodes cycleAB).length ↔ Acyclic cycleAB) ∧
      (flag = true ↔ Acyclic cycleAB) ∧
      (HasCycle cycleAB → sortedNodes.length < (getAllNodes cycleAB).length ∧
        (∀ x, OnCycle cycleAB x → x ∉ sortedNodes) ∧ flag = false) :=
  ⟨reachable_cycleAB, by decide, C9_topologicalSort_length cycleAB reachable_cycleAB⟩

/-- C10: `addNode` returns `false` exactly when the node is null, its id is empty,
or the id is already present; a failing call leaves the processor as it is; after
a successful call `getNode` returns the added node under its id, every other id
resolves as before, and both dependency maps are unchanged. -/
theorem C10_addNode {D : Type} (s : DAGProcessor D) (node : Option (FlowNode D)) :
    ((addNode s node).1 = false ↔
      (node = none ∨ ∃ n, node = some n ∧ (n.m_id = "" ∨ (getNode s n.m_id).isSome = true))) ∧
    ((addNode s node).1 = false → (addNode s node).2 = s) ∧
    (∀ n, node = some n → (addNode s node).1 = true →
      getNode (addNode s node).2 n.m_id = some n ∧
      (∀ k, k ≠ n.m_id → getNode (addNode s node).2 k = getNode s k) ∧
      (addNode s node).2.m_dependencies = s.m_dependencies ∧
      (addNode s node).2.m_dependents = s.m_dependents) := by
  rcases addNode_cases s node with ⟨hf, e, hwhy⟩ | ⟨n, hn, h1, h2, hok, e⟩
  · refine ⟨⟨fun _ => ?_, fun _ => hf⟩, fun _ => e, ?_⟩
    · rcases hwhy with h | ⟨n, hn, h | h⟩
      · exact Or.inl h
      · exact Or.inr ⟨n, hn, Or.inl h⟩
      · exact Or.inr ⟨n, hn, Or.inr ((getNode_isSome_iff s _).2 h)⟩
    · intro n _ hok
      rw [hf] at hok
      cases hok
  · refine ⟨⟨fun hf => ?_, ?_⟩, fun hf => ?_, ?_⟩
    · rw [hok] at hf; cases hf
    · rintro (h | ⟨n', hn', h | h⟩)
      · rw [h] at hn; cases hn
      · rw [hn] at hn'; cases hn'; exact absurd h h1
      · rw [hn] at hn'; cases hn'; exact absurd ((getNode_isSome_iff s _).1 h) h2
    · rw [hok] at hf; cases hf
    · intro n' hn' _
      rw [hn] at hn'
      cases hn'
      rw [e]
      refine ⟨?_, ?_, rfl, rfl⟩
      · simp [getNode, mapAssign, mapFind_mapModify]
      · intro k hk
        have : ¬ n.m_id = k := fun h => hk h.symm
        simp [getNode, mapAssign, mapFind_mapModify, this]

/-- Witness for C10: on the chain `A → B → C` a second node with id `A` is rejected
and the processor stays as it is, while a node with the new id `D` is accepted and
found afterwards, the dependency maps being untouched. -/
theorem C10_addNode_witness :
    ((addNode chainABC (some (passNode "A"))).1 = false ∧
      (addNode chainABC (some (passNode "A"))).2 = chainABC) ∧
    ((addNode chainABC (some (passNode "D"))).1 = true ∧
      (getNode (addNode chainABC (some (passNode "D"))).2 "D").map (fun n => n.m_id) =
        some "D" ∧
      (addNode chainABC (some (passNode "D"))).2.m_dependencies = chainABC.m_dependencies ∧
      (addNode chainABC (some (passNode "D"))).2.m_dependents = chainABC.m_dependents) :=
  have hA : (addNode chainABC (some (passNode "A"))).1 = false :=
    (C10_addNode chainABC (some (passNode "A"))).1.2
      (Or.inr ⟨passNode "A", rfl, Or.inr (by decide)⟩)
  have hD := (C10_addNode chainABC (some (passNode "D"))).2.2 (passNode "D") rfl (by decide)
  ⟨⟨hA, (C10_addNode chainABC (some (passNode "A"))).2.1 hA⟩,
    ⟨by decide, congrArg (Option.map (fun n => n.m_id)) hD.1, hD.2.2.1, hD.2.2.2⟩⟩

/-! ## More on `connectNodes` and `removeNode` -/

/-- A successful `connectNodes`, read through the queries. -/
theorem connectNodes_ok {D : Type} (s : DAGProcessor D) (a ap b bp : String)
    (ha : (getNode s a).isSome = true) (hb : (getNode s b).isSome = true) :
    (connectNodes s a ap b bp).1 = true ∧
    mapKeys (connectNodes s a ap b bp).2.m_nodes = mapKeys s.m_nodes ∧
    (∀ k, mapFind (connectNodes s a ap b bp).2.m_dependencies k =
      if b = k then some (getNodeDependencies s b ++ [a]) else mapFind s.m_dependencies k) ∧
    (∀ k, mapFind (connectNodes s a ap b bp).2.m_dependents k =
      if a = k then some (dependentsOf s a ++ [b]) else mapFind s.m_dependents k) := by
  rcases connectNodes_cases s a ap b bp with ⟨h, _, _⟩ | ⟨na, nb, _, _, _, _, hok, e⟩
  · rcases h with h | h
    · exact absurd ((getNode_isSome_iff s a).1 ha) h
    · exact absurd ((getNode_isSome_iff s b).1 hb) h
  · rw [e]
    refine ⟨hok, ?_, ?_, ?_⟩
    · show mapKeys (mapAdjust (mapAdjust s.m_nodes b _) a _) = mapKeys s.m_nodes
      rw [mapKeys_mapAdjust, mapKeys_mapAdjust]
    · intro k
      show mapFind (mapModify s.m_dependencies b [] (fun l => l ++ [a])) k = _
      rw [mapFind_mapModify]
      unfold getNodeDependencies
      cases mapFind s.m_dependencies b <;> rfl
    · intro k
      show mapFind (mapModify s.m_dependents a [] (fun l => l ++ [b])) k = _
      rw [mapFind_mapModify]
      unfold dependentsOf
      cases mapFind s.m_dependents a <;> rfl

theorem deps_connectNodes {D : Type} (s : DAGProcessor D) (a ap b bp : String)
    (ha : (getNode s a).isSome = true) (hb : (getNode s b).isSome = true) (k : String) :
    getNodeDependencies (connectNodes s a ap b bp).2 k =
      if b = k then getNodeDependencies s k ++ [a] else getNodeDependencies s k := by
  have h := (connectNodes_ok s a ap b bp ha hb).2.2.1 k
  unfold getNodeDependencies at h ⊢
  rw [h]
  by_cases hk : b = k
  · subst hk; simp
  · simp [hk]

theorem dpts_connectNodes {D : Type} (s : DAGProcessor D) (a ap b bp : String)
    (ha : (getNode s a).isSome = true) (hb : (getNode s b).isSome = true) (k : String) :
    dependentsOf (connectNodes s a ap b bp).2 k =
      if a = k then dependentsOf s k ++ [b] else dependentsOf s k := by
  have h := (connectNodes_ok s a ap b bp ha hb).2.2.2 k
  unfold dependentsOf at h ⊢
  rw [h]
  by_cases hk : a = k
  · subst hk; simp
  · simp [hk]

theorem getNode_isSome_connectNodes {D : Type} (s : DAGProcessor D) (a ap b bp : String)
    (k : String) :
    (getNode (connectNodes s a ap b bp).2 k).isSome = (getNode s k).isSome := by
  rcases connectNodes_cases s a ap b bp with ⟨_, _, e⟩ | ⟨_, _, ha, hb, _, _, _, _⟩
  · rw [e]
  · have hk := (connectNodes_ok s a ap b bp (by simp [ha]) (by simp [hb])).2.1
    rw [Bool.eq_iff_iff, getNode_isSome_iff, getNode_isSome_iff, hk]

/-- C11: `connectNodes` returns `false` exactly when `sourceId` or `targetId` is
not the id of a node; in that case the processor is returned as it was: both
dependency maps and every node, with its port lists and connection maps, the
endpoint that does exist included. -/
theorem C11_connectNodes_failure {D : Type} (s : DAGProcessor D)
    (sourceId sourcePort targetId targetPort : String) :
    ((connectNodes s sourceId sourcePort targetId targetPort).1 = false ↔
      (getNode s sourceId = none ∨ getNode s targetId = none)) ∧
    ((connectNodes s sourceId sourcePort targetId targetPort).1 = false →
      (connectNodes s sourceId sourcePort targetId targetPort).2 = s ∧
      (connectNodes s sourceId sourcePort targetId targetPort).2.m_dependencies =
        s.m_dependencies ∧
      (connectNodes s sourceId sourcePort targetId targetPort).2.m_dependents =
        s.m_dependents ∧
      ∀ k, getNode (connectNodes s sourceId sourcePort targetId targetPort).2 k =
        getNode s k) := by
  rcases connectNodes_cases s sourceId sourcePort targetId targetPort with
    ⟨h, hf, e⟩ | ⟨na, nb, ha, hb, _, _, hok, _⟩
  · refine ⟨⟨fun _ => ?_, fun _ => hf⟩, fun _ => ?_⟩
    · rcases h with h | h
      · exact Or.inl ((mapFind_eq_none_iff _ _).2 h)
      · exact Or.inr ((mapFind_eq_none_iff _ _).2 h)
    · rw [e]
      exact ⟨rfl, rfl, rfl, fun _ => rfl⟩
  · refine ⟨⟨fun hf => ?_, ?_⟩, fun hf => ?_⟩
    · rw [hok] at hf; cases hf
    · rintro (h | h)
      · rw [ha] at h; cases h
      · rw [hb] at h; cases h
    · rw [hok] at hf; cases hf

/-- Witness for C11: on the chain `A → B → C`, connecting `A` to the missing id `X`
fails and leaves the processor, the existing endpoint `A` included, as it was. -/
theorem C11_connectNodes_failure_witness :
    getNode chainABC "X" = none ∧
    (connectNodes chainABC "A" "out" "X" "in").1 = false ∧
    (connectNodes chainABC "A" "out" "X" "in").2 = chainABC ∧
    getNode (connectNodes chainABC "A" "out" "X" "in").2 "A" = getNode chainABC "A" :=
  have hX : getNode chainABC "X" = none := by rfl
  have hf := (C11_connectNodes_failure chainABC "A" "out" "X" "in").1.2 (Or.inr hX)
  have hs := (C11_connectNodes_failure chainABC "A" "out" "X" "in").2 hf
  ⟨hX, hf, hs.1, hs.2.2.2 "A"⟩

/-- C12: when both ids resolve, `connectNodes(s, sp, t, tp)` returns `true`, appends
`s` at the end of `dependencies[t]` and `t` at the end of `dependents[s]`, leaves
the entry of every other key in both maps and the set of node ids as they were;
`getNodeDependencies(t)` afterwards is the previous list followed by `s`. -/
theorem C12_connectNodes_appends {D : Type} (s : DAGProcessor D)
    (sourceId sourcePort targetId targetPort : String)
    (hs : (getNode s sourceId).isSome = true) (ht : (getNode s targetId).isSome = true) :
    (connectNodes s sourceId sourcePort targetId targetPort).1 = true ∧
    getNodeDependencies (connectNodes s sourceId sourcePort targetId targetPort).2 targetId =
      getNodeDependencies s targetId ++ [sourceId] ∧
    dependentsOf (connectNodes s sourceId sourcePort targetId targetPort).2 sourceId =
      dependentsOf s sourceId ++ [targetId] ∧
    (∀ k, k ≠ targetId →
      mapFind (connectNodes s sourceId sourcePort targetId targetPort).2.m_dependencies k =
        mapFind s.m_dependencies k) ∧
    (∀ k, k ≠ sourceId →
      mapFind (connectNodes s sourceId sourcePort targetId targetPort).2.m_dependents k =
        mapFind s.m_dependents k) ∧
    mapKeys (connectNodes s sourceId sourcePort targetId targetPort).2.m_nodes =
      mapKeys s.m_nodes ∧
    (∀ k, (getNode (connectNodes s sourceId sourcePort targetId targetPort).2 k).isSome =
      (getNode s k).isSome) := by
  obtain ⟨hok, hkeys, hd, hp⟩ := connectNodes_ok s sourceId sourcePort targetId targetPort hs ht
  refine ⟨hok, ?_, ?_, ?_, ?_, hkeys, getNode_isSome_connectNodes s _ _ _ _⟩
  · rw [deps_connectNodes s _ _ _ _ hs ht]; simp
  · rw [dpts_connectNodes s _ _ _ _ hs ht]; simp
  · intro k hk
    rw [hd k, if_neg (fun e => hk e.symm)]
  · intro k hk
    rw [hp k, if_neg (fun e => hk e.symm)]

/-- Witness for C12: a second edge into `C` of the chain `A → B → C`, from `A`. -/
theorem C12_connectNodes_appends_witness :
    (getNode chainABC "A").isSome = true ∧ (getNode chainABC "C").isSome = true ∧
    getNodeDependencies chainABC "C" = ["B"] ∧
    (connectNodes chainABC "A" "out" "C" "in").1 = true ∧
    getNodeDependencies (connectNodes chainABC "A" "out" "C" "in").2 "C" = ["B", "A"] ∧
    dependentsOf (connectNodes chainABC "A" "out" "C" "in").2 "A" = ["B", "C"] :=
  have h := C12_connectNodes_appends chainABC "A" "out" "C" "in" (by decide) (by decide)
  ⟨by decide, by decide, by decide, h.1, h.2.1.trans (by decide), h.2.2.1.trans (by decide)⟩

/-- C19: `removeNode(id)` returns `false` exactly when `id` is not the id of a node,
and then the processor (nodes, dependencies, dependents) is as it was; on success
`id` no longer resolves, the node ids are the former ones without `id`, and every
other id resolves to the same node as before. -/
theorem C19_removeNode {D : Type} (s : DAGProcessor D) (nodeId : String) :
    ((removeNode s nodeId).1 = false ↔ getNode s nodeId = none) ∧
    ((removeNode s nodeId).1 = false → (removeNode s nodeId).2 = s) ∧
    ((removeNode s nodeId).1 = true →
      getNode (removeNode s nodeId).2 nodeId = none ∧
      mapKeys (removeNode s nodeId).2.m_nodes =
        (mapKeys s.m_nodes).filter (fun k => k != nodeId) ∧
      ∀ k, k ≠ nodeId → getNode (removeNode s nodeId).2 k = getNode s k) := by
  rcases removeNode_cases s nodeId with ⟨h, hf, e⟩ | ⟨h, hok, e⟩
  · refine ⟨⟨fun _ => (mapFind_eq_none_iff _ _).2 h, fun _ => hf⟩, fun _ => e, ?_⟩
    intro ht
    rw [hf] at ht
    cases ht
  · refine ⟨⟨fun hf => ?_, fun hn => ?_⟩, fun hf => ?_, fun _ => ?_⟩
    · rw [hok] at hf; cases hf
    · exact absurd h ((mapFind_eq_none_iff _ _).1 hn)
    · rw [hok] at hf; cases hf
    · rw [e]
      refine ⟨?_, ?_, ?_⟩
      · show mapFind (mapErase s.m_nodes nodeId) nodeId = none
        rw [mapFind_mapErase]; simp
      · show mapKeys (mapErase s.m_nodes nodeId) = _
        rw [mapKeys_mapErase]
      · intro k hk
        show mapFind (mapErase s.m_nodes nodeId) k = mapFind s.m_nodes k
        rw [mapFind_mapErase, if_neg hk]

/-- Witness for C19: removing `B` from the chain `A → B → C` succeeds, removing the
missing id `X` fails and changes nothing. -/
theorem C19_removeNode_witness :
    ((removeNode chainABC "X").1 = false ∧ (removeNode chainABC "X").2 = chainABC) ∧
    ((removeNode chainABC "B").1 = true ∧
      getNode (removeNode chainABC "B").2 "B" = none ∧
      mapKeys (removeNode chainABC "B").2.m_nodes = ["C", "A"] ∧
      getNode (removeNode chainABC "B").2 "A" = getNode chainABC "A") :=
  have hf := (C19_removeNode chainABC "X").1.2 (by rfl)
  have ht := (C19_removeNode chainABC "B").2.2 (by decide)
  ⟨⟨hf, (C19_removeNode chainABC "X").2.1 hf⟩,
    ⟨by decide, ht.1, ht.2.1.trans (by decide), ht.2.2 "A" (by decide)⟩⟩

theorem edge_connectNodes {D : Type} (s : DAGProcessor D) (a ap b bp : String)
    (ha : (getNode s a).isSome = true) (hb : (getNode s b).isSome = true) (u v : String) :
    Edge (connectNodes s a ap b bp).2 u v ↔ Edge s u v ∨ (u = a ∧ v = b) := by
  unfold Edge
  rw [deps_connectNodes s a ap b bp ha hb]
  by_cases hk : b = v
  · subst hk
    simp
  · have hk' : ¬ v = b := fun e => hk e.symm
    simp [hk, hk']

/-- C17: `connectNodes` never rejects an edge for closing a cycle: on a reachable
processor it returns `true` whenever both endpoints exist, also for a self-loop and
for an edge `source → target` added while a path from `target` to `source` exists,
and then the graph has a cycle; the cycle shows only afterwards, when
`validateGraph` and `executeGraph` return `false`. -/
theorem C17_connectNodes_allows_cycle {D : Type} (s : DAGProcessor D) (hr : Reachable s)
    (sourceId sourcePort targetId targetPort : String)
    (hs : (getNode s sourceId).isSome = true) (ht : (getNode s targetId).isSome = true)
    (initialData finalData : D) :
    (connectNodes s sourceId sourcePort targetId targetPort).1 = true ∧
    (sourceId = targetId →
      HasCycle (connectNodes s sourceId sourcePort targetId targetPort).2) ∧
    (Relation.ReflTransGen (Edge s) targetId sourceId →
      HasCycle (connectNodes s sourceId sourcePort targetId targetPort).2) ∧
    (HasCycle (connectNodes s sourceId sourcePort targetId targetPort).2 →
      validateGraph (connectNodes s sourceId sourcePort targetId targetPort).2 =
        some (false, (connectNodes s sourceId sourcePort targetId targetPort).2) ∧
      ∃ e, executeGraph (connectNodes s sourceId sourcePort targetId targetPort).2
          initialData finalData = some e ∧ e.ok = false) := by
  have hr' : Reachable (connectNodes s sourceId sourcePort targetId targetPort).2 :=
    Reachable.connect s sourceId sourcePort targetId targetPort hr
  have hedge := edge_connectNodes s sourceId sourcePort targetId targetPort hs ht
  have hpath : Relation.ReflTransGen (Edge s) targetId sourceId →
      HasCycle (connectNodes s sourceId sourcePort targetId targetPort).2 := by
    intro hp
    refine ⟨sourceId, Relation.TransGen.head'_iff.2 ⟨targetId, ?_, ?_⟩⟩
    · exact (hedge sourceId targetId).2 (Or.inr ⟨rfl, rfl⟩)
    · exact Relation.ReflTransGen.mono (fun u v e => (hedge u v).2 (Or.inl e)) hp
  refine ⟨(connectNodes_ok s _ _ _ _ hs ht).1, ?_, hpath, ?_⟩
  · intro e
    apply hpath
    rw [e]
  · intro hc
    obtain ⟨b, hv, hiff⟩ := validateGraph_spec _ hr'.consistent
    have hb : b = false := by
      cases b with
      | false => rfl
      | true => exact absurd hc (hiff.1 rfl)
    subst hb
    exact ⟨hv, _, (executeGraph_spec _ hr'.consistent initialData finalData).1 hc, rfl⟩

/-- Witness for C17: closing the chain `A → B → C` with the edge `C → A`, and the
self-loop `A → A` on a single node. -/
theorem C17_connectNodes_allows_cycle_witness :
    (Reachable chainABC ∧ (getNode chainABC "C").isSome = true ∧
      (getNode chainABC "A").isSome = true ∧
      Relation.ReflTransGen (Edge chainABC) "A" "C" ∧
      (connectNodes chainABC "C" "out" "A" "in").1 = true ∧
      (validateGraph (connectNodes chainABC "C" "out" "A" "in").2).map Prod.fst =
        some false) ∧
    ((connectNodes (addNode DAGProcessor.new (some (passNode "A"))).2 "A" "out" "A" "in").1 =
        true ∧
      HasCycle (connectNodes (addNode DAGProcessor.new (some (passNode "A"))).2
        "A" "out" "A" "in").2) :=
  have hAC : Relation.ReflTransGen (Edge chainABC) "A" "C" :=
    Relation.ReflTransGen.tail
      (Relation.ReflTransGen.single (show Edge chainABC "A" "B" by unfold Edge; decide))
      (show Edge chainABC "B" "C" by unfold Edge; decide)
  have h := C17_connectNodes_allows_cycle chainABC reachable_chainABC "C" "out" "A" "in"
    (by decide) (by decide) 0 0
  have h1 := C17_connectNodes_allows_cycle (addNode DAGProcessor.new (some (passNode "A"))).2
    (Reachable.add _ _ Reachable.init) "A" "out" "A" "in" (by decide) (by decide) 0 0
  ⟨⟨reachable_chainABC, by decide, by decide, hAC, h.1,
      congrArg (Option.map Prod.fst) (h.2.2.2 (h.2.2.1 hAC)).1⟩,
    ⟨h1.1, h1.2.1 rfl⟩⟩

theorem runOrder_finalData {D : Type} (s : DAGProcessor D) :
    ∀ (order : List String) (currentData finalData : D) (invoked : List String),
      (runOrder s order currentData finalData invoked).ok = false →
      (runOrder s order currentData finalData invoked).finalData = finalData := by
  intro order
  induction order with
  | nil =>
    intro currentData finalData invoked h
    simp [runOrder] at h
  | cons id rest ih =>
    intro currentData finalData invoked h
    cases hg : getNode s id with
    | none =>
      simp only [runOrder, hg] at h ⊢
      exact ih _ _ _ h
    | some node =>
      by_cases hp : (node.process currentData).1 = false
      · simp [runOrder, hg, hp]
      · simp only [runOrder, hg, hp, if_false] at h ⊢
        exact ih _ _ _ h

/-- C18: on every reachable processor `executeGraph` returns, and whenever it
returns `false` (failed validation, failed ordering or a failing node) the
caller's `finalData` is exactly what it was before the call. -/
theorem C18_failure_keeps_finalData {D : Type} (s : DAGProcessor D) (hr : Reachable s)
    (initialData finalData : D) :
    ∃ e, executeGraph s initialData finalData = some e ∧
      (e.ok = false → e.finalData = finalData) := by
  have hs := hr.consistent
  by_cases hc : HasCycle s
  · exact ⟨_, (executeGraph_spec s hs initialData finalData).1 hc, fun _ => rfl⟩
  · obtain ⟨order, _, _, hex⟩ := (executeGraph_spec s hs initialData finalData).2 hc
    exact ⟨_, hex, runOrder_finalData s order initialData finalData []⟩

/-- Witness for C18: the failing node `M` of the chain `A → M → C`, and the cycle
`A → B → A`; in both cases `finalData` stays `100`. -/
theorem C18_failure_keeps_finalData_witness :
    (Reachable chainAMC ∧
      (executeGraph chainAMC 0 100).map (fun e => (e.ok, e.finalData)) = some (false, 100)) ∧
    (Reachable cycleAB ∧
      (executeGraph cycleAB 0 100).map (fun e => (e.ok, e.finalData)) = some (false, 100)) ∧
    ∃ e, executeGraph chainAMC 0 100 = some e ∧ (e.ok = false → e.finalData = 100) :=
  ⟨⟨reachable_chainAMC, by decide⟩, ⟨reachable_cycleAB, by decide⟩,
    C18_failure_keeps_finalData chainAMC reachable_chainAMC 0 100⟩

/-- C20: `connectNodes` does not deduplicate: on a reachable processor, two calls
with the same arguments on existing nodes both return `true`; `sourceId` then
stands two more times at the end of `dependencies[targetId]` and `targetId` two
more times at the end of `dependents[sourceId]`, and the in-degree that
`topologicalSort` starts from for the target is larger by two. -/
theorem C20_connectNodes_no_dedup {D : Type} (s : DAGProcessor D) (hr : Reachable s)
    (sourceId sourcePort targetId targetPort : String)
    (hs : (getNode s sourceId).isSome = true) (ht : (getNode s targetId).isSome = true) :
    (connectNodes s sourceId sourcePort targetId targetPort).1 = true ∧
    (connectNodes (connectNodes s sourceId sourcePort targetId targetPort).2
      sourceId sourcePort targetId targetPort).1 = true ∧
    getNodeDependencies (connectNodes (connectNodes s sourceId sourcePort targetId targetPort).2
      sourceId sourcePort targetId targetPort).2 targetId =
        getNodeDependencies s targetId ++ [sourceId, sourceId] ∧
    dependentsOf (connectNodes (connectNodes s sourceId sourcePort targetId targetPort).2
      sourceId sourcePort targetId targetPort).2 sourceId =
        dependentsOf s sourceId ++ [targetId, targetId] ∧
    (getNodeDependencies (connectNodes (connectNodes s sourceId sourcePort targetId targetPort).2
      sourceId sourcePort targetId targetPort).2 targetId).count sourceId =
        (getNodeDependencies s targetId).count sourceId + 2 ∧
    degreeOf (initialInDegree (connectNodes
      (connectNodes s sourceId sourcePort targetId targetPort).2
      sourceId sourcePort targetId targetPort).2) targetId =
        degreeOf (initialInDegree s) targetId + 2 := by
  have hs1 : (getNode (connectNodes s sourceId sourcePort targetId targetPort).2
      sourceId).isSome = true := by
    rw [getNode_isSome_connectNodes]; exact hs
  have ht1 : (getNode (connectNodes s sourceId sourcePort targetId targetPort).2
      targetId).isSome = true := by
    rw [getNode_isSome_connectNodes]; exact ht
  have hr1 := Reachable.connect s sourceId sourcePort targetId targetPort hr
  have hr2 := Reachable.connect _ sourceId sourcePort targetId targetPort hr1
  have hd : getNodeDependencies (connectNodes
      (connectNodes s sourceId sourcePort targetId targetPort).2
      sourceId sourcePort targetId targetPort).2 targetId =
        getNodeDependencies s targetId ++ [sourceId, sourceId] := by
    rw [deps_connectNodes _ _ _ _ _ hs1 ht1, deps_connectNodes _ _ _ _ _ hs ht]
    simp
  refine ⟨(connectNodes_ok s _ _ _ _ hs ht).1, (connectNodes_ok _ _ _ _ _ hs1 ht1).1, hd,
    ?_, ?_, ?_⟩
  · rw [dpts_connectNodes _ _ _ _ _ hs1 ht1, dpts_connectNodes _ _ _ _ _ hs ht]
    simp
  · rw [hd]; simp [List.count_append]
  · rw [degreeOf_initialInDegree _ hr2.consistent, degreeOf_initialInDegree _ hr.consistent, hd]
    simp

/-- Witness for C20: the edge `A → B` made twice between two fresh nodes. -/
theorem C20_connectNodes_no_dedup_witness :
    Reachable nodesAB ∧
    (getNode nodesAB "A").isSome = true ∧ (getNode nodesAB "B").isSome = true ∧
    getNodeDependencies (connectNodes (connectNodes nodesAB "A" "out" "B" "in").2
      "A" "out" "B" "in").2 "B" = ["A", "A"] ∧
    dependentsOf (connectNodes (connectNodes nodesAB "A" "out" "B" "in").2
      "A" "out" "B" "in").2 "A" = ["B", "B"] ∧
    degreeOf (initialInDegree (connectNodes (connectNodes nodesAB "A" "out" "B" "in").2
      "A" "out" "B" "in").2) "B" = 2 :=
  have hr : Reachable nodesAB := Reachable.add _ _ (Reachable.add _ _ Reachable.init)
  have h := C20_connectNodes_no_dedup nodesAB hr "A" "out" "B" "in" (by decide) (by decide)
  ⟨hr, by decide, by decide, h.2.2.1.trans (by decide), h.2.2.2.1.trans (by decide),
    h.2.2.2.2.2.trans (by decide)⟩

theorem exists_of_map_eq_some {α β : Type} (f : α → β) (o : Option α) (b : β)
    (h : o.map f = some b) : ∃ a, o = some a ∧ f a = b := by
  cases o with
  | none => simp at h
  | some a => exact ⟨a, rfl, by simpa using h⟩

/-- C13 as stated fails: after `removeNode("B")` on the chain `A → B → C` the
remaining node `A` still holds its outbound `Connection` to `B` (and `C` its
inbound one). -/
theorem C13_counterexample :
    (removeNode chainABC "B").1 = true ∧
    ¬ (∀ k n, getNode (removeNode chainABC "B").2 k = some n → ¬ HoldsConnectionTo n "B") := by
  refine ⟨by decide, fun h => ?_⟩
  have hA : (getNode (removeNode chainABC "B").2 "A").map (fun n => n.m_outputConnections) =
      some [("out", [{ node := "B", port := "in" }])] := by decide
  obtain ⟨n, hn, hc⟩ := exists_of_map_eq_some _ _ _ hA
  apply h "A" n hn
  refine ⟨("out", [{ node := "B", port := "in" }]), ?_, { node := "B", port := "in" }, ?_, rfl⟩
  · rw [hc]; simp
  · simp

/-- C13, amended: a successful `removeNode(x)` purges `x` from the processor's
dependency maps only. Every node that remains is the same object as before, with
its port lists and its inbound and outbound `Connection` entries untouched, so a
remaining node that held an entry referring to `x` still holds it. -/
theorem C13_removeNode_keeps_connections {D : Type} (s : DAGProcessor D) (x : String)
    (hx : (getNode s x).isSome = true) :
    (removeNode s x).1 = true ∧
    (∀ k, k ≠ x → getNode (removeNode s x).2 k = getNode s k) ∧
    (∀ k n, getNode (removeNode s x).2 k = some n → getNode s k = some n) ∧
    (∀ k n, k ≠ x → getNode s k = some n → HoldsConnectionTo n x →
      ∃ n', getNode (removeNode s x).2 k = some n' ∧
        n'.m_inputConnections = n.m_inputConnections ∧
        n'.m_outputConnections = n.m_outputConnections ∧ HoldsConnectionTo n' x) := by
  have hxN := (getNode_isSome_iff s x).1 hx
  rcases removeNode_cases s x with ⟨h, _, _⟩ | ⟨_, hok, e⟩
  · exact absurd hxN h
  · have hfind : ∀ k, getNode (removeNode s x).2 k = if k = x then none else getNode s k := by
      intro k
      rw [e]
      exact mapFind_mapErase s.m_nodes x k
    refine ⟨hok, ?_, ?_, ?_⟩
    · intro k hk
      rw [hfind, if_neg hk]
    · intro k n hn
      rw [hfind] at hn
      by_cases hk : k = x
      · simp [hk] at hn
      · simpa [hk] using hn
    · intro k n hk hn hc
      refine ⟨n, ?_, rfl, rfl, hc⟩
      rw [hfind, if_neg hk]
      exact hn

/-- Witness for the amended C13: node `A` of the chain `A → B → C` before and after
`removeNode("B")`. -/
theorem C13_removeNode_keeps_connections_witness :
    (getNode chainABC "B").isSome = true ∧
    (removeNode chainABC "B").1 = true ∧
    getNode (removeNode chainABC "B").2 "A" = getNode chainABC "A" ∧
    (getNode (removeNode chainABC "B").2 "A").map (fun n => n.m_outputConnections) =
      some [("out", [{ node := "B", port := "in" }])] ∧
    (getNode (removeNode chainABC "B").2 "C").map (fun n => n.m_inputConnections) =
      some [("in", [{ node := "B", port := "out" }])] :=
  have h := C13_removeNode_keeps_connections chainABC "B" (by decide)
  ⟨by decide, h.1, h.2.1 "A" (by decide), by decide, by decide⟩

/-! ## FlowData -/

theorem mapFind_mapAssign {V : Type} (m : List (String × V)) (k k' : String) (v : V) :
    mapFind (mapAssign m k v) k' = if k = k' then some v else mapFind m k' := by
  unfold mapAssign
  rw [mapFind_mapModify]

theorem staticPointerCast_self {U : TypeUniverse} (t : U.Info) (v : U.Value t) :
    staticPointerCast t { type := t, value := v } = some v := by
  simp [staticPointerCast]

theorem getData_setData_same {U : TypeUniverse} (t : U.Info) (d : FlowData U) (key : String)
    (v : U.Value t) (t' : U.Info) :
    getData t' (setData t d key v) key =
      if t = t' then staticPointerCast t' { type := t, value := v } else some (U.init t') := by
  simp [getData, setData, mapFind_mapAssign]

theorem getData_setData_other {U : TypeUniverse} (t : U.Info) (d : FlowData U)
    (key key' : String) (v : U.Value t) (t' : U.Info) (h : key' ≠ key) :
    getData t' (setData t d key v) key' = getData t' d key' := by
  have h' : ¬ key = key' := fun e => h e.symm
  simp [getData, setData, mapFind_mapAssign, h']

/-- C15: for every `FlowData` value, key `k` and requested type `T`: when `k` is
absent, or the type recorded for `k` is not `T` (in particular after a `setData`
with another type), `getData<T>(k)` returns `T{}`; it returns without performing
the pointer cast, so no stored value is read as a `T`. -/
theorem C15_getData_default {U : TypeUniverse} (d : FlowData U) (k : String) (t : U.Info) :
    (hasData d k = false → getData t d k = some (U.init t)) ∧
    (∀ ty, mapFind d.m_types k = some ty → ty ≠ t → getData t d k = some (U.init t)) ∧
    (mapFind d.m_types k = none → getData t d k = some (U.init t)) ∧
    (∀ ty (v : U.Value ty), ty ≠ t → getData t (setData ty d k v) k = some (U.init t)) := by
  refine ⟨?_, ?_, ?_, ?_⟩
  · intro h
    unfold hasData at h
    cases hd : mapFind d.m_data k with
    | none => simp [getData, hd]
    | some p => simp [hd] at h
  · intro ty hty hne
    cases hd : mapFind d.m_data k with
    | none => simp [getData, hd]
    | some p => simp [getData, hd, hty, hne]
  · intro hty
    cases hd : mapFind d.m_data k with
    | none => simp [getData, hd]
    | some p => simp [getData, hd, hty]
  · intro ty v hne
    rw [getData_setData_same, if_neg hne]

/-- Witness for C15: a number stored under `"gain"` read as text, and the absent key
`"name"`, both give the default. -/
theorem C15_getData_default_witness :
    hasData exampleData "name" = false ∧
    getData ExampleType.text exampleData "name" = some "" ∧
    getData ExampleType.int exampleData "name" = some (0 : Int) ∧
    hasData exampleData "gain" = true ∧
    getData ExampleType.int exampleData "gain" = some (7 : Int) ∧
    getData ExampleType.text exampleData "gain" = some "" :=
  have h := @C15_getData_default exampleTypes exampleData
  ⟨by decide, (h "name" ExampleType.text).1 (by decide),
    (h "name" ExampleType.int).1 (by decide), by decide, by rfl,
    (h "gain" ExampleType.text).2.2.2 ExampleType.int (7 : Int) (fun e => by cases e)⟩

/-- C16: for every `FlowData` value `d`, key `k`, type `T` and value `v`: after
`setData<T>(k, v)`, `getData<T>(k)` returns `v`, whatever `k` held before, and for
every other key `getData` (at every type) and `hasData` return what they returned
before. -/
theorem C16_setData_getData {U : TypeUniverse} (d : FlowData U) (k : String) (t : U.Info)
    (v : U.Value t) :
    getData t (setData t d k v) k = some v ∧
    hasData (setData t d k v) k = true ∧
    (∀ k' t', k' ≠ k → getData t' (setData t d k v) k' = getData t' d k') ∧
    (∀ k', k' ≠ k → hasData (setData t d k v) k' = hasData d k') := by
  refine ⟨?_, ?_, ?_, ?_⟩
  · rw [getData_setData_same, if_pos rfl, staticPointerCast_self]
  · simp [hasData, setData, mapFind_mapAssign]
  · intro k' t' h
    exact getData_setData_other t d k k' v t' h
  · intro k' h
    have h' : ¬ k = k' := fun e => h e.symm
    simp [hasData, setData, mapFind_mapAssign, h']

/-- Witness for C16: `"gain"` holds the number `7`, then the text `"loud"`. -/
theorem C16_setData_getData_witness :
    getData ExampleType.int exampleData "gain" = some (7 : Int) ∧
    getData ExampleType.text (setData ExampleType.text exampleData "gain" "loud") "gain" =
      some "loud" ∧
    getData ExampleType.int (setData ExampleType.text exampleData "name" "x") "gain" =
      some (7 : Int) ∧
    hasData (setData ExampleType.text exampleData "name" "x") "gain" = true :=
  have h1 := @C16_setData_getData exampleTypes exampleData "gain" ExampleType.text "loud"
  have h2 := @C16_setData_getData exampleTypes exampleData "name" ExampleType.text "x"
  ⟨by rfl, h1.1, (h2.2.2.1 "gain" ExampleType.int (by decide)).trans (by rfl),
    (h2.2.2.2 "gain" (by decide)).trans (by decide)⟩

/-! ## The worker pool of ExecutionEngine -/

theorem workerThreadLocked_nil {D : Type} (e : ExecutionEngine D)
    (hstop : e.m_stopThreads = true) (hq : e.m_taskQueue = []) :
    ExecutionEngine.workerThreadLocked e = some (Worker.returned, e) := by
  simp [ExecutionEngine.workerThreadLocked, hstop, hq]

theorem workerThreadLocked_cons {D : Type} (e : ExecutionEngine D) (task : QueuedTask D)
    (rest : List (QueuedTask D)) (hq : e.m_taskQueue = task :: rest) :
    ExecutionEngine.workerThreadLocked e =
      some (Worker.running task, { e with m_taskQueue := rest }) := by
  simp [ExecutionEngine.workerThreadLocked, hq]

/-- The two ways in which the locked block of `workerThread` ends. -/
theorem workerThreadLocked_cases {D : Type} (e : ExecutionEngine D) (w : Worker D)
    (e' : ExecutionEngine D) (h : ExecutionEngine.workerThreadLocked e = some (w, e')) :
    (e.m_stopThreads = true ∧ e.m_taskQueue = [] ∧ w = Worker.returned ∧ e' = e) ∨
    (∃ task rest, e.m_taskQueue = task :: rest ∧ w = Worker.running task ∧
      e' = { e with m_taskQueue := rest }) := by
  cases hq : e.m_taskQueue with
  | nil =>
    cases hs : e.m_stopThreads with
    | false => simp [ExecutionEngine.workerThreadLocked, hq, hs] at h
    | true =>
      rw [workerThreadLocked_nil e hs hq] at h
      simp only [Option.some.injEq, Prod.mk.injEq] at h
      exact Or.inl ⟨rfl, rfl, h.1.symm, h.2.symm⟩
  | cons task rest =>
    rw [workerThreadLocked_cons e task rest hq] at h
    simp only [Option.some.injEq, Prod.mk.injEq] at h
    exact Or.inr ⟨task, rest, rfl, h.1.symm, h.2.symm⟩

/-- What one worker action does to the queue, the stop flag and the pool. -/
theorem WorkerStep.stepEffect {D : Type} {e e' : ExecutionEngine D} {l : List (QueuedTask D)}
    (h : WorkerStep e l e') :
    l ++ e'.m_taskQueue = e.m_taskQueue ∧
    e'.m_stopThreads = e.m_stopThreads ∧
    e'.m_threadPool.length = e.m_threadPool.length ∧
    (∀ i : Nat, e'.m_threadPool[i]? = some Worker.returned →
      e.m_threadPool[i]? = some Worker.returned ∨
        (e.m_stopThreads = true ∧ e.m_taskQueue = [])) := by
  cases h with
  | locked i w e1 hi hl =>
    rcases workerThreadLocked_cases e w e1 hl with ⟨hs, hq, rfl, rfl⟩ | ⟨task, rest, hq, rfl, rfl⟩
    · refine ⟨by simp [Worker.taken], rfl, by simp, ?_⟩
      intro j _
      exact Or.inr ⟨hs, hq⟩
    · refine ⟨by simp [Worker.taken, hq], rfl, by simp, ?_⟩
      intro j hj
      left
      simp only [List.getElem?_set] at hj
      by_cases hij : i = j
      · subst hij
        by_cases hlt : i < e.m_threadPool.length <;> simp [hlt] at hj
      · simpa [hij] using hj
  | taskDone i task hi =>
    refine ⟨by simp, rfl, by simp, ?_⟩
    intro j hj
    left
    simp only [List.getElem?_set] at hj
    by_cases hij : i = j
    · subst hij
      by_cases hlt : i < e.m_threadPool.length <;> simp [hlt] at hj
    · simpa [hij] using hj

/-- Along any run of worker actions with the stop flag set: the tasks started and
the tasks left are the queue of the beginning, and once a thread has returned the
queue is empty. -/
theorem WorkerRun.runEffect {D : Type} {e e' : ExecutionEngine D} {l : List (QueuedTask D)}
    (h : WorkerRun e l e') (hstop : e.m_stopThreads = true) :
    l ++ e'.m_taskQueue = e.m_taskQueue ∧
    e'.m_stopThreads = true ∧
    e'.m_threadPool.length = e.m_threadPool.length ∧
    (∀ i : Nat, e'.m_threadPool[i]? = some Worker.returned →
      e.m_threadPool[i]? = some Worker.returned ∨ e'.m_taskQueue = []) := by
  induction h with
  | done e => exact ⟨by simp, hstop, rfl, fun i hi => Or.inl hi⟩
  | step e e1 e2 l1 l2 hstep _ ih =>
    obtain ⟨s1, s2, s3, s4⟩ := hstep.stepEffect
    obtain ⟨r1, r2, r3, r4⟩ := ih (s2.trans hstop)
    refine ⟨by rw [List.append_assoc, r1, s1], r2, r3.trans s3, ?_⟩
    intro i hi
    rcases r4 i hi with h1 | h1
    · rcases s4 i h1 with h2 | h2
      · exact Or.inl h2
      · right
        have : e1.m_taskQueue = [] := by
          have := s1
          rw [h2.2] at this
          exact (List.append_eq_nil.1 this).2
        rw [this] at r1
        exact (List.append_eq_nil.1 r1).2
    · exact Or.inr h1

/-- C14 as stated fails: with the stop flag set and two tasks queued, a waiting
worker takes the first task from the queue and starts it. -/
theorem C14_counterexample :
    stoppingEngine.m_stopThreads = true ∧
    stoppingEngine.m_taskQueue.map (fun t => (t.graphId, t.inputCopy)) = [("g", 1), ("g", 2)] ∧
    ¬ (∀ l e', WorkerStep stoppingEngine l e' →
        l = [] ∧ e'.m_taskQueue = stoppingEngine.m_taskQueue) := by
  refine ⟨by decide, by decide, fun h => ?_⟩
  have hstep := WorkerStep.locked stoppingEngine 0
    (Worker.running { graphId := "g", inputCopy := 1 })
    { stoppingEngine with m_taskQueue := [{ graphId := "g", inputCopy := 2 }] }
    (by rfl) (by rfl)
  have := (h _ _ hstep).1
  simp [Worker.taken] at this

/-- C14, amended: once `shutdown` has set the stop flag, a worker leaves its loop
only when the queue is empty; while tasks are queued its locked block still takes
the task at the front and the worker starts it. So, no further task being
enqueued, when every thread of a non-empty pool has returned the tasks that sat in
the queue have all been started, in queue order, and the queue is empty. -/
theorem C14_stop_drains_queue {D : Type} (e : ExecutionEngine D)
    (hstop : e.m_stopThreads = true) :
    (e.m_taskQueue = [] →
      ExecutionEngine.workerThreadLocked e = some (Worker.returned, e)) ∧
    (∀ task rest, e.m_taskQueue = task :: rest →
      ExecutionEngine.workerThreadLocked e =
        some (Worker.running task, { e with m_taskQueue := rest })) ∧
    (∀ l e', WorkerRun e l e' →
      l ++ e'.m_taskQueue = e.m_taskQueue ∧
      (e.m_threadPool ≠ [] → (∀ w, w ∈ e.m_threadPool → w ≠ Worker.returned) →
        AllReturned e' → l = e.m_taskQueue ∧ e'.m_taskQueue = [])) := by
  refine ⟨workerThreadLocked_nil e hstop, workerThreadLocked_cons e, ?_⟩
  intro l e' hrun
  obtain ⟨r1, _, r3, r4⟩ := hrun.runEffect hstop
  refine ⟨r1, ?_⟩
  intro hne hnr hall
  have hpos : 0 < e.m_threadPool.length := List.length_pos.2 hne
  have hpos' : 0 < e'.m_threadPool.length := by omega
  have h0 : e'.m_threadPool[0]? = some Worker.returned := by
    rw [List.getElem?_eq_getElem hpos']
    exact congrArg some (hall _ (List.getElem_mem _))
  have hq : e'.m_taskQueue = [] := by
    rcases r4 0 h0 with h1 | h1
    · rw [List.getElem?_eq_getElem hpos] at h1
      have h2 := hnr _ (List.getElem_mem hpos)
      simp only [Option.some.injEq] at h1
      exact absurd h1 h2
    · exact h1
  rw [hq] at r1
  exact ⟨by simpa using r1, hq⟩

/-- A run of `stoppingEngine` in which both queued tasks are started after the stop
flag was set and then every worker returns. -/
theorem stoppingEngine_run :
    WorkerRun stoppingEngine
      [{ graphId := "g", inputCopy := 1 }, { graphId := "g", inputCopy := 2 }]
      (stoppingPool [Worker.returned, Worker.returned, Worker.returned, Worker.returned] []) :=
  have r8 : WorkerRun
      (stoppingPool [Worker.returned, Worker.returned, Worker.returned, Worker.returned] []) []
      (stoppingPool [Worker.returned, Worker.returned, Worker.returned, Worker.returned] []) :=
    WorkerRun.done _
  have r7 : WorkerRun
      (stoppingPool [Worker.returned, Worker.waiting, Worker.returned, Worker.returned] []) []
      (stoppingPool [Worker.returned, Worker.returned, Worker.returned, Worker.returned] []) :=
    WorkerRun.step _ _ _ [] []
      (WorkerStep.locked
        (stoppingPool [Worker.returned, Worker.waiting, Worker.returned, Worker.returned] [])
        1 Worker.returned
        (stoppingPool [Worker.returned, Worker.waiting, Worker.returned, Worker.returned] [])
        (by rfl) (by rfl)) r8
  have r6 : WorkerRun
      (stoppingPool [Worker.returned, Worker.running { graphId := "g", inputCopy := 2 },
        Worker.returned, Worker.returned] []) []
      (stoppingPool [Worker.returned, Worker.returned, Worker.returned, Worker.returned] []) :=
    WorkerRun.step _ _ _ [] []
      (WorkerStep.taskDone
        (stoppingPool [Worker.returned, Worker.running { graphId := "g", inputCopy := 2 },
          Worker.returned, Worker.returned] [])
        1 { graphId := "g", inputCopy := 2 } (by rfl)) r7
  have r5 : WorkerRun
      (stoppingPool [Worker.waiting, Worker.running { graphId := "g", inputCopy := 2 },
        Worker.returned, Worker.returned] []) []
      (stoppingPool [Worker.returned, Worker.returned, Worker.returned, Worker.returned] []) :=
    WorkerRun.step _ _ _ [] []
      (WorkerStep.locked
        (stoppingPool [Worker.waiting, Worker.running { graphId := "g", inputCopy := 2 },
          Worker.returned, Worker.returned] [])
        0 Worker.returned
        (stoppingPool [Worker.waiting, Worker.running { graphId := "g", inputCopy := 2 },
          Worker.returned, Worker.returned] [])
        (by rfl) (by rfl)) r6
  have r4 : WorkerRun
      (stoppingPool [Worker.running { graphId := "g", inputCopy := 1 },
        Worker.running { graphId := "g", inputCopy := 2 },
        Worker.returned, Worker.returned] []) []
      (stoppingPool [Worker.returned, Worker.returned, Worker.returned, Worker.returned] []) :=
    WorkerRun.step _ _ _ [] []
      (WorkerStep.taskDone
        (stoppingPool [Worker.running { graphId := "g", inputCopy := 1 },
          Worker.running { graphId := "g", inputCopy := 2 },
          Worker.returned, Worker.returned] [])
        0 { graphId := "g", inputCopy := 1 } (by rfl)) r5
  have r3 : WorkerRun
      (stoppingPool [Worker.running { graphId := "g", inputCopy := 1 },
        Worker.running { graphId := "g", inputCopy := 2 },
        Worker.returned, Worker.waiting] []) []
      (stoppingPool [Worker.returned, Worker.returned, Worker.returned, Worker.returned] []) :=
    WorkerRun.step _ _ _ [] []
      (WorkerStep.locked
        (stoppingPool [Worker.running { graphId := "g", inputCopy := 1 },
          Worker.running { graphId := "g", inputCopy := 2 },
          Worker.returned, Worker.waiting] [])
        3 Worker.returned
        (stoppingPool [Worker.running { graphId := "g", inputCopy := 1 },
          Worker.running { graphId := "g", inputCopy := 2 },
          Worker.returned, Worker.waiting] [])
        (by rfl) (by rfl)) r4
  have r2 : WorkerRun
      (stoppingPool [Worker.running { graphId := "g", inputCopy := 1 },
        Worker.running { graphId := "g", inputCopy := 2 },
        Worker.waiting, Worker.waiting] []) []
      (stoppingPool [Worker.returned, Worker.returned, Worker.returned, Worker.returned] []) :=
    WorkerRun.step _ _ _ [] []
      (WorkerStep.locked
        (stoppingPool [Worker.running { graphId := "g", inputCopy := 1 },
          Worker.running { graphId := "g", inputCopy := 2 },
          Worker.waiting, Worker.waiting] [])
        2 Worker.returned
        (stoppingPool [Worker.running { graphId := "g", inputCopy := 1 },
          Worker.running { graphId := "g", inputCopy := 2 },
          Worker.waiting, Worker.waiting] [])
        (by rfl) (by rfl)) r3
  have r1 : WorkerRun
      (stoppingPool [Worker.running { graphId := "g", inputCopy := 1 },
        Worker.waiting, Worker.waiting, Worker.waiting] [{ graphId := "g", inputCopy := 2 }])
      [{ graphId := "g", inputCopy := 2 }]
      (stoppingPool [Worker.returned, Worker.returned, Worker.returned, Worker.returned] []) :=
    WorkerRun.step _ _ _ [{ graphId := "g", inputCopy := 2 }] []
      (WorkerStep.locked
        (stoppingPool [Worker.running { graphId := "g", inputCopy := 1 },
          Worker.waiting, Worker.waiting, Worker.waiting] [{ graphId := "g", inputCopy := 2 }])
        1 (Worker.running { graphId := "g", inputCopy := 2 })
        (stoppingPool [Worker.running { graphId := "g", inputCopy := 1 },
          Worker.waiting, Worker.waiting, Worker.waiting] [])
        (by rfl) (by rfl)) r2
  WorkerRun.step _ _ _ [{ graphId := "g", inputCopy := 1 }] [{ graphId := "g", inputCopy := 2 }]
    (WorkerStep.locked stoppingEngine
      0 (Worker.running { graphId := "g", inputCopy := 1 })
      (stoppingPool [Worker.waiting, Worker.waiting, Worker.waiting, Worker.waiting]
        [{ graphId := "g", inputCopy := 2 }])
      (by rfl) (by rfl)) r1

/-- Witness for the amended C14: on `stoppingEngine` the locked block takes the
first queued task although the stop flag is set, and in the run above, which ends
with every worker returned, both queued tasks have been started. -/
theorem C14_stop_drains_queue_witness :
    stoppingEngine.m_stopThreads = true ∧
    ExecutionEngine.workerThreadLocked stoppingEngine =
      some (Worker.running { graphId := "g", inputCopy := 1 },
        { stoppingEngine with m_taskQueue := [{ graphId := "g", inputCopy := 2 }] }) ∧
    WorkerRun stoppingEngine
      [{ graphId := "g", inputCopy := 1 }, { graphId := "g", inputCopy := 2 }]
      (stoppingPool [Worker.returned, Worker.returned, Worker.returned, Worker.returned] []) ∧
    AllReturned
      (stoppingPool [Worker.returned, Worker.returned, Worker.returned, Worker.returned] []) ∧
    [{ graphId := "g", inputCopy := 1 }, { graphId := "g", inputCopy := 2 }] =
      stoppingEngine.m_taskQueue :=
  have hstop : stoppingEngine.m_stopThreads = true := by decide
  have hall : AllReturned
      (stoppingPool [Worker.returned, Worker.returned, Worker.returned, Worker.returned] []) := by
    intro w hw
    simpa [stoppingPool] using hw
  have h := C14_stop_drains_queue stoppingEngine hstop
  ⟨hstop, h.2.1 _ _ (by rfl), stoppingEngine_run, hall,
    ((h.2.2 _ _ stoppingEngine_run).2 (by simp [stoppingEngine, ExecutionEngine.shutdownSignal,
        ExecutionEngine.executeGraphAsync, ExecutionEngine.enqueueTask,
        ExecutionEngine.createGraph, ExecutionEngine.initialize, ExecutionEngine.getGraph,
        ExecutionEngine.new, mapFind, mapAssign, mapModify])
      (by
        intro w hw
        have hp : stoppingEngine.m_threadPool =
            [Worker.waiting, Worker.waiting, Worker.waiting, Worker.waiting] := by rfl
        rw [hp] at hw
        simp only [List.mem_cons, List.mem_singleton, List.not_mem_nil, or_false] at hw
        rcases hw with rfl | rfl | rfl | rfl <;> exact fun h => by cases h)
      hall).1⟩

/-! ## The graph registry of ExecutionEngine -/

theorem getGraph_isSome_iff {D : Type} (e : ExecutionEngine D) (graphId : String) :
    (ExecutionEngine.getGraph e graphId).isSome = true ↔ graphId ∈ mapKeys e.m_graphs :=
  mapFind_isSome_iff e.m_graphs graphId

/-- C21: `createGraph(id)` returns `false` exactly when a graph is registered under
`id`, and then the engine, the registered processor included, is as it was;
otherwise it returns `true`, `getGraph(id)` then yields a freshly constructed
processor, and every other id resolves as before. -/
theorem C21_createGraph {D : Type} (e : ExecutionEngine D) (graphId : String) :
    ((ExecutionEngine.createGraph e graphId).1 = false ↔
      (ExecutionEngine.getGraph e graphId).isSome = true) ∧
    ((ExecutionEngine.createGraph e graphId).1 = false →
      (ExecutionEngine.createGraph e graphId).2 = e ∧
      ExecutionEngine.getGraph (ExecutionEngine.createGraph e graphId).2 graphId =
        ExecutionEngine.getGraph e graphId) ∧
    ((ExecutionEngine.createGraph e graphId).1 = true →
      ExecutionEngine.getGraph (ExecutionEngine.createGraph e graphId).2 graphId =
        some DAGProcessor.new ∧
      ∀ k, k ≠ graphId →
        ExecutionEngine.getGraph (ExecutionEngine.createGraph e graphId).2 k =
          ExecutionEngine.getGraph e k) := by
  cases h : mapFind e.m_graphs graphId with
  | some g =>
    simp [ExecutionEngine.createGraph, ExecutionEngine.getGraph, h]
  | none =>
    have e1 : ExecutionEngine.createGraph e graphId =
        (true, { e with m_graphs := mapAssign e.m_graphs graphId DAGProcessor.new }) := by
      simp [ExecutionEngine.createGraph, h]
    rw [e1]
    refine ⟨by simp [ExecutionEngine.getGraph, h], by simp, fun _ => ⟨?_, ?_⟩⟩
    · show mapFind (mapAssign e.m_graphs graphId DAGProcessor.new) graphId = _
      rw [mapFind_mapAssign]; simp
    · intro k hk
      have : ¬ graphId = k := fun e => hk e.symm
      show mapFind (mapAssign e.m_graphs graphId DAGProcessor.new) k = mapFind e.m_graphs k
      rw [mapFind_mapAssign]; simp [this]

/-- Witness for C21: on `engineG` a second `createGraph("g")` fails and keeps the
chain registered; `createGraph("h")` succeeds and registers an empty processor. -/
theorem C21_createGraph_witness :
    ((ExecutionEngine.createGraph engineG "g").1 = false ∧
      (ExecutionEngine.getGraph (ExecutionEngine.createGraph engineG "g").2 "g").map
        (fun g => mapKeys g.m_nodes) = some ["C", "A", "B"]) ∧
    ((ExecutionEngine.createGraph engineG "h").1 = true ∧
      ExecutionEngine.getGraph (ExecutionEngine.createGraph engineG "h").2 "h" =
        some DAGProcessor.new ∧
      ExecutionEngine.getGraph (ExecutionEngine.createGraph engineG "h").2 "g" =
        ExecutionEngine.getGraph engineG "g") :=
  have hf : (ExecutionEngine.createGraph engineG "g").1 = false :=
    (C21_createGraph engineG "g").1.2 (by decide)
  have ht := (C21_createGraph engineG "h").2.2 (by decide)
  ⟨⟨hf, (congrArg (Option.map (fun g => mapKeys g.m_nodes))
      ((C21_createGraph engineG "g").2.1 hf).2).trans (by decide)⟩,
    ⟨by decide, ht.1, ht.2 "g" (by decide)⟩⟩

/-- C22: `getGraph(id)` is absent exactly when `id` is not registered;
`removeGraph(id)` returns `true` exactly when `id` was registered, and then
`getGraph(id)` is absent, every other id resolves as before, and `createGraph(id)`
succeeds again; a failing `removeGraph` changes nothing. -/
theorem C22_removeGraph {D : Type} (e : ExecutionEngine D) (graphId : String) :
    (ExecutionEngine.getGraph e graphId = none ↔ graphId ∉ mapKeys e.m_graphs) ∧
    ((ExecutionEngine.removeGraph e graphId).1 = true ↔ graphId ∈ mapKeys e.m_graphs) ∧
    ((ExecutionEngine.removeGraph e graphId).1 = false →
      (ExecutionEngine.removeGraph e graphId).2 = e) ∧
    ((ExecutionEngine.removeGraph e graphId).1 = true →
      ExecutionEngine.getGraph (ExecutionEngine.removeGraph e graphId).2 graphId = none ∧
      (∀ k, k ≠ graphId →
        ExecutionEngine.getGraph (ExecutionEngine.removeGraph e graphId).2 k =
          ExecutionEngine.getGraph e k) ∧
      (ExecutionEngine.createGraph (ExecutionEngine.removeGraph e graphId).2 graphId).1 =
        true) := by
  refine ⟨mapFind_eq_none_iff e.m_graphs graphId, ?_, ?_, ?_⟩
  · rw [← mapFind_isSome_iff]
    unfold ExecutionEngine.removeGraph
    cases mapFind e.m_graphs graphId <;> simp
  · unfold ExecutionEngine.removeGraph
    cases mapFind e.m_graphs graphId <;> simp
  · unfold ExecutionEngine.removeGraph ExecutionEngine.createGraph ExecutionEngine.getGraph
    cases h : mapFind e.m_graphs graphId with
    | none => simp
    | some g =>
      intro _
      refine ⟨?_, ?_, ?_⟩
      · show mapFind (mapErase e.m_graphs graphId) graphId = none
        rw [mapFind_mapErase]; simp
      · intro k hk
        show mapFind (mapErase e.m_graphs graphId) k = mapFind e.m_graphs k
        rw [mapFind_mapErase, if_neg hk]
      · have : mapFind (mapErase e.m_graphs graphId) graphId = none := by
          rw [mapFind_mapErase]; simp
        simp [this]

/-- Witness for C22: on `engineG` the id `"g"` is registered and `"h"` is not;
removing `"g"` succeeds, after which `"g"` is absent and can be created again. -/
theorem C22_removeGraph_witness :
    ExecutionEngine.getGraph engineG "h" = none ∧
    (ExecutionEngine.removeGraph engineG "h").1 = false ∧
    (ExecutionEngine.removeGraph engineG "g").1 = true ∧
    ExecutionEngine.getGraph (ExecutionEngine.removeGraph engineG "g").2 "g" = none ∧
    (ExecutionEngine.createGraph (ExecutionEngine.removeGraph engineG "g").2 "g").1 = true :=
  have h := (C22_removeGraph engineG "g").2.2.2 (by decide)
  ⟨(C22_removeGraph engineG "h").1.2 (by decide), by decide, by decide, h.1, h.2.2⟩

/-- C23: the engine's `executeGraph(id, input, output)` returns `false` and leaves
`output` as it is when `id` is not registered; when `id` is registered, its flag
and output are those of the registered processor's `executeGraph(input, output)`;
neither depends on whether the engine has been initialised. -/
theorem C23_engine_executeGraph {D : Type} (e : ExecutionEngine D) (graphId : String)
    (input output : D) :
    (ExecutionEngine.getGraph e graphId = none →
      ExecutionEngine.executeGraph e graphId input output =
        some { ok := false, finalData := output, invoked := [] }) ∧
    (∀ graph, ExecutionEngine.getGraph e graphId = some graph →
      ExecutionEngine.executeGraph e graphId input output =
        Flow.executeGraph graph input output) ∧
    ExecutionEngine.executeGraph ( ExecutionEngine.initialize e).2 graphId input output =
      ExecutionEngine.executeGraph e graphId input output ∧
    (∀ running, ExecutionEngine.executeGraph { e with m_running := running }
        graphId input output =
      ExecutionEngine.executeGraph e graphId input output) := by
  refine ⟨?_, ?_, ?_, ?_⟩
  · intro h
    simp [ExecutionEngine.executeGraph, h]
  · intro graph h
    simp [ExecutionEngine.executeGraph, h]
  · unfold ExecutionEngine.initialize
    by_cases h : e.m_running = true
    · simp [h]
    · simp only [h, if_false]
      rfl
  · intro running
    rfl

/-- Witness for C23: on `engineG`, which was never initialised, `"g"` runs the chain
`A → B → C` and the unknown id `"h"` fails without touching the output. -/
theorem C23_engine_executeGraph_witness :
    engineG.m_running = false ∧
    ExecutionEngine.executeGraph engineG "h" 0 100 =
      some { ok := false, finalData := 100, invoked := [] } ∧
    ExecutionEngine.executeGraph engineG "g" 0 100 = Flow.executeGraph chainABC 0 100 ∧
    (ExecutionEngine.executeGraph engineG "g" 0 100).map (fun r => (r.ok, r.finalData)) =
      some (true, 3) :=
  ⟨by decide, (C23_engine_executeGraph engineG "h" 0 100).1 (by rfl),
    (C23_engine_executeGraph engineG "g" 0 100).2.1 chainABC (by rfl), by decide⟩

/-- C24: `executeGraphAsync(id, input)` returns `false` and leaves the engine, its
task queue included, as it is when `id` is not registered; when `id` is
registered it returns `true` and the task queue is the former one followed by one
task, which holds `id` and the copy of `input`; nothing else changes. -/
theorem C24_executeGraphAsync {D : Type} (e : ExecutionEngine D) (graphId : String)
    (input : D) :
    (ExecutionEngine.getGraph e graphId = none →
      (ExecutionEngine.executeGraphAsync e graphId input).1 = false ∧
      (ExecutionEngine.executeGraphAsync e graphId input).2 = e ∧
      (ExecutionEngine.executeGraphAsync e graphId input).2.m_taskQueue = e.m_taskQueue) ∧
    ((ExecutionEngine.getGraph e graphId).isSome = true →
      (ExecutionEngine.executeGraphAsync e graphId input).1 = true ∧
      (ExecutionEngine.executeGraphAsync e graphId input).2.m_taskQueue =
        e.m_taskQueue ++ [{ graphId := graphId, inputCopy := input }] ∧
      (ExecutionEngine.executeGraphAsync e graphId input).2.m_taskQueue.length =
        e.m_taskQueue.length + 1 ∧
      (ExecutionEngine.executeGraphAsync e graphId input).2 =
        { e with m_taskQueue := e.m_taskQueue ++ [{ graphId := graphId, inputCopy := input }] })
    := by
  constructor
  · intro h
    simp [ExecutionEngine.executeGraphAsync, h]
  · intro h
    cases hg : ExecutionEngine.getGraph e graphId with
    | none => simp [hg] at h
    | some g => simp [ExecutionEngine.executeGraphAsync, hg, ExecutionEngine.enqueueTask]

/-- Witness for C24: two submissions for `"g"` on `engineG` queue two tasks in
order; a submission for the unknown `"h"` queues nothing. -/
theorem C24_executeGraphAsync_witness :
    ExecutionEngine.getGraph engineG "h" = none ∧
    (ExecutionEngine.executeGraphAsync engineG "h" 5).1 = false ∧
    (ExecutionEngine.executeGraphAsync engineG "h" 5).2.m_taskQueue = engineG.m_taskQueue ∧
    (ExecutionEngine.getGraph engineG "g").isSome = true ∧
    (ExecutionEngine.executeGraphAsync engineG "g" 1).1 = true ∧
    ((ExecutionEngine.executeGraphAsync
        (ExecutionEngine.executeGraphAsync engineG "g" 1).2 "g" 2).2.m_taskQueue.map
      (fun t => (t.graphId, t.inputCopy))) = [("g", 1), ("g", 2)] :=
  have hn : ExecutionEngine.getGraph engineG "h" = none := by rfl
  have hf := (C24_executeGraphAsync engineG "h" 5).1 hn
  have ht := (C24_executeGraphAsync engineG "g" 1).2 (by decide)
  ⟨hn, hf.1, hf.2.2, by decide, ht.1, by decide⟩

/-- C27: `setThreadPoolSize(n)` records `n` when `n > 0`, so that
`getThreadPoolSize()` returns `n` afterwards, and keeps the previous size
otherwise; it never changes the thread pool or any other member, running or not;
a freshly constructed engine has size `4`. -/
theorem C27_setThreadPoolSize {D : Type} (e : ExecutionEngine D) (n : Int) :
    (0 < n → ExecutionEngine.getThreadPoolSize (ExecutionEngine.setThreadPoolSize e n) = n) ∧
    (n ≤ 0 → ExecutionEngine.getThreadPoolSize (ExecutionEngine.setThreadPoolSize e n) =
      ExecutionEngine.getThreadPoolSize e) ∧
    (ExecutionEngine.setThreadPoolSize e n).m_threadPool = e.m_threadPool ∧
    ExecutionEngine.setThreadPoolSize e n =
      { e with m_threadPoolSize :=
          ExecutionEngine.getThreadPoolSize (ExecutionEngine.setThreadPoolSize e n) } ∧
    ExecutionEngine.getThreadPoolSize (ExecutionEngine.new : ExecutionEngine D) = 4 := by
  by_cases h : 0 < n ∧ n ≠ e.m_threadPoolSize
  · have e1 : ExecutionEngine.setThreadPoolSize e n = { e with m_threadPoolSize := n } := by
      simp [ExecutionEngine.setThreadPoolSize, h]
    rw [e1]
    refine ⟨fun _ => rfl, fun hn => ?_, rfl, rfl, rfl⟩
    omega
  · have e1 : ExecutionEngine.setThreadPoolSize e n = e := by
      unfold ExecutionEngine.setThreadPoolSize
      rw [if_neg h]
    rw [e1]
    refine ⟨fun hn => ?_, fun _ => rfl, rfl, rfl, rfl⟩
    show e.m_threadPoolSize = n
    by_contra hne
    exact h ⟨hn, fun e' => hne e'.symm⟩

/-- Witness for C27: on a running engine with four workers, size `2` is recorded,
size `0` and size `-3` are not, and the pool keeps its four threads. -/
theorem C27_setThreadPoolSize_witness :
    ( ExecutionEngine.initialize (ExecutionEngine.new : ExecutionEngine Nat)).2.m_running = true ∧
    ExecutionEngine.getThreadPoolSize (ExecutionEngine.setThreadPoolSize
      ( ExecutionEngine.initialize (ExecutionEngine.new : ExecutionEngine Nat)).2 2) = 2 ∧
    ExecutionEngine.getThreadPoolSize (ExecutionEngine.setThreadPoolSize
      ( ExecutionEngine.initialize (ExecutionEngine.new : ExecutionEngine Nat)).2 0) = 4 ∧
    ExecutionEngine.getThreadPoolSize (ExecutionEngine.setThreadPoolSize
      ( ExecutionEngine.initialize (ExecutionEngine.new : ExecutionEngine Nat)).2 (-3)) = 4 ∧
    (ExecutionEngine.setThreadPoolSize
      ( ExecutionEngine.initialize (ExecutionEngine.new : ExecutionEngine Nat)).2 2
        ).m_threadPool.length = 4 :=
  have h := @C27_setThreadPoolSize Nat
    ( ExecutionEngine.initialize (ExecutionEngine.new : ExecutionEngine Nat)).2
  ⟨by decide, (h 2).1 (by decide), ((h 0).2.1 (by decide)).trans (by decide),
    ((h (-3)).2.1 (by decide)).trans (by decide),
    (congrArg List.length (h 2).2.2.1).trans (by decide)⟩

/-- C28: on every reachable processor `validateGraph` leaves the processor (nodes,
dependencies, dependents) exactly as it was, and a second call right after the
first returns the same boolean. -/
theorem C28_validateGraph_idempotent {D : Type} (s : DAGProcessor D) (hr : Reachable s) :
    ∃ b, validateGraph s = some (b, s) ∧
      (∀ r, validateGraph s = some r →
        r.2.m_nodes = s.m_nodes ∧ r.2.m_dependencies = s.m_dependencies ∧
        r.2.m_dependents = s.m_dependents ∧
        ∃ r', validateGraph r.2 = some r' ∧ r'.1 = r.1 ∧ r'.2 = r.2) := by
  obtain ⟨b, hb, _⟩ := validateGraph_spec s hr.consistent
  refine ⟨b, hb, ?_⟩
  intro r hr'
  rw [hb] at hr'
  cases hr'
  exact ⟨rfl, rfl, rfl, (b, s), hb, rfl, rfl⟩

/-- Witness for C28: the cycle `A → B → A` is reported invalid twice in a row. -/
theorem C28_validateGraph_idempotent_witness :
    Reachable cycleAB ∧
    (validateGraph cycleAB).map Prod.fst = some false ∧
    ((validateGraph cycleAB).bind (fun r => validateGraph r.2)).map Prod.fst = some false ∧
    ∃ b, validateGraph cycleAB = some (b, cycleAB) ∧
      (∀ r, validateGraph cycleAB = some r →
        r.2.m_nodes = cycleAB.m_nodes ∧ r.2.m_dependencies = cycleAB.m_dependencies ∧
        r.2.m_dependents = cycleAB.m_dependents ∧
        ∃ r', validateGraph r.2 = some r' ∧ r'.1 = r.1 ∧ r'.2 = r.2) :=
  ⟨reachable_cycleAB, by decide, by decide,
    C28_validateGraph_idempotent cycleAB reachable_cycleAB⟩

/-! ## Cycles as lists, and removing a node -/

theorem isCycle_of_onCycle {D : Type} (s : DAGProcessor D) (x : String) (h : OnCycle s x) :
    ∃ l, IsCycle s (x :: l) := by
  obtain ⟨z, hz, e⟩ := Relation.TransGen.tail'_iff.1 h
  obtain ⟨l, hl, hlast⟩ := List.exists_chain_of_relationReflTransGen hz
  exact ⟨l, x, l, rfl, hl, by rw [hlast]; exact e⟩

theorem hasCycle_of_isCycle {D : Type} (s : DAGProcessor D) (c : List String)
    (h : IsCycle s c) : HasCycle s := by
  obtain ⟨a, l, _, hl, e⟩ := h
  exact ⟨a, Relation.TransGen.tail'_iff.2
    ⟨_, List.relationReflTransGen_of_exists_chain l hl rfl, e⟩⟩

theorem edge_removeNode {D : Type} (s : DAGProcessor D) (x : String)
    (hx : (getNode s x).isSome = true) (u v : String) :
    Edge (removeNode s x).2 u v ↔ Edge s u v ∧ u ≠ x ∧ v ≠ x := by
  rcases removeNode_cases s x with ⟨h, _, _⟩ | ⟨_, _, e⟩
  · exact absurd ((getNode_isSome_iff s x).1 hx) h
  · rw [e]
    unfold Edge
    rw [deps_after_remove]
    by_cases hv : v = x
    · simp [hv]
    · simp only [hv, if_false, List.mem_filter, bne_iff_ne, ne_eq, not_false_eq_true, and_true]

theorem getNode_isSome_removeNode {D : Type} (s : DAGProcessor D) (x : String)
    (hx : (getNode s x).isSome = true) (id : String) :
    (getNode (removeNode s x).2 id).isSome = true ↔
      ((getNode s id).isSome = true ∧ id ≠ x) := by
  rcases removeNode_cases s x with ⟨h, _, _⟩ | ⟨_, _, e⟩
  · exact absurd ((getNode_isSome_iff s x).1 hx) h
  · rw [getNode_isSome_iff, getNode_isSome_iff, e]
    show id ∈ mapKeys (mapErase s.m_nodes x) ↔ _
    rw [mapKeys_mapErase]
    simp [List.mem_filter]

/-- When every cycle passes through `x`, nothing cyclic is left once `x` is removed. -/
theorem acyclic_removeNode {D : Type} (s : DAGProcessor D) (x : String)
    (hx : (getNode s x).isSome = true) (hcyc : ∀ c, IsCycle s c → x ∈ c) :
    Acyclic (removeNode s x).2 := by
  rintro ⟨y, hy⟩
  obtain ⟨l, a, l', hc, hl, e⟩ := isCycle_of_onCycle _ y hy
  cases hc
  have hedge := edge_removeNode s x hx
  have hy' : y ≠ x := ((hedge _ _).1 e).2.2
  have hl' : ∀ i, i ∈ l → i ≠ x :=
    List.Chain.induction (fun i => i ≠ x) l hl (fun u v huv _ => ((hedge u v).1 huv).2.2) hy'
  have hmem := hcyc (y :: l) ⟨y, l, rfl, hl.imp (fun u v huv => ((hedge u v).1 huv).1),
    ((hedge _ _).1 e).1⟩
  rcases List.mem_cons.1 hmem with h | h
  · exact hy' h.symm
  · exact hl' x h rfl

/-- C30: on a reachable processor in which every directed cycle passes through the
node `x`, `removeNode(x)` succeeds, `validateGraph` then returns `true`, and
`getExecutionOrder` returns a full topological order of the remaining nodes: every
node other than `x` exactly once, each edge between remaining nodes respected. -/
theorem C30_removeNode_recovers {D : Type} (s : DAGProcessor D) (hr : Reachable s)
    (x : String) (hx : (getNode s x).isSome = true) (hcyc : ∀ c, IsCycle s c → x ∈ c) :
    (removeNode s x).1 = true ∧
    validateGraph (removeNode s x).2 = some (true, (removeNode s x).2) ∧
    ∃ order, getExecutionOrder (removeNode s x).2 = some order ∧
      order.Nodup ∧
      (∀ id, id ∈ order ↔ ((getNode s id).isSome = true ∧ id ≠ x)) ∧
      (∀ u v, Edge s u v → u ≠ x → v ≠ x → Before order u v) := by
  have hr' : Reachable (removeNode s x).2 := Reachable.remove s x hr
  have hs' := hr'.consistent
  have hac := acyclic_removeNode s x hx hcyc
  have hok : (removeNode s x).1 = true := by
    rcases removeNode_cases s x with ⟨h, _, _⟩ | ⟨_, hok, _⟩
    · exact absurd ((getNode_isSome_iff s x).1 hx) h
    · exact hok
  obtain ⟨b, hv, hiff⟩ := validateGraph_spec _ hs'
  have hb : b = true := hiff.2 hac
  subst hb
  obtain ⟨S, ht, hnd, _, _, hbefore, hperm, _, _⟩ := topologicalSort_spec _ hs'
  have hp := hperm hac
  have hmem : ∀ id, id ∈ S ↔ (getNode (removeNode s x).2 id).isSome = true := by
    intro id
    rw [getNode_isSome_iff]
    exact hp.mem_iff
  refine ⟨hok, hv, S, by simp [getExecutionOrder, ht], hnd, ?_, ?_⟩
  · intro id
    rw [hmem, getNode_isSome_removeNode s x hx]
  · intro u v e hu hv'
    have e' : Edge (removeNode s x).2 u v := (edge_removeNode s x hx u v).2 ⟨e, hu, hv'⟩
    exact hbefore u v e' (hp.mem_iff.2 (e'.right_mem hs'))

theorem edge_cycleAB (u v : String) (h : Edge cycleAB u v) :
    (u = "A" ∧ v = "B") ∨ (u = "B" ∧ v = "A") := by
  have hd : cycleAB.m_dependencies = [("B", ["A"]), ("A", ["B"])] := by decide
  simp only [Edge, getNodeDependencies, hd, mapFind] at h
  by_cases h1 : "B" = v
  · subst h1
    simp at h
    exact Or.inl ⟨h, rfl⟩
  · by_cases h2 : "A" = v
    · subst h2
      simp at h
      exact Or.inr ⟨h, rfl⟩
    · simp [h1, h2] at h

theorem cycles_cycleAB (c : List String) (h : IsCycle cycleAB c) : "A" ∈ c := by
  obtain ⟨a, l, rfl, _, e⟩ := h
  rcases edge_cycleAB _ _ e with ⟨h1, _⟩ | ⟨_, h2⟩
  · rw [← h1]
    exact List.getLast_mem _
  · rw [h2]
    exact List.mem_cons_self _ _

/-- Witness for C30: in the graph `A → B → A` with the isolated node `Z` every cycle
passes through `A`; with `A` removed the graph is valid and the order is `Z`, `B`. -/
theorem C30_removeNode_recovers_witness :
    Reachable cycleAB ∧ (getNode cycleAB "A").isSome = true ∧
    (∀ c, IsCycle cycleAB c → "A" ∈ c) ∧
    (validateGraph cycleAB).map Prod.fst = some false ∧
    (validateGraph (removeNode cycleAB "A").2).map Prod.fst = some true ∧
    getExecutionOrder (removeNode cycleAB "A").2 = some ["Z", "B"] :=
  have h := C30_removeNode_recovers cycleAB reachable_cycleAB "A" (by decide) cycles_cycleAB
  ⟨reachable_cycleAB, by decide, cycles_cycleAB, by decide,
    congrArg (Option.map Prod.fst) h.2.1, by decide⟩

/-! ## Linear chains -/

theorem strictMono_eq_id (f : Nat → Nat) (k : Nat)
    (hstep : ∀ i, i + 1 < k → f i < f (i + 1)) (hlt : ∀ i, i < k → f i < k) :
    ∀ i, i < k → f i = i := by
  have lower : ∀ i, i < k → i ≤ f i := by
    intro i
    induction i with
    | zero => intro _; exact Nat.zero_le _
    | succ i ih =>
      intro hi
      have := ih (by omega)
      have := hstep i hi
      omega
  have upper : ∀ d i, i + d < k → f i + d ≤ f (i + d) := by
    intro d
    induction d with
    | zero => intro i _; exact Nat.le_refl _
    | succ d ih =>
      intro i hi
      have h1 := ih i (by omega)
      have h2 := hstep (i + d) (by omega)
      have h3 : i + (d + 1) = i + d + 1 := by omega
      rw [h3]
      omega
  intro i hi
  have h1 := lower i hi
  have h2 := upper (k - 1 - i) i (by omega)
  have h3 := hlt (i + (k - 1 - i)) (by omega)
  omega

theorem indexOf_of_getElem? (l : List String) (hl : l.Nodup) (i : Nat) (u : String)
    (h : l[i]? = some u) : l.indexOf u = i := by
  obtain ⟨hi, rfl⟩ := List.getElem?_eq_some.1 h
  exact List.indexOf_getElem hl i hi

theorem indexOf_lt_of_before (l : List String) (hl : l.Nodup) (u v : String)
    (h : Before l u v) : l.indexOf u < l.indexOf v := by
  obtain ⟨i, j, hij, hi, hj⟩ := h
  rw [indexOf_of_getElem? l hl i u hi, indexOf_of_getElem? l hl j v hj]
  exact hij

/-- A duplicate-free arrangement of the ids `ns` in which each id of `ns` comes
before its successor in `ns` is `ns` itself. -/
theorem eq_of_consecutive_before (order ns : List String) (hperm : order.Perm ns)
    (hcons : ∀ (i : Nat) (u v : String), ns[i]? = some u → ns[i + 1]? = some v →
      order.indexOf u < order.indexOf v) : order = ns := by
  have hlen : order.length = ns.length := hperm.length_eq
  have hval : ∀ i, i < ns.length → ns[i]? = some ((ns[i]?).getD "") := by
    intro i hi
    rw [List.getElem?_eq_getElem hi]
    rfl
  have hid := strictMono_eq_id (fun i => order.indexOf ((ns[i]?).getD "")) ns.length
    (fun i hi => hcons i _ _ (hval i (by omega)) (hval (i + 1) hi))
    (fun i hi => by
      rw [← hlen]
      apply List.indexOf_lt_length.2
      apply hperm.mem_iff.2
      exact List.getElem?_mem (hval i hi))
  apply List.ext_getElem?
  intro n
  by_cases hn : n < ns.length
  · have h1 := hid n hn
    simp only at h1
    have h2 : ((ns[n]?).getD "") ∈ order := hperm.mem_iff.2 (List.getElem?_mem (hval n hn))
    have h3 := List.getElem?_indexOf h2
    rw [h1] at h3
    rw [h3, ← hval n hn]
  · rw [List.getElem?_eq_none (by omega), List.getElem?_eq_none (by omega)]

theorem mem_zip_tail_iff (ns : List String) (u v : String) :
    (u, v) ∈ ns.zip ns.tail ↔ ∃ i : Nat, ns[i]? = some u ∧ ns[i + 1]? = some v := by
  induction ns with
  | nil => simp
  | cons a l ih =>
    cases l with
    | nil => simp
    | cons b l' =>
      simp only [List.tail_cons] at ih ⊢
      rw [List.zip_cons_cons, List.mem_cons, ih]
      constructor
      · rintro (h | ⟨i, h1, h2⟩)
        · cases h
          exact ⟨0, by simp, by simp⟩
        · exact ⟨i + 1, by simpa using h1, by simpa using h2⟩
      · rintro ⟨i, h1, h2⟩
        cases i with
        | zero =>
          left
          simp at h1 h2
          rw [h1, h2]
        | succ i =>
          right
          exact ⟨i, by simpa using h1, by simpa using h2⟩

/-- On a reachable processor that is the linear chain `ns`, `getExecutionOrder`
returns `ns`. -/
theorem chain_order {D : Type} (s : DAGProcessor D) (hr : Reachable s) (ns : List String)
    (hnd : ns.Nodup) (hnodes : ∀ id, (getNode s id).isSome = true ↔ id ∈ ns)
    (hedges : ∀ u v, Edge s u v ↔ (u, v) ∈ ns.zip ns.tail) :
    Acyclic s ∧ getExecutionOrder s = some ns := by
  have hs := hr.consistent
  have hac : Acyclic s := by
    apply acyclic_of_rank s (fun u => ns.indexOf u)
    intro u v e
    obtain ⟨i, h1, h2⟩ := (mem_zip_tail_iff ns u v).1 ((hedges u v).1 e)
    show ns.indexOf u < ns.indexOf v
    rw [indexOf_of_getElem? ns hnd i u h1, indexOf_of_getElem? ns hnd (i + 1) v h2]
    exact Nat.lt_succ_self i
  obtain ⟨S, ht, hSnd, _, _, hbefore, hperm, _, _⟩ := topologicalSort_spec s hs
  have hp := hperm hac
  have hSns : S.Perm ns := by
    rw [List.perm_ext_iff_of_nodup hSnd hnd]
    intro a
    rw [hp.mem_iff, ← getNode_isSome_iff, hnodes]
  have hS : S = ns := by
    apply eq_of_consecutive_before S ns hSns
    intro i u v h1 h2
    have e : Edge s u v := (hedges u v).2 ((mem_zip_tail_iff ns u v).2 ⟨i, h1, h2⟩)
    exact indexOf_lt_of_before S hSnd u v
      (hbefore u v e (hp.mem_iff.2 (e.right_mem hs)))
  exact ⟨hac, by simp [getExecutionOrder, ht, hS]⟩

theorem passThrough_chain {D : Type} (procs : List (D → Bool × D))
    (h : ∀ f, f ∈ procs → ∀ d, f d = (true, d)) (d : D) :
    AllSucceed procs d ∧ composeProcess procs d = d := by
  induction procs with
  | nil => exact ⟨trivial, rfl⟩
  | cons f fs ih =>
    have hf := h f (List.mem_cons_self _ _)
    have ih' := ih (fun g hg => h g (List.mem_cons_of_mem _ hg))
    simp only [AllSucceed, composeProcess, hf]
    exact ⟨⟨trivial, ih'.1⟩, ih'.2⟩

theorem procs_of_nodes {D : Type} (s : DAGProcessor D) :
    ∀ (order : List String) (procs : List (D → Bool × D)),
      order.map (processAt s) = procs.map some →
      ∀ f, f ∈ procs → ∃ n, n ∈ getAllNodes s ∧ n.process = f := by
  intro order
  induction order with
  | nil =>
    intro procs h f hf
    cases procs with
    | nil => simp at hf
    | cons g gs => simp at h
  | cons id rest ih =>
    intro procs h f hf
    cases procs with
    | nil => simp at hf
    | cons g gs =>
      simp only [List.map_cons, List.cons.injEq] at h
      rcases List.mem_cons.1 hf with rfl | hf
      · obtain ⟨n, hn, hp⟩ := processAt_eq_some s id f h.1
        exact ⟨n, List.mem_map.2 ⟨(id, n), mapFind_mem _ _ _ hn, rfl⟩, hp⟩
      · exact ih gs h.2 f hf

/-- C29: on a reachable processor that is a linear chain of distinct nodes (its
nodes are the ids `ns`, its edges exactly the pairs of neighbours in `ns`),
`getExecutionOrder` returns `ns`, whatever the iteration order of the node map;
and when every `process` passes its input through, `executeGraph` returns `true`
with `finalData` equal to `initialData`, the nodes having run in the order `ns`. -/
theorem C29_linear_chain {D : Type} (s : DAGProcessor D) (hr : Reachable s)
    (ns : List String) (hnd : ns.Nodup)
    (hnodes : ∀ id, (getNode s id).isSome = true ↔ id ∈ ns)
    (hedges : ∀ u v, Edge s u v ↔ (u, v) ∈ ns.zip ns.tail) :
    getExecutionOrder s = some ns ∧
    (∀ nodes : List (String × FlowNode D), nodes.Perm s.m_nodes →
      getExecutionOrder { s with m_nodes := nodes } = some ns) ∧
    (∀ initialData finalData : D,
      (∀ n, n ∈ getAllNodes s → ∀ d, n.process d = (true, d)) →
      executeGraph s initialData finalData =
        some { ok := true, finalData := initialData, invoked := ns }) := by
  obtain ⟨hac, hord⟩ := chain_order s hr ns hnd hnodes hedges
  refine ⟨hord, ?_, ?_⟩
  · intro nodes hp
    refine (chain_order _ (Reachable.reorder s nodes s.m_dependencies s.m_dependents hr hp
      (List.Perm.refl _) (List.Perm.refl _)) ns hnd ?_ hedges).2
    intro id
    rw [← hnodes id]
    show (mapFind nodes id).isSome = true ↔ (mapFind s.m_nodes id).isSome = true
    rw [mapFind_perm s.m_nodes nodes id hr.consistent.nodes_nodup hp]
  · intro initialData finalData hpass
    obtain ⟨S, hS, hp, hex⟩ := (executeGraph_spec s hr.consistent initialData finalData).2 hac
    rw [hord] at hS
    cases hS
    obtain ⟨procs, hprocs⟩ := exists_procs_of_order s ns (fun id hid => hp.mem_iff.1 hid)
    have hall := passThrough_chain procs (fun f hf => by
      obtain ⟨n, hn, rfl⟩ := procs_of_nodes s ns procs hprocs f hf
      exact hpass n hn) initialData
    rw [hex, runOrder_success s ns procs initialData finalData [] hprocs hall.1, hall.2]
    simp

theorem edge_chainPass (u v : String) :
    Edge chainPass u v ↔ (u, v) ∈ [("A", "B"), ("B", "C")] := by
  have hd : chainPass.m_dependencies = [("B", ["A"]), ("C", ["B"])] := by decide
  simp only [Edge, getNodeDependencies, hd, mapFind]
  by_cases h1 : "B" = v
  · subst h1
    simp
  · by_cases h2 : "C" = v
    · subst h2
      simp
    · have h1' : ¬ v = "B" := fun e => h1 e.symm
      have h2' : ¬ v = "C" := fun e => h2 e.symm
      simp [h1, h2, h1', h2']

/-- Witness for C29: the chain `A → B → C` of pass-through nodes, added in the
order `C`, `A`, `B`. -/
theorem C29_linear_chain_witness :
    mapKeys chainPass.m_nodes = ["C", "A", "B"] ∧
    getExecutionOrder chainPass = some ["A", "B", "C"] ∧
    getExecutionOrder { chainPass with m_nodes := chainPass.m_nodes.reverse } =
      some ["A", "B", "C"] ∧
    executeGraph chainPass 7 100 =
      some { ok := true, finalData := 7, invoked := ["A", "B", "C"] } :=
  have hr : Reachable chainPass :=
    Reachable.connect _ _ _ _ _ (Reachable.connect _ _ _ _ _
      (Reachable.add _ _ (Reachable.add _ _ (Reachable.add _ _ Reachable.init))))
  have hnodes : ∀ id, (getNode chainPass id).isSome = true ↔ id ∈ ["A", "B", "C"] := by
    intro id
    have hk : mapKeys chainPass.m_nodes = ["C", "A", "B"] := by decide
    rw [getNode_isSome_iff, hk]
    simp only [List.mem_cons, List.mem_singleton, List.not_mem_nil, or_false]
    tauto
  have h := C29_linear_chain chainPass hr ["A", "B", "C"] (by decide) hnodes edge_chainPass
  ⟨by decide, h.1, h.2.1 _ (List.reverse_perm _),
    h.2.2 7 100 (by
      intro n hn d
      have hall : getAllNodes chainPass = List.map Prod.snd chainPass.m_nodes := rfl
      rw [hall] at hn
      simp only [chainPass, connectNodes, addNode, getNode, mapFind, mapAssign, mapModify,
        mapAdjust, passThroughNode, FlowNode.mk0, DAGProcessor.new] at hn
      simp at hn
      rcases hn with rfl | rfl | rfl <;> rfl)⟩

/-! ## Shutdown of ExecutionEngine -/

/-- A worker action changes nothing but the queue and the pool. -/
theorem WorkerStep.frame {D : Type} {e e' : ExecutionEngine D} {l : List (QueuedTask D)}
    (h : WorkerStep e l e') :
    e'.m_running = e.m_running ∧ e'.m_threadPoolSize = e.m_threadPoolSize ∧
    e'.m_graphs = e.m_graphs := by
  cases h with
  | locked i w e1 hi hl =>
    rcases workerThreadLocked_cases e w e1 hl with ⟨_, _, rfl, rfl⟩ | ⟨_, _, _, rfl, rfl⟩ <;>
      exact ⟨rfl, rfl, rfl⟩
  | taskDone i task hi => exact ⟨rfl, rfl, rfl⟩

theorem WorkerRun.runFrame {D : Type} {e e' : ExecutionEngine D} {l : List (QueuedTask D)}
    (h : WorkerRun e l e') :
    e'.m_running = e.m_running ∧ e'.m_threadPoolSize = e.m_threadPoolSize ∧
    e'.m_graphs = e.m_graphs := by
  induction h with
  | done e => exact ⟨rfl, rfl, rfl⟩
  | step e e1 e2 l1 l2 hstep _ ih =>
    obtain ⟨a1, a2, a3⟩ := hstep.frame
    exact ⟨ih.1.trans a1, ih.2.1.trans a2, ih.2.2.trans a3⟩

theorem allReturned_iff {D : Type} (e : ExecutionEngine D) :
    AllReturned e ↔ e.m_threadPool.all Worker.isReturned = true := by
  unfold AllReturned
  rw [List.all_eq_true]
  constructor
  · intro h w hw
    rw [h w hw]
    rfl
  · intro h w hw
    have := h w hw
    cases w <;> simp [Worker.isReturned] at this ⊢

theorem WorkerStep.not_allReturned {D : Type} {e e' : ExecutionEngine D}
    {l : List (QueuedTask D)} (h : WorkerStep e l e') : ¬ AllReturned e := by
  intro hall
  cases h with
  | locked i w e1 hi hl =>
    have := hall _ (List.getElem?_mem hi)
    cases this
  | taskDone i task hi =>
    have := hall _ (List.getElem?_mem hi)
    cases this

/-- Every run of the workers that ends with all threads returned, the stop flag
being set, ends in the state `joinThreads`. -/
theorem joinThreads_of_run {D : Type} {e e' : ExecutionEngine D} {l : List (QueuedTask D)}
    (h : WorkerRun e l e') (hstop : e.m_stopThreads = true) (hall : AllReturned e') :
    e' = ExecutionEngine.joinThreads e := by
  obtain ⟨r1, r2, r3, r4⟩ := h.runEffect hstop
  obtain ⟨f1, f2, f3⟩ := h.runFrame
  have hpool : e'.m_threadPool = e.m_threadPool.map (fun _ => Worker.returned) := by
    rw [List.map_const', ← r3]
    exact List.eq_replicate_iff.2 ⟨rfl, hall⟩
  have hqueue : e'.m_taskQueue =
      if e.m_threadPool.all Worker.isReturned = true then e.m_taskQueue else [] := by
    by_cases ha : e.m_threadPool.all Worker.isReturned = true
    · rw [if_pos ha]
      cases h with
      | done => rfl
      | step e0 e1 e2 l1 l2 hstep _ =>
        exact absurd ((allReturned_iff _).2 ha) hstep.not_allReturned
    · rw [if_neg ha]
      have hex : ∃ w, w ∈ e.m_threadPool ∧ w ≠ Worker.returned := by
        by_contra hno
        apply ha
        rw [← allReturned_iff]
        intro w hw
        by_contra hw'
        exact hno ⟨w, hw, hw'⟩
      obtain ⟨w, hw, hne⟩ := hex
      obtain ⟨i, hi⟩ := List.mem_iff_getElem?.1 hw
      have hlt : i < e'.m_threadPool.length := by
        rw [r3]
        exact (List.getElem?_eq_some.1 hi).1
      have h' : e'.m_threadPool[i]? = some Worker.returned := by
        rw [List.getElem?_eq_getElem hlt]
        exact congrArg some (hall _ (List.getElem_mem _))
      rcases r4 i h' with h1 | h1
      · rw [hi] at h1
        simp only [Option.some.injEq] at h1
        exact absurd h1 hne
      · exact h1
  cases e'
  cases e
  simp only [ExecutionEngine.joinThreads] at *
  simp only [ExecutionEngine.mk.injEq]
  exact ⟨f1, f2, f3, hpool, hqueue, r2.trans hstop.symm⟩

theorem sum_map_set {α : Type} (f : α → Nat) :
    ∀ (l : List α) (i : Nat) (x w : α), l[i]? = some x →
      ((l.set i w).map f).sum + f x = (l.map f).sum + f w := by
  intro l
  induction l with
  | nil => intro i x w h; simp at h
  | cons a l ih =>
    intro i x w h
    cases i with
    | zero =>
      simp only [List.getElem?_cons_zero, Option.some.injEq] at h
      subst h
      simp only [List.set_cons_zero, List.map_cons, List.sum_cons]
      omega
    | succ i =>
      simp only [List.getElem?_cons_succ] at h
      have := ih i x w h
      simp only [List.set_cons_succ, List.map_cons, List.sum_cons]
      omega

/-- While the stop flag is set and some thread has not returned, a worker action is
possible that brings the pool nearer to having every thread returned. -/
theorem WorkerStep.progress {D : Type} (e : ExecutionEngine D)
    (hstop : e.m_stopThreads = true) (hn : ¬ AllReturned e) :
    ∃ l e', WorkerStep e l e' ∧ workLeft e' < workLeft e := by
  have hex : ∃ w, w ∈ e.m_threadPool ∧ w ≠ Worker.returned := by
    by_contra hno
    apply hn
    intro w hw
    by_contra hw'
    exact hno ⟨w, hw, hw'⟩
  obtain ⟨w, hw, hne⟩ := hex
  obtain ⟨i, hi⟩ := List.mem_iff_getElem?.1 hw
  cases w with
  | returned => exact absurd rfl hne
  | running task =>
    refine ⟨[], _, WorkerStep.taskDone e i task hi, ?_⟩
    have := sum_map_set (fun w : Worker D => match w with
      | Worker.waiting => 1
      | Worker.running _ => 2
      | Worker.returned => 0) e.m_threadPool i (Worker.running task) Worker.waiting hi
    simp only [workLeft] at this ⊢
    omega
  | waiting =>
    cases hq : e.m_taskQueue with
    | nil =>
      refine ⟨_, _, WorkerStep.locked e i _ _ hi (workerThreadLocked_nil e hstop hq), ?_⟩
      have := sum_map_set (fun w : Worker D => match w with
        | Worker.waiting => 1
        | Worker.running _ => 2
        | Worker.returned => 0) e.m_threadPool i Worker.waiting Worker.returned hi
      simp only [workLeft] at this ⊢
      omega
    | cons task rest =>
      refine ⟨_, _, WorkerStep.locked e i _ _ hi (workerThreadLocked_cons e task rest hq), ?_⟩
      have := sum_map_set (fun w : Worker D => match w with
        | Worker.waiting => 1
        | Worker.running _ => 2
        | Worker.returned => 0) e.m_threadPool i Worker.waiting (Worker.running task) hi
      simp only [workLeft, hq, List.length_cons] at this ⊢
      omega

/-- Once the stop flag is set the workers have a run after which every thread has
returned: the `join` calls of `shutdown` can come back. -/
theorem exists_run_allReturned {D : Type} :
    ∀ (n : Nat) (e : ExecutionEngine D), workLeft e ≤ n → e.m_stopThreads = true →
      ∃ l e', WorkerRun e l e' ∧ AllReturned e' := by
  intro n
  induction n with
  | zero =>
    intro e hn hstop
    by_cases hall : AllReturned e
    · exact ⟨[], e, WorkerRun.done e, hall⟩
    · obtain ⟨l, e1, _, hlt⟩ := WorkerStep.progress e hstop hall
      omega
  | succ n ih =>
    intro e hn hstop
    by_cases hall : AllReturned e
    · exact ⟨[], e, WorkerRun.done e, hall⟩
    · obtain ⟨l, e1, hstep, hlt⟩ := WorkerStep.progress e hstop hall
      obtain ⟨l2, e2, hrun, hall2⟩ :=
        ih e1 (by omega) (hstep.stepEffect.2.1.trans hstop)
      exact ⟨l ++ l2, e2, WorkerRun.step e e1 e2 l l2 hstep hrun, hall2⟩

/-- C25: `shutdown` on a running engine sets the stop flag, and the worker threads
then have a run after which all of them have returned; whenever they have, the
engine `shutdown` leaves is that state with the pool and the registry cleared and
the running flag reset. So afterwards `isRunning` is false, the pool is empty and
no graph id resolves, and a following `initialize` returns true, resets the stop
flag and starts a fresh pool of `getThreadPoolSize` waiting threads. -/
theorem C25_shutdown_then_initialize {D : Type} (e : ExecutionEngine D)
    (hrun : ExecutionEngine.isRunning e = true) :
    (ExecutionEngine.shutdownSignal e).m_stopThreads = true ∧
    (∃ l e', WorkerRun (ExecutionEngine.shutdownSignal e) l e' ∧ AllReturned e') ∧
    (∀ l e', WorkerRun (ExecutionEngine.shutdownSignal e) l e' → AllReturned e' →
      ExecutionEngine.shutdown e =
        { e' with m_threadPool := [], m_graphs := [], m_running := false }) ∧
    ExecutionEngine.isRunning (ExecutionEngine.shutdown e) = false ∧
    (ExecutionEngine.shutdown e).m_threadPool = [] ∧
    (ExecutionEngine.shutdown e).m_graphs = [] ∧
    (∀ graphId, ExecutionEngine.getGraph (ExecutionEngine.shutdown e) graphId = none) ∧
    (ExecutionEngine.shutdown e).m_threadPoolSize = e.m_threadPoolSize ∧
    ( ExecutionEngine.initialize (ExecutionEngine.shutdown e)).1 = true ∧
    ExecutionEngine.isRunning ( ExecutionEngine.initialize (ExecutionEngine.shutdown e)).2 = true ∧
    ( ExecutionEngine.initialize (ExecutionEngine.shutdown e)).2.m_stopThreads = false ∧
    ( ExecutionEngine.initialize (ExecutionEngine.shutdown e)).2.m_threadPool =
      List.replicate (ExecutionEngine.getThreadPoolSize e).toNat Worker.waiting ∧
    ( ExecutionEngine.initialize (ExecutionEngine.shutdown e)).2.m_graphs = [] := by
  have hr : e.m_running = true := hrun
  have hsig : ExecutionEngine.shutdownSignal e = { e with m_stopThreads := true } := by
    simp [ExecutionEngine.shutdownSignal, hr]
  have hstop : (ExecutionEngine.shutdownSignal e).m_stopThreads = true := by rw [hsig]
  have hsh : ExecutionEngine.shutdown e =
      { ExecutionEngine.joinThreads (ExecutionEngine.shutdownSignal e) with
        m_threadPool := [], m_graphs := [], m_running := false } := by
    simp [ExecutionEngine.shutdown, hr]
  refine ⟨hstop, exists_run_allReturned _ _ (le_refl _) hstop, ?_, ?_⟩
  · intro l e' hrun' hall
    rw [hsh, joinThreads_of_run hrun' hstop hall]
  · rw [hsh]
    refine ⟨rfl, rfl, rfl, fun _ => rfl, ?_, ?_⟩
    · rw [hsig]
      rfl
    · simp only [ ExecutionEngine.initialize, ExecutionEngine.isRunning,
        ExecutionEngine.getThreadPoolSize, ExecutionEngine.joinThreads, hsig]
      simp

theorem C25_shutdown_then_initialize_witness :
    ExecutionEngine.isRunning runningEngine = true ∧
    (ExecutionEngine.getGraph runningEngine "g").isSome = true ∧
    runningEngine.m_threadPool.length = 4 ∧
    runningEngine.m_taskQueue.length = 1 ∧
    ExecutionEngine.isRunning (ExecutionEngine.shutdown runningEngine) = false ∧
    ExecutionEngine.getGraph (ExecutionEngine.shutdown runningEngine) "g" = none ∧
    ExecutionEngine.isRunning
      ( ExecutionEngine.initialize (ExecutionEngine.shutdown runningEngine)).2 = true ∧
    ( ExecutionEngine.initialize (ExecutionEngine.shutdown runningEngine)).2.m_threadPool =
      List.replicate 4 Worker.waiting := by
  have h := C25_shutdown_then_initialize runningEngine (by rfl)
  exact ⟨by rfl, by rfl, by rfl, by rfl, h.2.2.2.1, h.2.2.2.2.2.2.1 "g",
    h.2.2.2.2.2.2.2.2.2.1, h.2.2.2.2.2.2.2.2.2.2.2.1⟩

/-! ## Order of the tasks -/

theorem executeGraphAsync_cases {D : Type} (e : ExecutionEngine D) (graphId : String)
    (input : D) :
    ((ExecutionEngine.executeGraphAsync e graphId input).1 = false ∧
      (ExecutionEngine.executeGraphAsync e graphId input).2 = e) ∨
    ((ExecutionEngine.executeGraphAsync e graphId input).1 = true ∧
      (ExecutionEngine.executeGraphAsync e graphId input).2 =
        { e with m_taskQueue :=
            e.m_taskQueue ++ [{ graphId := graphId, inputCopy := input }] }) := by
  unfold ExecutionEngine.executeGraphAsync
  cases ExecutionEngine.getGraph e graphId with
  | none => exact Or.inl ⟨rfl, rfl⟩
  | some g => exact Or.inr ⟨rfl, rfl⟩

/-- What one action does to the queue: the tasks started leave it at the front, the
tasks submitted join it at the back. -/
theorem EngineStep.stepQueue {D : Type} {e e' : ExecutionEngine D}
    {events : List (EngineEvent D)} (h : EngineStep e events e') :
    startedTasks events ++ e'.m_taskQueue = e.m_taskQueue ++ submittedTasks events := by
  cases h with
  | submit graphId input hok =>
    rcases executeGraphAsync_cases e graphId input with ⟨h1, _⟩ | ⟨_, h2⟩
    · rw [hok] at h1
      cases h1
    · rw [h2]
      simp [startedTasks, submittedTasks]
  | rejected graphId input hno =>
    rcases executeGraphAsync_cases e graphId input with ⟨_, h2⟩ | ⟨h1, _⟩
    · rw [h2]
      simp [startedTasks, submittedTasks]
    · rw [hno] at h1
      cases h1
  | take i w e1 hi hl =>
    rcases workerThreadLocked_cases e w e1 hl with ⟨_, _, rfl, rfl⟩ | ⟨task, rest, hq, rfl, rfl⟩
    · simp [startedTasks, submittedTasks, Worker.taken]
    · simp [startedTasks, submittedTasks, Worker.taken, hq]
  | complete i task hi => simp [startedTasks, submittedTasks]

theorem EngineRun.runQueue {D : Type} {e e' : ExecutionEngine D}
    {history : List (EngineEvent D)} (h : EngineRun e history e') :
    startedTasks history ++ e'.m_taskQueue = e.m_taskQueue ++ submittedTasks history := by
  induction h with
  | start => simp [startedTasks, submittedTasks]
  | next e1 e2 history events _ hstep ih =>
    have hs := hstep.stepQueue
    have e1 : startedTasks (history ++ events) = startedTasks history ++ startedTasks events := by
      simp [startedTasks]
    have e2 : submittedTasks (history ++ events) =
        submittedTasks history ++ submittedTasks events := by
      simp [submittedTasks]
    rw [e1, e2, List.append_assoc, hs, ← List.append_assoc, ih, List.append_assoc]

theorem oneByOne_append {D : Type} (l1 l2 : List (QueuedTask D)) :
    oneByOne (l1 ++ l2) = oneByOne l1 ++ oneByOne l2 := by
  simp [oneByOne]

/-- With one thread in the pool, the thread is either between two tasks, every task
it started being finished, or in the task it started last. -/
theorem EngineRun.single {D : Type} {e e' : ExecutionEngine D}
    {history : List (EngineEvent D)} (h : EngineRun e history e')
    (hpool : e.m_threadPool = [Worker.waiting]) :
    ((e'.m_threadPool = [Worker.waiting] ∨ e'.m_threadPool = [Worker.returned]) ∧
      workerEvents history = oneByOne (startedTasks history)) ∨
    (∃ task, e'.m_threadPool = [Worker.running task] ∧
      workerEvents history ++ [EngineEvent.finished task] =
        oneByOne (startedTasks history)) := by
  induction h with
  | start => exact Or.inl ⟨Or.inl hpool, rfl⟩
  | next e1 e2 history events _ hstep ih =>
    have w1 : workerEvents (history ++ events) = workerEvents history ++ workerEvents events := by
      simp [workerEvents]
    have s1 : startedTasks (history ++ events) = startedTasks history ++ startedTasks events := by
      simp [startedTasks]
    rw [w1, s1, oneByOne_append]
    cases hstep with
    | submit graphId input hok =>
      have hp : (ExecutionEngine.executeGraphAsync e1 graphId input).2.m_threadPool =
          e1.m_threadPool := by
        rcases executeGraphAsync_cases e1 graphId input with ⟨_, h2⟩ | ⟨_, h2⟩ <;> rw [h2]
      rw [hp]
      simpa [workerEvents, startedTasks, oneByOne] using ih
    | rejected graphId input hno =>
      have hp : (ExecutionEngine.executeGraphAsync e1 graphId input).2.m_threadPool =
          e1.m_threadPool := by
        rcases executeGraphAsync_cases e1 graphId input with ⟨_, h2⟩ | ⟨_, h2⟩ <;> rw [h2]
      rw [hp]
      simpa [workerEvents, startedTasks, oneByOne] using ih
    | take i w e3 hi hl =>
      rcases ih with ⟨hp | hp, hev⟩ | ⟨task, hp, hev⟩
      · rcases workerThreadLocked_cases e1 w e3 hl with
          ⟨_, _, rfl, rfl⟩ | ⟨task, rest, hq, rfl, rfl⟩
        · left
          refine ⟨Or.inr ?_, by simpa [workerEvents, startedTasks, oneByOne, Worker.taken] using hev⟩
          rw [hp] at hi ⊢
          cases i with
          | zero => rfl
          | succ i => simp at hi
        · right
          refine ⟨task, ?_, ?_⟩
          · rw [hp] at hi
            simp only [hp]
            cases i with
            | zero => rfl
            | succ i => simp at hi
          · simp [workerEvents, startedTasks, oneByOne, Worker.taken, hev]
            exact hev
      · rw [hp] at hi
        cases i with
        | zero => simp at hi
        | succ i => simp at hi
      · rw [hp] at hi
        cases i with
        | zero => simp at hi
        | succ i => simp at hi
    | complete i task hi =>
      rcases ih with ⟨hp | hp, _⟩ | ⟨task1, hp, hev⟩
      · rw [hp] at hi
        cases i with
        | zero => simp at hi
        | succ i => simp at hi
      · rw [hp] at hi
        cases i with
        | zero => simp at hi
        | succ i => simp at hi
      · left
        rw [hp] at hi
        cases i with
        | succ i => simp at hi
        | zero =>
          simp only [List.getElem?_cons_zero, Option.some.injEq, Worker.running.injEq] at hi
          subst hi
          refine ⟨Or.inl (by simp [hp]), ?_⟩
          simpa [workerEvents, startedTasks, oneByOne] using hev

theorem oneByOne_mono {D : Type} {l1 l2 : List (QueuedTask D)} (h : l1 <+: l2) :
    oneByOne l1 <+: oneByOne l2 := by
  obtain ⟨r, rfl⟩ := h
  rw [oneByOne_append]
  exact List.prefix_append _ _

/-- C26: in every history of the engine (calls of `executeGraphAsync` and actions of
the worker threads, interleaved in any way) the tasks taken so far, followed by the
queue, are the queue of the beginning followed by the tasks submitted so far. From
an empty queue the tasks taken are therefore a prefix of the tasks submitted, in
the same order; and with a pool of one thread each task taken finishes before the
next is taken, so two tasks submitted one after the other start and run in that
order. -/
theorem C26_fifo_order {D : Type} (e e' : ExecutionEngine D)
    (history : List (EngineEvent D)) (h : EngineRun e history e') :
    startedTasks history ++ e'.m_taskQueue = e.m_taskQueue ++ submittedTasks history ∧
    (e.m_taskQueue = [] → startedTasks history <+: submittedTasks history) ∧
    (e.m_taskQueue = [] → e.m_threadPool = [Worker.waiting] →
      workerEvents history <+: oneByOne (startedTasks history) ∧
      workerEvents history <+: oneByOne (submittedTasks history) ∧
      ∀ first second, submittedTasks history = [first, second] →
        workerEvents history <+:
          [EngineEvent.started first, EngineEvent.finished first,
            EngineEvent.started second, EngineEvent.finished second]) := by
  have hq := h.runQueue
  have hpre : e.m_taskQueue = [] → startedTasks history <+: submittedTasks history := by
    intro h0
    rw [h0, List.nil_append] at hq
    exact ⟨e'.m_taskQueue, hq⟩
  refine ⟨hq, hpre, ?_⟩
  intro h0 hpool
  have h1 : workerEvents history <+: oneByOne (startedTasks history) := by
    rcases h.single hpool with ⟨_, hev⟩ | ⟨task, _, hev⟩
    · rw [hev]
    · exact ⟨[EngineEvent.finished task], hev⟩
  have h2 : workerEvents history <+: oneByOne (submittedTasks history) :=
    h1.trans (oneByOne_mono (hpre h0))
  refine ⟨h1, h2, ?_⟩
  intro first second hsub
  rw [hsub] at h2
  exact h2

theorem C26_fifo_order_witness :
    EngineRun singleWorkerEngine
      [EngineEvent.submitted { graphId := "g", inputCopy := 1 },
        EngineEvent.submitted { graphId := "g", inputCopy := 2 },
        EngineEvent.started { graphId := "g", inputCopy := 1 },
        EngineEvent.finished { graphId := "g", inputCopy := 1 },
        EngineEvent.started { graphId := "g", inputCopy := 2 }]
      (singleWorkerState [Worker.running { graphId := "g", inputCopy := 2 }] []) ∧
    singleWorkerEngine.m_taskQueue = [] ∧
    singleWorkerEngine.m_threadPool = [Worker.waiting] ∧
    startedTasks
      [EngineEvent.submitted { graphId := "g", inputCopy := (1 : Nat) },
        EngineEvent.submitted { graphId := "g", inputCopy := 2 },
        EngineEvent.started { graphId := "g", inputCopy := 1 },
        EngineEvent.finished { graphId := "g", inputCopy := 1 },
        EngineEvent.started { graphId := "g", inputCopy := 2 }] <+:
    submittedTasks
      [EngineEvent.submitted { graphId := "g", inputCopy := (1 : Nat) },
        EngineEvent.submitted { graphId := "g", inputCopy := 2 },
        EngineEvent.started { graphId := "g", inputCopy := 1 },
        EngineEvent.finished { graphId := "g", inputCopy := 1 },
        EngineEvent.started { graphId := "g", inputCopy := 2 }] :=
  have r0 : EngineRun singleWorkerEngine [] singleWorkerEngine := EngineRun.start _
  have r1 : EngineRun singleWorkerEngine
      ([] ++ [EngineEvent.submitted { graphId := "g", inputCopy := 1 }])
      (singleWorkerState [Worker.waiting] [{ graphId := "g", inputCopy := 1 }]) :=
    EngineRun.next _ _ _ _ _ r0 (EngineStep.submit singleWorkerEngine "g" 1 (by rfl))
  have r2 : EngineRun singleWorkerEngine
      ([EngineEvent.submitted { graphId := "g", inputCopy := 1 }] ++
        [EngineEvent.submitted { graphId := "g", inputCopy := 2 }])
      (singleWorkerState [Worker.waiting]
        [{ graphId := "g", inputCopy := 1 }, { graphId := "g", inputCopy := 2 }]) :=
    EngineRun.next _ _ _ _ _ r1
      (EngineStep.submit
        (singleWorkerState [Worker.waiting] [{ graphId := "g", inputCopy := 1 }])
        "g" 2 (by rfl))
  have r3 : EngineRun singleWorkerEngine
      ([EngineEvent.submitted { graphId := "g", inputCopy := 1 },
          EngineEvent.submitted { graphId := "g", inputCopy := 2 }] ++
        [EngineEvent.started { graphId := "g", inputCopy := 1 }])
      (singleWorkerState [Worker.running { graphId := "g", inputCopy := 1 }]
        [{ graphId := "g", inputCopy := 2 }]) :=
    EngineRun.next _ _ _ _ _ r2
      (EngineStep.take
        (singleWorkerState [Worker.waiting]
          [{ graphId := "g", inputCopy := 1 }, { graphId := "g", inputCopy := 2 }])
        0 (Worker.running { graphId := "g", inputCopy := 1 })
        (singleWorkerState [Worker.waiting] [{ graphId := "g", inputCopy := 2 }])
        (by rfl) (by rfl))
  have r4 : EngineRun singleWorkerEngine
      ([EngineEvent.submitted { graphId := "g", inputCopy := 1 },
          EngineEvent.submitted { graphId := "g", inputCopy := 2 },
          EngineEvent.started { graphId := "g", inputCopy := 1 }] ++
        [EngineEvent.finished { graphId := "g", inputCopy := 1 }])
      (singleWorkerState [Worker.waiting] [{ graphId := "g", inputCopy := 2 }]) :=
    EngineRun.next _ _ _ _ _ r3
      (EngineStep.complete
        (singleWorkerState [Worker.running { graphId := "g", inputCopy := 1 }]
          [{ graphId := "g", inputCopy := 2 }])
        0 { graphId := "g", inputCopy := 1 } (by rfl))
  have r5 : EngineRun singleWorkerEngine
      ([EngineEvent.submitted { graphId := "g", inputCopy := 1 },
          EngineEvent.submitted { graphId := "g", inputCopy := 2 },
          EngineEvent.started { graphId := "g", inputCopy := 1 },
          EngineEvent.finished { graphId := "g", inputCopy := 1 }] ++
        [EngineEvent.started { graphId := "g", inputCopy := 2 }])
      (singleWorkerState [Worker.running { graphId := "g", inputCopy := 2 }] []) :=
    EngineRun.next _ _ _ _ _ r4
      (EngineStep.take
        (singleWorkerState [Worker.waiting] [{ graphId := "g", inputCopy := 2 }])
        0 (Worker.running { graphId := "g", inputCopy := 2 })
        (singleWorkerState [Worker.waiting] [])
        (by rfl) (by rfl))
  ⟨r5, by rfl, by rfl, (C26_fifo_order _ _ _ r5).2.1 (by rfl)⟩

/-! ## FlowData: presence of a key -/

theorem hasData_setData {U : TypeUniverse} (t : U.Info) (d : FlowData U) (key k : String)
    (v : U.Value t) :
    hasData (setData t d key v) k = (decide (key = k) || hasData d k) := by
  simp only [hasData, setData, mapFind_mapAssign]
  by_cases h : key = k <;> simp [h]

theorem setSinceClear_cons {U : TypeUniverse} (op : DataOp U) (ops : List (DataOp U))
    (k : String) :
    SetSinceClear (op :: ops) k ↔
      SetSinceClear ops k ∨
        ((∃ t v, op = DataOp.set t k v) ∧ ∀ o, o ∈ ops → DataOp.isClear o = false) := by
  constructor
  · rintro ⟨pre, post, t, v, heq, hno⟩
    cases pre with
    | nil =>
      simp only [List.nil_append, List.cons.injEq] at heq
      obtain ⟨h1, h2⟩ := heq
      subst h2
      exact Or.inr ⟨⟨t, v, h1⟩, hno⟩
    | cons a pre =>
      simp only [List.cons_append, List.cons.injEq] at heq
      exact Or.inl ⟨pre, post, t, v, heq.2, hno⟩
  · rintro (⟨pre, post, t, v, heq, hno⟩ | ⟨⟨t, v, rfl⟩, hno⟩)
    · exact ⟨op :: pre, post, t, v, by rw [heq]; rfl, hno⟩
    · exact ⟨[], ops, t, v, rfl, hno⟩

/-- From any `FlowData`: a key is present after the calls exactly when it was set
with no `clearData` after, or was present before and there was no `clearData`. -/
theorem hasData_runOps {U : TypeUniverse} (k : String) :
    ∀ (ops : List (DataOp U)) (d : FlowData U),
      hasData (runOps d ops) k = true ↔
        SetSinceClear ops k ∨
          (hasData d k = true ∧ ∀ o, o ∈ ops → DataOp.isClear o = false) := by
  intro ops
  induction ops with
  | nil =>
    intro d
    constructor
    · intro h
      exact Or.inr ⟨h, fun o ho => by cases ho⟩
    · rintro (⟨pre, post, t, v, heq, _⟩ | ⟨h, _⟩)
      · cases pre <;> cases heq
      · exact h
  | cons op ops ih =>
    intro d
    have hrun : runOps d (op :: ops) = runOps (DataOp.apply d op) ops := rfl
    rw [hrun, ih, setSinceClear_cons]
    cases op with
    | clear =>
      have h1 : hasData (DataOp.apply d (DataOp.clear : DataOp U)) k = false := rfl
      constructor
      · rintro (h | ⟨h, _⟩)
        · exact Or.inl (Or.inl h)
        · rw [h1] at h
          cases h
      · rintro ((h | ⟨⟨t, v, h⟩, _⟩) | ⟨_, h⟩)
        · exact Or.inl h
        · cases h
        · have := h DataOp.clear (List.mem_cons_self _ _)
          cases this
    | set t key value =>
      have h1 : hasData (DataOp.apply d (DataOp.set t key value)) k =
          (decide (key = k) || hasData d k) := hasData_setData t d key k value
      rw [h1]
      constructor
      · rintro (h | ⟨h, hno⟩)
        · exact Or.inl (Or.inl h)
        · simp only [Bool.or_eq_true, decide_eq_true_eq] at h
          rcases h with h | h
          · subst h
            exact Or.inl (Or.inr ⟨⟨t, value, rfl⟩, hno⟩)
          · refine Or.inr ⟨h, ?_⟩
            intro o ho
            rcases List.mem_cons.1 ho with rfl | ho
            · rfl
            · exact hno o ho
      · rintro ((h | ⟨⟨t', v', h⟩, hno⟩) | ⟨h, hno⟩)
        · exact Or.inl h
        · right
          refine ⟨?_, hno⟩
          cases h
          simp
        · right
          refine ⟨?_, fun o ho => hno o (List.mem_cons_of_mem _ ho)⟩
          simp [h]

/-- C33: on a `FlowData` that has gone through any calls of `setData` and
`clearData` since its construction, `hasData(k)` is true exactly when some
`setData` on `k` has no `clearData` after it, whatever the type it was set with;
and after `setData<T>(k, v)`, for every other type `T2`, `hasData(k)` is true
while `getData<T2>(k)` returns `T2{}`. -/
theorem C33_hasData_iff_set {U : TypeUniverse} (ops : List (DataOp U)) (k : String) :
    (hasData (runOps FlowData.new ops) k = true ↔ SetSinceClear ops k) ∧
    (∀ (d : FlowData U) (t : U.Info) (v : U.Value t), hasData (setData t d k v) k = true) ∧
    (∀ (d : FlowData U) (t t2 : U.Info) (v : U.Value t), t ≠ t2 →
      hasData (setData t d k v) k = true ∧
      getData t2 (setData t d k v) k = some (U.init t2)) := by
  refine ⟨?_, ?_, ?_⟩
  · rw [hasData_runOps]
    constructor
    · rintro (h | ⟨h, _⟩)
      · exact h
      · cases h
    · exact Or.inl
  · intro d t v
    simp [hasData_setData]
  · intro d t t2 v hne
    refine ⟨by simp [hasData_setData], ?_⟩
    rw [getData_setData_same, if_neg hne]

theorem C33_hasData_iff_set_witness :
    hasData exampleData "gain" = true ∧
    @getData exampleTypes ExampleType.text exampleData "gain" = some "" ∧
    hasData (runOps (@FlowData.new exampleTypes)
      [DataOp.set ExampleType.int "gain" (7 : Int), DataOp.clear,
        DataOp.set ExampleType.text "name" "x"]) "gain" = false ∧
    hasData (runOps (@FlowData.new exampleTypes)
      [DataOp.set ExampleType.int "gain" (7 : Int), DataOp.clear,
        DataOp.set ExampleType.text "name" "x"]) "name" = true :=
  have h := (@C33_hasData_iff_set exampleTypes [] "gain").2.2 FlowData.new
    ExampleType.int ExampleType.text (7 : Int) (fun e => by cases e)
  ⟨h.1, h.2, by rfl, by rfl⟩

/-- C34: after `clearData()` no key is present, `getData<T>` returns `T{}` for
every key and type, and both maps are empty. -/
theorem C34_clearData {U : TypeUniverse} (d : FlowData U) :
    (∀ k, hasData (clearData d) k = false) ∧
    (∀ k (t : U.Info), getData t (clearData d) k = some (U.init t)) ∧
    (clearData d).m_data = [] ∧
    (clearData d).m_types = [] :=
  ⟨fun _ => rfl, fun _ _ => rfl, rfl, rfl⟩

/-! ## Shutdown of an engine that is not running -/

/-- C39: `shutdown` on an engine that is not running returns it as it is, so every
graph id resolves as before; and an engine that has been shut down is not
running, so a second `shutdown` changes nothing. -/
theorem C39_shutdown_not_running {D : Type} (e : ExecutionEngine D) :
    (ExecutionEngine.isRunning e = false →
      ExecutionEngine.shutdown e = e ∧
      ∀ graphId, ExecutionEngine.getGraph (ExecutionEngine.shutdown e) graphId =
        ExecutionEngine.getGraph e graphId) ∧
    ExecutionEngine.isRunning (ExecutionEngine.shutdown e) = false ∧
    ExecutionEngine.shutdown (ExecutionEngine.shutdown e) = ExecutionEngine.shutdown e := by
  have h1 : ∀ e0 : ExecutionEngine D, e0.m_running = false →
      ExecutionEngine.shutdown e0 = e0 := by
    intro e0 h0
    simp [ExecutionEngine.shutdown, h0]
  have h2 : (ExecutionEngine.shutdown e).m_running = false := by
    cases hr : e.m_running with
    | false => rw [h1 e hr, hr]
    | true => simp [ExecutionEngine.shutdown, hr]
  refine ⟨?_, h2, h1 _ h2⟩
  intro hn
  have hs := h1 e hn
  exact ⟨hs, fun g => by rw [hs]⟩

theorem C39_shutdown_not_running_witness :
    ExecutionEngine.isRunning engineG = false ∧
    (ExecutionEngine.getGraph engineG "g").isSome = true ∧
    (ExecutionEngine.getGraph (ExecutionEngine.shutdown engineG) "g").isSome = true :=
  have h := (C39_shutdown_not_running engineG).1 (by rfl)
  ⟨by rfl, by rfl, by rw [h.2 "g"]; rfl⟩

/-! ## Edges refer to nodes; the failure branches of executeGraph -/

/-- C36: in a processor reached by calls of `addNode`, `removeNode` and
`connectNodes`, every key of `m_dependencies` and of `m_dependents` and every id
in any of their lists is the id of a node that `getNode` finds. -/
theorem C36_edges_refer_to_nodes {D : Type} (s : DAGProcessor D) (hr : Reachable s) :
    (∀ e, e ∈ s.m_dependencies →
      (getNode s e.1).isSome = true ∧ ∀ x, x ∈ e.2 → (getNode s x).isSome = true) ∧
    (∀ e, e ∈ s.m_dependents →
      (getNode s e.1).isSome = true ∧ ∀ x, x ∈ e.2 → (getNode s x).isSome = true) ∧
    (∀ u v, Edge s u v → (getNode s u).isSome = true ∧ (getNode s v).isSome = true) := by
  have hc := hr.consistent
  refine ⟨?_, ?_, ?_⟩
  · intro e he
    have hk : e.1 ∈ mapKeys s.m_dependencies := List.mem_map_of_mem Prod.fst he
    refine ⟨(getNode_isSome_iff s e.1).2 (hc.deps_key _ hk), ?_⟩
    intro x hx
    have hf : mapFind s.m_dependencies e.1 = some e.2 :=
      mapFind_of_mem _ _ _ hc.deps_nodup he
    apply (getNode_isSome_iff s x).2
    apply hc.deps_mem e.1 x
    simp only [getNodeDependencies, hf]
    exact hx
  · intro e he
    have hk : e.1 ∈ mapKeys s.m_dependents := List.mem_map_of_mem Prod.fst he
    refine ⟨(getNode_isSome_iff s e.1).2 (hc.dpts_key _ hk), ?_⟩
    intro x hx
    have hf : mapFind s.m_dependents e.1 = some e.2 :=
      mapFind_of_mem _ _ _ hc.dpts_nodup he
    apply (getNode_isSome_iff s x).2
    apply hc.dpts_mem e.1 x
    simp only [dependentsOf, hf]
    exact hx
  · intro u v huv
    exact ⟨(getNode_isSome_iff s u).2 (hc.deps_mem v u huv),
      (getNode_isSome_iff s v).2 (Edge.right_mem hc huv)⟩

theorem C36_edges_refer_to_nodes_witness :
    Reachable (removeNode chainABC "B").2 ∧
    (removeNode chainABC "B").2.m_dependencies = [("C", [])] ∧
    (∀ e, e ∈ (removeNode chainABC "B").2.m_dependencies →
      (getNode (removeNode chainABC "B").2 e.1).isSome = true ∧
      ∀ x, x ∈ e.2 → (getNode (removeNode chainABC "B").2 x).isSome = true) :=
  ⟨Reachable.remove _ _ reachable_chainABC, by decide,
    (C36_edges_refer_to_nodes _ (Reachable.remove _ _ reachable_chainABC)).1⟩

/-- C37: on a reachable processor `validateGraph` returns, and whenever it returns
true the `topologicalSort` that `executeGraph` then calls returns true with an
order in which every id resolves to a node; `executeGraph` is then the run of the
loop over that order, in which `process` is called on every id of the order as
long as no call fails. -/
theorem C37_no_failure_after_validate {D : Type} (s : DAGProcessor D) (hr : Reachable s) :
    (∃ r, validateGraph s = some r) ∧
    ∀ s1, validateGraph s = some (true, s1) →
      ∃ order, topologicalSort s1 = some (true, order) ∧
        (∀ id, id ∈ order → (getNode s1 id).isSome = true) ∧
        ∀ initialData finalData,
          executeGraph s initialData finalData =
            some (runOrder s1 order initialData finalData []) := by
  have hc := hr.consistent
  obtain ⟨b, hv, hb⟩ := validateGraph_spec s hc
  refine ⟨⟨_, hv⟩, ?_⟩
  intro s1 h1
  rw [hv] at h1
  simp only [Option.some.injEq, Prod.mk.injEq] at h1
  obtain ⟨rfl, rfl⟩ := h1
  have hac : Acyclic s := hb.1 rfl
  obtain ⟨order, ht, _, hsub, _, _, hperm, _, _⟩ := topologicalSort_spec s hc
  have hlen : order.length = s.m_nodes.length := by
    rw [(hperm hac).length_eq]
    simp [mapKeys]
  have ht1 : topologicalSort s = some (true, order) := by
    rw [ht]
    simp [hlen]
  refine ⟨order, ht1, fun id hid => (getNode_isSome_iff s id).2 (hsub id hid), ?_⟩
  intro initialData finalData
  simp only [executeGraph, hv, ht1]

theorem C37_no_failure_after_validate_witness :
    Reachable chainABC ∧ validateGraph chainABC = some (true, chainABC) ∧
    ∃ order, topologicalSort chainABC = some (true, order) ∧
      (∀ id, id ∈ order → (getNode chainABC id).isSome = true) ∧
      ∀ initialData finalData,
        executeGraph chainABC initialData finalData =
          some (runOrder chainABC order initialData finalData []) :=
  ⟨reachable_chainABC, by rfl,
    (C37_no_failure_after_validate chainABC reachable_chainABC).2 chainABC (by rfl)⟩

/-! ## Ports and connections of a FlowNode -/

/-- The port list that the `std::find` guard builds from the names used. -/
theorem firstUses_foldl (used : List String) :
    FirstUses (used.foldl (fun ps p => if p ∈ ps then ps else ps ++ [p]) []) used := by
  induction used using List.reverseRecOn with
  | nil => exact ⟨List.nodup_nil, fun p => Iff.rfl, fun p q hp => by cases hp⟩
  | append_singleton used a ih =>
    obtain ⟨hnd, hmem, hord⟩ := ih
    rw [List.foldl_append]
    simp only [List.foldl_cons, List.foldl_nil]
    generalize used.foldl (fun ps p => if p ∈ ps then ps else ps ++ [p]) [] = ports at *
    by_cases ha : a ∈ ports
    · rw [if_pos ha]
      refine ⟨hnd, ?_, ?_⟩
      · intro p
        rw [hmem p, List.mem_append, List.mem_singleton]
        constructor
        · exact Or.inl
        · rintro (h | rfl)
          · exact h
          · exact (hmem _).1 ha
      · intro p q hp hq
        rw [List.indexOf_append_of_mem ((hmem p).1 hp),
          List.indexOf_append_of_mem ((hmem q).1 hq)]
        exact hord p q hp hq
    · rw [if_neg ha]
      have hau : a ∉ used := fun h => ha ((hmem a).2 h)
      have ia : (ports ++ [a]).indexOf a = ports.length := by
        rw [List.indexOf_append_of_not_mem ha]
        simp
      have ja : (used ++ [a]).indexOf a = used.length := by
        rw [List.indexOf_append_of_not_mem hau]
        simp
      refine ⟨?_, ?_, ?_⟩
      · rw [List.nodup_append]
        refine ⟨hnd, List.nodup_singleton a, ?_⟩
        intro x hx hx'
        rw [List.mem_singleton] at hx'
        subst hx'
        exact ha hx
      · intro p
        simp only [List.mem_append, List.mem_singleton, hmem p]
      · intro p q hp hq
        rw [List.mem_append, List.mem_singleton] at hp hq
        rcases hp with hp | rfl <;> rcases hq with hq | rfl
        · rw [List.indexOf_append_of_mem hp, List.indexOf_append_of_mem hq,
            List.indexOf_append_of_mem ((hmem p).1 hp),
            List.indexOf_append_of_mem ((hmem q).1 hq)]
          exact hord p q hp hq
        · rw [ia, ja, List.indexOf_append_of_mem hp,
            List.indexOf_append_of_mem ((hmem p).1 hp)]
          have h1 := List.indexOf_lt_length.2 hp
          have h2 := List.indexOf_lt_length.2 ((hmem p).1 hp)
          exact ⟨fun _ => h2, fun _ => h1⟩
        · rw [ia, ja, List.indexOf_append_of_mem hq,
            List.indexOf_append_of_mem ((hmem q).1 hq)]
          have h1 := List.indexOf_lt_length.2 hq
          have h2 := List.indexOf_lt_length.2 ((hmem q).1 hq)
          constructor <;> intro h <;> omega
        · constructor <;> intro h <;> omega

theorem inputPorts_runCalls {D : Type} :
    ∀ (calls : List (PortCall D)) (n : FlowNode D),
      (runCalls n calls).m_inputPorts =
        (inputPortsUsed calls).foldl (fun ps p => if p ∈ ps then ps else ps ++ [p])
          n.m_inputPorts := by
  intro calls
  induction calls with
  | nil => intro n; rfl
  | cons c calls ih =>
    intro n
    have hrun : runCalls n (c :: calls) = runCalls (PortCall.apply n c) calls := rfl
    rw [hrun, ih]
    cases c <;> rfl

theorem outputPorts_runCalls {D : Type} :
    ∀ (calls : List (PortCall D)) (n : FlowNode D),
      (runCalls n calls).m_outputPorts =
        (outputPortsUsed calls).foldl (fun ps p => if p ∈ ps then ps else ps ++ [p])
          n.m_outputPorts := by
  intro calls
  induction calls with
  | nil => intro n; rfl
  | cons c calls ih =>
    intro n
    have hrun : runCalls n (c :: calls) = runCalls (PortCall.apply n c) calls := rfl
    rw [hrun, ih]
    cases c <;> rfl

/-- C31: on a node made by the constructor, after any calls of `addInputConnection`
and `addOutputConnection` the input port list has no duplicate and holds exactly
the distinct input port names of the calls in the order of their first use, and
likewise the output port list. -/
theorem C31_port_lists {D : Type} (id type : String) (p : D → Bool × D)
    (calls : List (PortCall D)) :
    (runCalls (FlowNode.mk0 id type p) calls).m_inputPorts.Nodup ∧
    (runCalls (FlowNode.mk0 id type p) calls).m_outputPorts.Nodup ∧
    FirstUses (runCalls (FlowNode.mk0 id type p) calls).m_inputPorts (inputPortsUsed calls) ∧
    FirstUses (runCalls (FlowNode.mk0 id type p) calls).m_outputPorts
      (outputPortsUsed calls) := by
  have h1 : FirstUses (runCalls (FlowNode.mk0 id type p) calls).m_inputPorts
      (inputPortsUsed calls) := by
    rw [inputPorts_runCalls]
    exact firstUses_foldl _
  have h2 : FirstUses (runCalls (FlowNode.mk0 id type p) calls).m_outputPorts
      (outputPortsUsed calls) := by
    rw [outputPorts_runCalls]
    exact firstUses_foldl _
  exact ⟨h1.1, h2.1, h1, h2⟩

theorem inputConnectionsAt_add {D : Type} (n : FlowNode D) (port : String)
    (src : FlowNode D) (srcPort : String) (q : String) :
    inputConnectionsAt (n.addInputConnection port src srcPort) q =
      if port = q then inputConnectionsAt n port ++ [{ node := src.m_id, port := srcPort }]
      else inputConnectionsAt n q := by
  simp only [inputConnectionsAt, FlowNode.addInputConnection, mapFind_mapModify]
  by_cases h : port = q <;> simp [h]

theorem outputConnectionsAt_add {D : Type} (n : FlowNode D) (port : String)
    (tgt : FlowNode D) (tgtPort : String) (q : String) :
    outputConnectionsAt (n.addOutputConnection port tgt tgtPort) q =
      if port = q then outputConnectionsAt n port ++ [{ node := tgt.m_id, port := tgtPort }]
      else outputConnectionsAt n q := by
  simp only [outputConnectionsAt, FlowNode.addOutputConnection, mapFind_mapModify]
  by_cases h : port = q <;> simp [h]

theorem inputConnectionsAt_fanIn {D : Type} (port : String) :
    ∀ (sources : List (FlowNode D × String)) (n : FlowNode D),
      inputConnectionsAt
          (sources.foldl (fun m c => m.addInputConnection port c.1 c.2) n) port =
        inputConnectionsAt n port ++
          sources.map (fun c => { node := c.1.m_id, port := c.2 }) := by
  intro sources
  induction sources with
  | nil => intro n; simp
  | cons c sources ih =>
    intro n
    rw [List.foldl_cons, ih, inputConnectionsAt_add, if_pos rfl]
    simp

theorem outputConnectionsAt_fanOut {D : Type} (port : String) :
    ∀ (targets : List (FlowNode D × String)) (n : FlowNode D),
      outputConnectionsAt
          (targets.foldl (fun m c => m.addOutputConnection port c.1 c.2) n) port =
        outputConnectionsAt n port ++
          targets.map (fun c => { node := c.1.m_id, port := c.2 }) := by
  intro targets
  induction targets with
  | nil => intro n; simp
  | cons c targets ih =>
    intro n
    rw [List.foldl_cons, ih, outputConnectionsAt_add, if_pos rfl]
    simp

/-- C32: `addInputConnection(port, source, sourcePort)` puts the one `Connection`
`(source, sourcePort)` at the end of the list under `port`, keeps the entries that
were there, and leaves the lists under the other input ports and all outbound
connections as they were; so the calls for `n` sources into one input port of a
new node leave the `n` entries there in call order. The same holds for
`addOutputConnection` and the lists under the output ports. -/
theorem C32_connection_lists {D : Type} (n : FlowNode D) (port : String)
    (other : FlowNode D) (otherPort : String) :
    inputConnectionsAt (n.addInputConnection port other otherPort) port =
      inputConnectionsAt n port ++ [{ node := other.m_id, port := otherPort }] ∧
    (∀ q, q ≠ port →
      inputConnectionsAt (n.addInputConnection port other otherPort) q =
        inputConnectionsAt n q) ∧
    (n.addInputConnection port other otherPort).m_outputConnections =
      n.m_outputConnections ∧
    outputConnectionsAt (n.addOutputConnection port other otherPort) port =
      outputConnectionsAt n port ++ [{ node := other.m_id, port := otherPort }] ∧
    (∀ q, q ≠ port →
      outputConnectionsAt (n.addOutputConnection port other otherPort) q =
        outputConnectionsAt n q) ∧
    (n.addOutputConnection port other otherPort).m_inputConnections =
      n.m_inputConnections ∧
    (∀ (peers : List (FlowNode D × String)) (id type : String) (p : D → Bool × D),
      inputConnectionsAt
          (peers.foldl (fun m c => m.addInputConnection port c.1 c.2)
            (FlowNode.mk0 id type p)) port =
        peers.map (fun c => { node := c.1.m_id, port := c.2 }) ∧
      outputConnectionsAt
          (peers.foldl (fun m c => m.addOutputConnection port c.1 c.2)
            (FlowNode.mk0 id type p)) port =
        peers.map (fun c => { node := c.1.m_id, port := c.2 })) := by
  refine ⟨?_, ?_, rfl, ?_, ?_, rfl, ?_⟩
  · rw [inputConnectionsAt_add, if_pos rfl]
  · intro q hq
    rw [inputConnectionsAt_add, if_neg (fun h => hq h.symm)]
  · rw [outputConnectionsAt_add, if_pos rfl]
  · intro q hq
    rw [outputConnectionsAt_add, if_neg (fun h => hq h.symm)]
  · intro peers id type p
    rw [inputConnectionsAt_fanIn, outputConnectionsAt_fanOut]
    exact ⟨by simp [inputConnectionsAt, FlowNode.mk0, mapFind],
      by simp [outputConnectionsAt, FlowNode.mk0, mapFind]⟩

theorem C32_connection_lists_witness :
    inputConnectionsAt
      (((passNode "M").addInputConnection "in" (passNode "A") "out").addInputConnection
        "in" (passNode "B") "out") "in" =
      [{ node := "A", port := "out" }, { node := "B", port := "out" }] ∧
    inputConnectionsAt
      (((passNode "M").addInputConnection "in" (passNode "A") "out").addInputConnection
        "in" (passNode "B") "out") "aux" =
      inputConnectionsAt ((passNode "M").addInputConnection "in" (passNode "A") "out")
        "aux" :=
  have h := C32_connection_lists
    ((passNode "M").addInputConnection "in" (passNode "A") "out") "in" (passNode "B") "out"
  ⟨h.1.trans (by decide), h.2.1 "aux" (by decide)⟩

/-- In a reachable processor every node is stored under its own id. -/
theorem Reachable.key_is_id {D : Type} {s : DAGProcessor D} (h : Reachable s) :
    ∀ k n, getNode s k = some n → n.m_id = k := by
  induction h with
  | init => intro k n hk; cases hk
  | add s node _ ih =>
    intro k n hk
    rcases addNode_cases s node with ⟨_, h2, _⟩ | ⟨m, _, _, _, _, h2⟩
    · rw [h2] at hk
      exact ih k n hk
    · rw [h2] at hk
      simp only [getNode, mapFind_mapAssign] at hk
      by_cases hm : m.m_id = k
      · rw [if_pos hm] at hk
        cases hk
        exact hm
      · rw [if_neg hm] at hk
        exact ih k n hk
  | remove s x _ ih =>
    intro k n hk
    rcases removeNode_cases s x with ⟨_, _, h2⟩ | ⟨_, _, h2⟩
    · rw [h2] at hk
      exact ih k n hk
    · rw [h2] at hk
      simp only [getNode, mapFind_mapErase] at hk
      by_cases hx : k = x
      · rw [if_pos hx] at hk
        cases hk
      · rw [if_neg hx] at hk
        exact ih k n hk
  | connect s a ap b bp _ ih =>
    intro k n hk
    rcases connectNodes_cases s a ap b bp with ⟨_, _, h2⟩ | ⟨na, nb, _, _, _, _, _, h2⟩
    · rw [h2] at hk
      exact ih k n hk
    · rw [h2] at hk
      simp only [getNode, mapFind_mapAdjust] at hk
      cases hf : mapFind s.m_nodes k with
      | none => by_cases h1 : a = k <;> by_cases h3 : b = k <;> simp [hf, h1, h3] at hk
      | some m =>
        have hm := ih k m hf
        by_cases h1 : a = k <;> by_cases h3 : b = k <;> simp [hf, h1, h3] at hk <;>
          rw [← hk] <;> exact hm
  | reorder s nodes deps dpts hr hn _ _ ih =>
    intro k n hk
    have := mapFind_perm s.m_nodes nodes k hr.consistent.nodes_nodup hn
    simp only [getNode] at hk
    rw [this] at hk
    exact ih k n hk

/-- C35: a successful `connectNodes(s, sp, t, tp)` on a reachable processor leaves
the target node with the one more inbound `Connection` `(s, sp)` at the end of the
list under its input port `tp`, its other inbound lists as they were, and `tp` in
its input port list; it leaves the source node with the one more outbound
`Connection` `(t, tp)` at the end of the list under its output port `sp`, its
other outbound lists as they were, and `sp` in its output port list; every other
node is as it was. -/
theorem C35_connectNodes_both_endpoints {D : Type} (s : DAGProcessor D) (hr : Reachable s)
    (sourceId sourcePort targetId targetPort : String)
    (hok : (connectNodes s sourceId sourcePort targetId targetPort).1 = true) :
    ∃ source target source1 target1,
      getNode s sourceId = some source ∧ getNode s targetId = some target ∧
      getNode (connectNodes s sourceId sourcePort targetId targetPort).2 sourceId =
        some source1 ∧
      getNode (connectNodes s sourceId sourcePort targetId targetPort).2 targetId =
        some target1 ∧
      inputConnectionsAt target1 targetPort =
        inputConnectionsAt target targetPort ++ [{ node := sourceId, port := sourcePort }] ∧
      (∀ q, q ≠ targetPort → inputConnectionsAt target1 q = inputConnectionsAt target q) ∧
      targetPort ∈ target1.m_inputPorts ∧
      outputConnectionsAt source1 sourcePort =
        outputConnectionsAt source sourcePort ++ [{ node := targetId, port := targetPort }] ∧
      (∀ q, q ≠ sourcePort → outputConnectionsAt source1 q = outputConnectionsAt source q) ∧
      sourcePort ∈ source1.m_outputPorts ∧
      (sourceId ≠ targetId →
        target1.m_outputConnections = target.m_outputConnections ∧
        target1.m_outputPorts = target.m_outputPorts ∧
        source1.m_inputConnections = source.m_inputConnections ∧
        source1.m_inputPorts = source.m_inputPorts) ∧
      (∀ k, k ≠ sourceId → k ≠ targetId →
        getNode (connectNodes s sourceId sourcePort targetId targetPort).2 k =
          getNode s k) := by
  rcases connectNodes_cases s sourceId sourcePort targetId targetPort with
    ⟨_, h1, _⟩ | ⟨na, nb, ha, hb, _, _, _, h2⟩
  · rw [h1] at hok
    cases hok
  · have ida : na.m_id = sourceId := hr.key_is_id _ _ ha
    have idb : nb.m_id = targetId := hr.key_is_id _ _ hb
    have hin : ∀ n : FlowNode D,
        targetPort ∈ (n.addInputConnection targetPort na sourcePort).m_inputPorts := by
      intro n
      simp only [FlowNode.addInputConnection]
      by_cases h : targetPort ∈ n.m_inputPorts <;> simp [h]
    have hout : ∀ n : FlowNode D,
        sourcePort ∈ (n.addOutputConnection sourcePort nb targetPort).m_outputPorts := by
      intro n
      simp only [FlowNode.addOutputConnection]
      by_cases h : sourcePort ∈ n.m_outputPorts <;> simp [h]
    have ha1 : mapFind s.m_nodes sourceId = some na := ha
    have hb1 : mapFind s.m_nodes targetId = some nb := hb
    by_cases hst : sourceId = targetId
    · subst hst
      have hab : na = nb := by
        rw [ha] at hb
        exact Option.some.inj hb
      subst hab
      refine ⟨na, na,
        (na.addInputConnection targetPort na sourcePort).addOutputConnection
          sourcePort na targetPort,
        (na.addInputConnection targetPort na sourcePort).addOutputConnection
          sourcePort na targetPort, ha, ha, ?_, ?_, ?_, ?_, ?_, ?_, ?_, ?_, ?_, ?_⟩
      · rw [h2]
        simp [getNode, mapFind_mapAdjust, ha1]
      · rw [h2]
        simp [getNode, mapFind_mapAdjust, ha1]
      · have := inputConnectionsAt_add na targetPort na sourcePort targetPort
        rw [if_pos rfl, ida] at this
        exact this
      · intro q hq
        have := inputConnectionsAt_add na targetPort na sourcePort q
        rw [if_neg (fun h => hq h.symm)] at this
        exact this
      · exact hin na
      · have := outputConnectionsAt_add (na.addInputConnection targetPort na sourcePort)
          sourcePort na targetPort sourcePort
        rw [if_pos rfl, ida] at this
        exact this
      · intro q hq
        have := outputConnectionsAt_add (na.addInputConnection targetPort na sourcePort)
          sourcePort na targetPort q
        rw [if_neg (fun h => hq h.symm)] at this
        exact this
      · exact hout _
      · intro h
        exact absurd rfl h
      · intro k hk _
        rw [h2]
        simp [getNode, mapFind_mapAdjust, Ne.symm hk]
    · refine ⟨na, nb, na.addOutputConnection sourcePort nb targetPort,
        nb.addInputConnection targetPort na sourcePort, ha, hb, ?_, ?_, ?_, ?_, ?_, ?_, ?_,
        ?_, ?_, ?_⟩
      · rw [h2]
        simp [getNode, mapFind_mapAdjust, ha1, Ne.symm hst]
      · rw [h2]
        simp [getNode, mapFind_mapAdjust, hb1, hst]
      · have := inputConnectionsAt_add nb targetPort na sourcePort targetPort
        rw [if_pos rfl, ida] at this
        exact this
      · intro q hq
        have := inputConnectionsAt_add nb targetPort na sourcePort q
        rw [if_neg (fun h => hq h.symm)] at this
        exact this
      · exact hin nb
      · have := outputConnectionsAt_add na sourcePort nb targetPort sourcePort
        rw [if_pos rfl, idb] at this
        exact this
      · intro q hq
        have := outputConnectionsAt_add na sourcePort nb targetPort q
        rw [if_neg (fun h => hq h.symm)] at this
        exact this
      · exact hout na
      · intro _
        exact ⟨rfl, rfl, rfl, rfl⟩
      · intro k hk hk'
        rw [h2]
        simp [getNode, mapFind_mapAdjust, Ne.symm hk, Ne.symm hk']

theorem C35_connectNodes_both_endpoints_witness :
    Reachable nodesAB ∧ (connectNodes nodesAB "A" "out" "B" "in").1 = true ∧
    (getNode (connectNodes nodesAB "A" "out" "B" "in").2 "B").map
        (fun n => (n.m_inputPorts, n.m_inputConnections, n.m_outputConnections)) =
      some (["in"], [("in", [{ node := "A", port := "out" }])], []) ∧
    (getNode (connectNodes nodesAB "A" "out" "B" "in").2 "A").map
        (fun n => (n.m_outputPorts, n.m_outputConnections, n.m_inputConnections)) =
      some (["out"], [("out", [{ node := "B", port := "in" }])], []) ∧
    ∃ source target source1 target1,
      getNode nodesAB "A" = some source ∧ getNode nodesAB "B" = some target ∧
      getNode (connectNodes nodesAB "A" "out" "B" "in").2 "A" = some source1 ∧
      getNode (connectNodes nodesAB "A" "out" "B" "in").2 "B" = some target1 ∧
      inputConnectionsAt target1 "in" =
        inputConnectionsAt target "in" ++ [{ node := "A", port := "out" }] ∧
      outputConnectionsAt source1 "out" =
        outputConnectionsAt source "out" ++ [{ node := "B", port := "in" }] :=
  have hreach : Reachable nodesAB :=
    Reachable.add _ _ (Reachable.add _ _ Reachable.init)
  have h := C35_connectNodes_both_endpoints nodesAB hreach "A" "out" "B" "in" (by rfl)
  ⟨hreach, by rfl, by decide, by decide,
    match h with
    | ⟨a, b, a1, b1, h1, h2, h3, h4, h5, _, _, h8, _⟩ =>
      ⟨a, b, a1, b1, h1, h2, h3, h4, h5, h8⟩⟩

/-! ## DatabaseStubs: escapeString and formatQuery -/

theorem exists_split_of_mem (c : Char) :
    ∀ l : List Char, c ∈ l →
      ∃ pre post, l = pre ++ c :: post ∧ c ∉ pre ∧ l.indexOf c = pre.length := by
  intro l
  induction l with
  | nil => intro h; cases h
  | cons a l ih =>
    intro h
    by_cases hac : a = c
    · subst hac
      exact ⟨[], l, rfl, by simp, by simp⟩
    · have hl : c ∈ l := by
        rcases List.mem_cons.1 h with h | h
        · exact absurd h.symm hac
        · exact h
      obtain ⟨pre, post, h1, h2, h3⟩ := ih hl
      refine ⟨a :: pre, post, by rw [h1]; rfl, ?_, ?_⟩
      · intro hm
        rcases List.mem_cons.1 hm with hm | hm
        · exact hac hm.symm
        · exact h2 hm
      · rw [List.indexOf_cons_ne _ hac, h3]
        rfl

theorem strFind_none (done rest : List Char) (c : Char) (h : c ∉ rest) :
    strFind (done ++ rest) c done.length = none := by
  simp [strFind, h]

theorem strFind_some (done pre post : List Char) (c : Char) (h : c ∉ pre) :
    strFind (done ++ (pre ++ c :: post)) c done.length = some (done.length + pre.length) := by
  have hd : List.drop done.length (done ++ (pre ++ c :: post)) = pre ++ c :: post := by
    simp
  simp only [strFind, hd]
  rw [if_pos (by simp), List.indexOf_append_of_not_mem h]
  simp

theorem strReplace1_at (done pre post t : List Char) (c : Char) :
    strReplace1 (done ++ (pre ++ c :: post)) (done.length + pre.length) t =
      (done ++ pre ++ t) ++ post := by
  have h1 : done ++ (pre ++ c :: post) = (done ++ pre) ++ c :: post := by simp
  have h2 : done.length + pre.length = (done ++ pre).length := by simp
  rw [strReplace1, h1, h2, List.take_left]
  have h3 : List.drop ((done ++ pre).length + 1) ((done ++ pre) ++ c :: post) = post := by
    rw [List.drop_append]
    rfl
  rw [h3]

theorem flatMap_no_quote (l : List Char) (h : quoteChar ∉ l) :
    l.flatMap (fun c => if c = quoteChar then [quoteChar, quoteChar] else [c]) = l := by
  induction l with
  | nil => rfl
  | cons a l ih =>
    have ha : a ≠ quoteChar := fun e => h (by simp [e])
    have hl : quoteChar ∉ l := fun e => h (List.mem_cons_of_mem _ e)
    simp only [List.flatMap_cons, if_neg ha, ih hl]
    rfl

theorem escapeLoop_spec :
    ∀ (n : Nat) (rest done : List Char) (fuel : Nat), rest.length ≤ n → n < fuel →
      escapeLoop fuel (done ++ rest) done.length =
        some (done ++
          rest.flatMap (fun c => if c = quoteChar then [quoteChar, quoteChar] else [c])) := by
  intro n
  induction n with
  | zero =>
    intro rest done fuel hn hf
    have : rest = [] := List.length_eq_zero.1 (by omega)
    subst this
    obtain ⟨fuel, rfl⟩ : ∃ k, fuel = k + 1 := ⟨fuel - 1, by omega⟩
    simp [escapeLoop, strFind]
  | succ n ih =>
    intro rest done fuel hn hf
    obtain ⟨fuel, rfl⟩ : ∃ k, fuel = k + 1 := ⟨fuel - 1, by omega⟩
    by_cases hq : quoteChar ∈ rest
    · obtain ⟨pre, post, h1, h2, _⟩ := exists_split_of_mem quoteChar rest hq
      subst h1
      rw [escapeLoop, strFind_some done pre post quoteChar h2]
      simp only
      rw [strReplace1_at]
      have hlen : done.length + pre.length + 2 =
          (done ++ pre ++ [quoteChar, quoteChar]).length := by
        simp only [List.length_append, List.length_cons, List.length_nil]
      rw [hlen, ih post _ fuel (by simp at hn; omega) (by omega)]
      simp [List.flatMap_append, flatMap_no_quote pre h2]
    · rw [escapeLoop, strFind_none done rest quoteChar hq]
      simp only
      rw [flatMap_no_quote rest hq]

/-- `escapeString` returns, and what it returns is the parameter in single quotes
with every single quote doubled. -/
theorem escapeString_spec (input : List Char) :
    DatabaseStubs.escapeString input = some (quoted input) := by
  have := escapeLoop_spec input.length input [] (input.length + 1) (le_refl _) (by omega)
  simp only [List.nil_append, List.length_nil] at this
  simp [DatabaseStubs.escapeString, this, quoted]

theorem substitute_nil (l : List Char) : substitutePlaceholders l [] = l := by
  cases l <;> rfl

theorem substitute_no_placeholder :
    ∀ (l : List Char) (ps : List (List Char)), '?' ∉ l → substitutePlaceholders l ps = l := by
  intro l
  induction l with
  | nil => intro ps _; rfl
  | cons a l ih =>
    intro ps h
    have ha : a ≠ '?' := fun e => h (by simp [e])
    have hl : '?' ∉ l := fun e => h (List.mem_cons_of_mem _ e)
    cases ps with
    | nil => rfl
    | cons p ps => simp only [substitutePlaceholders, if_neg ha, ih _ hl]

theorem substitute_split (pre post p : List Char) (ps : List (List Char)) (h : '?' ∉ pre) :
    substitutePlaceholders (pre ++ '?' :: post) (p :: ps) =
      pre ++ quoted p ++ substitutePlaceholders post ps := by
  induction pre with
  | nil => simp [substitutePlaceholders]
  | cons a pre ih =>
    have ha : a ≠ '?' := fun e => h (by simp [e])
    have hl : '?' ∉ pre := fun e => h (List.mem_cons_of_mem _ e)
    have e1 : substitutePlaceholders (a :: (pre ++ '?' :: post)) (p :: ps) =
        a :: substitutePlaceholders (pre ++ '?' :: post) (p :: ps) := by
      simp only [substitutePlaceholders, if_neg ha]
    rw [List.cons_append, e1, ih hl]
    simp

theorem quoted_no_placeholder (p : List Char) (h : '?' ∉ p) : '?' ∉ quoted p := by
  have hq : '?' ≠ quoteChar := by decide
  intro hm
  simp only [quoted, List.mem_append, List.mem_singleton, List.mem_flatMap] at hm
  rcases hm with (hm | ⟨c, hc, hm⟩) | hm
  · exact hq hm
  · by_cases hcq : c = quoteChar
    · rw [if_pos hcq] at hm
      simp only [List.mem_cons, List.mem_singleton, List.not_mem_nil, or_false, or_self] at hm
      exact hq hm
    · rw [if_neg hcq] at hm
      simp only [List.mem_singleton] at hm
      subst hm
      exact h hc
  · exact hq hm

/-- As long as no parameter contains a `?`, the loop of `formatQuery` replaces the
placeholders of the query one after the other, from left to right. -/
theorem formatLoop_spec :
    ∀ (ps : List (List Char)) (done rest : List Char), '?' ∉ done →
      (∀ p, p ∈ ps → '?' ∉ p) →
      formatLoop ps (done ++ rest) = some (done ++ substitutePlaceholders rest ps) := by
  intro ps
  induction ps with
  | nil =>
    intro done rest _ _
    rw [substitute_nil]
    rfl
  | cons p ps ih =>
    intro done rest hd hps
    have hp : '?' ∉ p := hps p (List.mem_cons_self _ _)
    have hps1 : ∀ q, q ∈ ps → '?' ∉ q := fun q hq => hps q (List.mem_cons_of_mem _ hq)
    by_cases hr : '?' ∈ rest
    · obtain ⟨pre, post, h1, h2, _⟩ := exists_split_of_mem '?' rest hr
      subst h1
      have hdp : '?' ∉ done ++ pre := by
        intro hm
        rcases List.mem_append.1 hm with hm | hm
        · exact hd hm
        · exact h2 hm
      have hfind := strFind_some [] (done ++ pre) post '?' hdp
      have hrep := strReplace1_at [] (done ++ pre) post (quoted p) '?'
      simp only [List.nil_append, List.length_nil, Nat.zero_add] at hfind hrep
      have hform : done ++ (pre ++ '?' :: post) = (done ++ pre) ++ '?' :: post := by simp
      rw [hform, formatLoop, hfind]
      simp only [escapeString_spec]
      rw [hrep, ih (done ++ pre ++ quoted p) post ?_ hps1, substitute_split pre post p ps h2]
      · simp
      · intro hm
        rcases List.mem_append.1 hm with hm | hm
        · exact hdp hm
        · exact quoted_no_placeholder p hp hm
    · have hnone : strFind (done ++ rest) '?' 0 = none := by
        have := strFind_none [] (done ++ rest) '?' (by
          intro hm
          rcases List.mem_append.1 hm with hm | hm
          · exact hd hm
          · exact hr hm)
        simpa using this
      rw [formatLoop, hnone]
      simp only
      rw [ih done rest hd hps1, substitute_no_placeholder rest (p :: ps) hr,
        substitute_no_placeholder rest ps hr]

theorem formatQuery_spec (query : List Char) (parameters : List (List Char))
    (h : ∀ p, p ∈ parameters → '?' ∉ p) :
    DatabaseStubs.formatQuery query parameters =
      some (substitutePlaceholders query parameters) := by
  have := formatLoop_spec parameters [] query (by simp) h
  simpa [DatabaseStubs.formatQuery] using this

theorem formatQuery_total (query : List Char) (parameters : List (List Char)) :
    ∃ r, DatabaseStubs.formatQuery query parameters = some r := by
  unfold DatabaseStubs.formatQuery
  induction parameters generalizing query with
  | nil => exact ⟨query, rfl⟩
  | cons p ps ih =>
    rw [formatLoop]
    cases strFind query '?' 0 with
    | none => exact ih query
    | some pos =>
      simp only [escapeString_spec]
      exact ih _

/-- C40, at the query `a=? AND b=?` with the parameters `x?` and `y`: `formatQuery`
puts the second parameter in place of the `?` inside the first parameter, which it
has just inserted, and leaves the second placeholder of the query as it is; the
claim has `a='x?' AND b='y'` there. -/
theorem C40_formatQuery_failing_input :
    DatabaseStubs.formatQuery "a=? AND b=?".toList ["x?".toList, "y".toList] =
      some "a='x'y'' AND b=?".toList ∧
    substitutePlaceholders "a=? AND b=?".toList ["x?".toList, "y".toList] =
      "a='x?' AND b='y'".toList ∧
    DatabaseStubs.formatQuery "a=? AND b=?".toList ["x?".toList, "y".toList] ≠
      some (substitutePlaceholders "a=? AND b=?".toList ["x?".toList, "y".toList]) := by
  refine ⟨by decide, by decide, by decide⟩

/-! ## Termination: each node is entered once and pushed once -/

theorem relaxDependentsLogged_eq :
    ∀ (ds : List String) (inDegree : List (String × Int)) (queue pushed : List String),
      (relaxDependentsLogged ds inDegree queue pushed).1 =
        (relaxDependents ds inDegree queue).1 ∧
      (relaxDependentsLogged ds inDegree queue pushed).2.1 =
        (relaxDependents ds inDegree queue).2 ∧
      ∀ sortedNodes, pushed = sortedNodes ++ queue →
        (relaxDependentsLogged ds inDegree queue pushed).2.2 =
          sortedNodes ++ (relaxDependents ds inDegree queue).2 := by
  intro ds
  induction ds with
  | nil =>
    intro inDegree queue pushed
    exact ⟨rfl, rfl, fun _ h => h⟩
  | cons d rest ih =>
    intro inDegree queue pushed
    by_cases h0 : degreeOf (mapModify inDegree d 0 (fun x => x - 1)) d = 0
    · simp only [relaxDependentsLogged, relaxDependents, h0, if_true]
      obtain ⟨a, b, c⟩ := ih (mapModify inDegree d 0 (fun x => x - 1)) (queue ++ [d])
        (pushed ++ [d])
      refine ⟨a, b, ?_⟩
      intro sortedNodes hp
      exact c sortedNodes (by rw [hp, List.append_assoc])
    · simp only [relaxDependentsLogged, relaxDependents, h0, if_false]
      exact ih _ _ _

/-- The logged loop is the loop, and its log is the output: a node is appended to
`sortedNodes` when it leaves the queue, so once the queue is empty the pushes are
the output. -/
theorem sortLoopLogged_eq {D : Type} (s : DAGProcessor D) :
    ∀ (fuel : Nat) (inDegree : List (String × Int)) (queue sortedNodes pushed : List String),
      pushed = sortedNodes ++ queue →
      sortLoopLogged s fuel inDegree queue sortedNodes pushed =
        (sortLoop s fuel inDegree queue sortedNodes).map (fun r => (r, r)) := by
  intro fuel
  induction fuel with
  | zero =>
    intro inDegree queue sortedNodes pushed hp
    cases queue with
    | nil => simp [sortLoopLogged, sortLoop, hp]
    | cons c q => simp [sortLoopLogged, sortLoop]
  | succ fuel ih =>
    intro inDegree queue sortedNodes pushed hp
    cases queue with
    | nil => simp [sortLoopLogged, sortLoop, hp]
    | cons c q =>
      have hp1 : pushed = (sortedNodes ++ [c]) ++ q := by rw [hp]; simp
      cases hd : mapFind s.m_dependents c with
      | none =>
        simp only [sortLoopLogged, sortLoop, hd]
        exact ih _ _ _ _ hp1
      | some ds =>
        simp only [sortLoopLogged, sortLoop, hd]
        obtain ⟨a, b, c1⟩ := relaxDependentsLogged_eq ds inDegree q pushed
        rw [a, b]
        exact ih _ _ _ _ (c1 _ hp1)

theorem topologicalSortLogged_eq {D : Type} (s : DAGProcessor D) :
    topologicalSortLogged s = (topologicalSort s).map (fun r => (r.1, r.2, r.2)) := by
  unfold topologicalSortLogged topologicalSort
  simp only
  rw [sortLoopLogged_eq s _ _ _ _ _ (by simp)]
  cases sortLoop s (initialInDegree s).length (initialInDegree s)
    (initialQueue (initialInDegree s)) [] <;> rfl

theorem scanDependentsLogged_eq
    (recurse : String → List String → List String → Option (Bool × List String × List String))
    (logged : String → List String → List String → List String →
      Option (Bool × List String × List String × List String))
    (hrec : ∀ d v r e, (logged d v r e).map (fun x => (x.1, x.2.1, x.2.2.1)) = recurse d v r) :
    ∀ (ds v r e : List String),
      (scanDependentsLogged logged ds v r e).map (fun x => (x.1, x.2.1, x.2.2.1)) =
        scanDependents recurse ds v r := by
  intro ds
  induction ds with
  | nil => intro v r e; rfl
  | cons d rest ih =>
    intro v r e
    by_cases h1 : d ∈ r
    · simp [scanDependentsLogged, scanDependents, h1]
    · by_cases h2 : d ∈ v
      · simp only [scanDependentsLogged, scanDependents, h1, h2, if_false, not_true_eq_false]
        exact ih v r e
      · have h := hrec d v r e
        simp only [scanDependentsLogged, scanDependents, h1, h2, if_false, not_false_eq_true,
          if_true]
        rw [← h]
        cases hl : logged d v r e with
        | none => rfl
        | some x =>
          obtain ⟨b, v1, r1, e1⟩ := x
          cases b with
          | true => rfl
          | false => exact ih v1 r1 e1

theorem detectCyclesHelperLogged_eq {D : Type} (s : DAGProcessor D) :
    ∀ (fuel : Nat) (n : String) (v r e : List String),
      (detectCyclesHelperLogged s fuel n v r e).map (fun x => (x.1, x.2.1, x.2.2.1)) =
        detectCyclesHelper s fuel n v r := by
  intro fuel
  induction fuel with
  | zero => intro n v r e; rfl
  | succ fuel ih =>
    intro n v r e
    cases hd : mapFind s.m_dependents n with
    | none => simp [detectCyclesHelperLogged, detectCyclesHelper, hd]
    | some ds =>
      have h := scanDependentsLogged_eq (detectCyclesHelper s fuel)
        (detectCyclesHelperLogged s fuel) ih ds (List.insert n v) (List.insert n r) (e ++ [n])
      simp only [detectCyclesHelperLogged, detectCyclesHelper, hd]
      rw [← h]
      cases hl : scanDependentsLogged (detectCyclesHelperLogged s fuel) ds (List.insert n v)
          (List.insert n r) (e ++ [n]) with
      | none => rfl
      | some x =>
        obtain ⟨b, v1, r1, e1⟩ := x
        cases b <;> rfl

theorem detectLoopLogged_eq {D : Type} (s : DAGProcessor D) :
    ∀ (rest : List (String × FlowNode D)) (v r e : List String),
      (detectLoopLogged s rest v r e).map Prod.fst = detectLoop s rest v r := by
  intro rest
  induction rest with
  | nil => intro v r e; rfl
  | cons a rest ih =>
    intro v r e
    by_cases h1 : a.1 ∈ v
    · simp only [detectLoopLogged, detectLoop, h1, not_true_eq_false, if_false]
      exact ih v r e
    · have h := detectCyclesHelperLogged_eq s (detectFuel s) a.1 v r e
      simp only [detectLoopLogged, detectLoop, h1, not_false_eq_true, if_true]
      rw [← h]
      cases hl : detectCyclesHelperLogged s (detectFuel s) a.1 v r e with
      | none => rfl
      | some x =>
        obtain ⟨b, v1, r1, e1⟩ := x
        cases b with
        | true => rfl
        | false => exact ih v1 r1 e1

theorem scanDependentsLogged_once {D : Type} (s : DAGProcessor D)
    (logged : String → List String → List String → List String →
      Option (Bool × List String × List String × List String))
    (hrec : ∀ d v r e, d ∈ mapKeys s.m_nodes → d ∉ v → EnteredOnce s v e →
      ∀ res, logged d v r e = some res → EnteredOnce s res.2.1 res.2.2.2) :
    ∀ (ds v r e : List String), (∀ d, d ∈ ds → d ∈ mapKeys s.m_nodes) → EnteredOnce s v e →
      ∀ res, scanDependentsLogged logged ds v r e = some res →
        EnteredOnce s res.2.1 res.2.2.2 := by
  intro ds
  induction ds with
  | nil =>
    intro v r e _ hinv res hres
    simp only [scanDependentsLogged, Option.some.injEq] at hres
    subst hres
    exact hinv
  | cons d rest ih =>
    intro v r e hN hinv res hres
    have hN1 : ∀ x, x ∈ rest → x ∈ mapKeys s.m_nodes :=
      fun x hx => hN x (List.mem_cons_of_mem _ hx)
    by_cases h1 : d ∈ r
    · simp only [scanDependentsLogged, h1, if_true, Option.some.injEq] at hres
      subst hres
      exact hinv
    · by_cases h2 : d ∈ v
      · simp only [scanDependentsLogged, h1, h2, if_false, not_true_eq_false] at hres
        exact ih v r e hN1 hinv res hres
      · simp only [scanDependentsLogged, h1, h2, if_false, not_false_eq_true, if_true] at hres
        cases hl : logged d v r e with
        | none => simp [hl] at hres
        | some x =>
          have hx := hrec d v r e (hN d (List.mem_cons_self _ _)) h2 hinv x hl
          obtain ⟨b, v1, r1, e1⟩ := x
          cases b with
          | true =>
            simp only [hl, Option.some.injEq] at hres
            subst hres
            exact hx
          | false =>
            simp only [hl] at hres
            exact ih v1 r1 e1 hN1 hx res hres

/-- Entering `detectCyclesHelper` on a node that is not visited keeps the log free
of duplicates: the node joins the visited set on entry, and the set only grows. -/
theorem detectCyclesHelperLogged_once {D : Type} (s : DAGProcessor D) (hs : Consistent s) :
    ∀ (fuel : Nat) (n : String) (v r e : List String), n ∈ mapKeys s.m_nodes → n ∉ v →
      EnteredOnce s v e →
      ∀ res, detectCyclesHelperLogged s fuel n v r e = some res →
        EnteredOnce s res.2.1 res.2.2.2 := by
  intro fuel
  induction fuel with
  | zero =>
    intro n v r e _ _ _ res hres
    simp [detectCyclesHelperLogged] at hres
  | succ fuel ih =>
    intro n v r e hn hnv hinv res hres
    have hinv1 : EnteredOnce s (List.insert n v) (e ++ [n]) := by
      refine ⟨?_, ?_, ?_⟩
      · rw [List.nodup_append]
        refine ⟨hinv.nodup, List.nodup_singleton n, ?_⟩
        intro x hx hx'
        rw [List.mem_singleton] at hx'
        subst hx'
        exact hnv (hinv.visited _ hx)
      · intro x hx
        rcases List.mem_append.1 hx with hx | hx
        · exact List.mem_insert_of_mem (hinv.visited x hx)
        · rw [List.mem_singleton] at hx
          subst hx
          exact List.mem_insert_self _ _
      · intro x hx
        rcases List.mem_append.1 hx with hx | hx
        · exact hinv.node x hx
        · rw [List.mem_singleton] at hx
          subst hx
          exact hn
    cases hd : mapFind s.m_dependents n with
    | none =>
      simp only [detectCyclesHelperLogged, hd, Option.some.injEq] at hres
      subst hres
      exact hinv1
    | some ds =>
      have hds : ∀ d, d ∈ ds → d ∈ mapKeys s.m_nodes := by
        intro d hdm
        apply hs.dpts_mem n d
        simp only [dependentsOf, hd]
        exact hdm
      simp only [detectCyclesHelperLogged, hd] at hres
      cases hl : scanDependentsLogged (detectCyclesHelperLogged s fuel) ds (List.insert n v)
          (List.insert n r) (e ++ [n]) with
      | none => simp [hl] at hres
      | some x =>
        have hx := scanDependentsLogged_once s (detectCyclesHelperLogged s fuel) ih ds
          (List.insert n v) (List.insert n r) (e ++ [n]) hds hinv1 x hl
        obtain ⟨b, v1, r1, e1⟩ := x
        cases b with
        | true =>
          simp only [hl, Option.some.injEq] at hres
          subst hres
          exact hx
        | false =>
          simp only [hl, Option.some.injEq] at hres
          subst hres
          exact hx

theorem detectLoopLogged_once {D : Type} (s : DAGProcessor D) (hs : Consistent s) :
    ∀ (rest : List (String × FlowNode D)) (v r e : List String),
      (∀ a, a ∈ rest → a.1 ∈ mapKeys s.m_nodes) → EnteredOnce s v e →
      ∀ res, detectLoopLogged s rest v r e = some res →
        res.2.Nodup ∧ ∀ x, x ∈ res.2 → x ∈ mapKeys s.m_nodes := by
  intro rest
  induction rest with
  | nil =>
    intro v r e _ hinv res hres
    simp only [detectLoopLogged, Option.some.injEq] at hres
    subst hres
    exact ⟨hinv.nodup, hinv.node⟩
  | cons a rest ih =>
    intro v r e hN hinv res hres
    have hN1 : ∀ x, x ∈ rest → x.1 ∈ mapKeys s.m_nodes :=
      fun x hx => hN x (List.mem_cons_of_mem _ hx)
    by_cases h1 : a.1 ∈ v
    · simp only [detectLoopLogged, h1, not_true_eq_false, if_false] at hres
      exact ih v r e hN1 hinv res hres
    · simp only [detectLoopLogged, h1, not_false_eq_true, if_true] at hres
      cases hl : detectCyclesHelperLogged s (detectFuel s) a.1 v r e with
      | none => simp [hl] at hres
      | some x =>
        have hx := detectCyclesHelperLogged_once s hs (detectFuel s) a.1 v r e
          (hN a (List.mem_cons_self _ _)) h1 hinv x hl
        obtain ⟨b, v1, r1, e1⟩ := x
        cases b with
        | true =>
          simp only [hl, Option.some.injEq] at hres
          subst hres
          exact ⟨hx.nodup, hx.node⟩
        | false =>
          simp only [hl] at hres
          exact ih v1 r1 e1 hN1 hx res hres

theorem length_le_of_nodup_of_nodes {D : Type} (s : DAGProcessor D) (l : List String)
    (hnd : l.Nodup) (hsub : ∀ x, x ∈ l → x ∈ mapKeys s.m_nodes) :
    l.length ≤ s.m_nodes.length := by
  have h := (List.Nodup.subperm hnd (fun x hx => hsub x hx)).length_le
  simpa [mapKeys] using h

/-- C38: on a reachable processor, with or without a cycle, `detectCycles` and
`topologicalSort` return. `detectCyclesHelper` is entered on no id twice and only
on ids of nodes, so at most once per node; and no id is pushed twice on the queue
of `topologicalSort`, only ids of nodes are pushed, and the ids pushed are the
ids output. -/
theorem C38_loops_terminate {D : Type} (s : DAGProcessor D) (hr : Reachable s) :
    (∃ b entered, detectCycles s = some b ∧ detectCyclesLogged s = some (b, entered) ∧
      entered.Nodup ∧ (∀ x, x ∈ entered → (getNode s x).isSome = true) ∧
      entered.length ≤ s.m_nodes.length) ∧
    (∃ b sortedNodes pushed, topologicalSort s = some (b, sortedNodes) ∧
      topologicalSortLogged s = some (b, sortedNodes, pushed) ∧
      pushed = sortedNodes ∧ pushed.Nodup ∧
      (∀ x, x ∈ pushed → (getNode s x).isSome = true) ∧
      pushed.length ≤ s.m_nodes.length) := by
  have hc := hr.consistent
  constructor
  · obtain ⟨b, hb, _⟩ := hasCycles_spec s hc
    have hb1 : detectLoop s s.m_nodes [] [] = some b := hb
    have heq := detectLoopLogged_eq s s.m_nodes [] [] []
    rw [hb1] at heq
    cases hl : detectLoopLogged s s.m_nodes [] [] [] with
    | none => simp [hl] at heq
    | some res =>
      rw [hl] at heq
      simp only [Option.map_some', Option.some.injEq] at heq
      obtain ⟨h1, h2⟩ := detectLoopLogged_once s hc s.m_nodes [] [] []
        (fun a ha => List.mem_map_of_mem Prod.fst ha)
        ⟨List.nodup_nil, fun x hx => (by cases hx), fun x hx => (by cases hx)⟩ res hl
      refine ⟨b, res.2, hb, ?_, h1, fun x hx => (getNode_isSome_iff s x).2 (h2 x hx),
        length_le_of_nodup_of_nodes s _ h1 h2⟩
      show detectLoopLogged s s.m_nodes [] [] [] = some (b, res.2)
      rw [hl, ← heq]
  · obtain ⟨sortedNodes, ht, hnd, hsub, _⟩ := topologicalSort_spec s hc
    refine ⟨_, sortedNodes, sortedNodes, ht, ?_, rfl, hnd,
      fun x hx => (getNode_isSome_iff s x).2 (hsub x hx),
      length_le_of_nodup_of_nodes s _ hnd hsub⟩
    rw [topologicalSortLogged_eq, ht]
    rfl

theorem C38_loops_terminate_witness :
    Reachable cycleAB ∧
    detectCyclesLogged cycleAB = some (true, ["Z", "A", "B"]) ∧
    topologicalSortLogged cycleAB = some (false, ["Z"], ["Z"]) ∧
    (∃ b entered, detectCycles cycleAB = some b ∧
      detectCyclesLogged cycleAB = some (b, entered) ∧
      entered.Nodup ∧ (∀ x, x ∈ entered → (getNode cycleAB x).isSome = true) ∧
      entered.length ≤ cycleAB.m_nodes.length) :=
  ⟨reachable_cycleAB, by decide, by decide,
    (C38_loops_terminate cycleAB reachable_cycleAB).1⟩

end Flow
